import Mathlib

/-!
# golearn: concurrency patterns of `03_concurrency`

Shallow embedding of the goroutine programs of `05_patterns.go`, `04_context.go`
and `03_sync.go`.  Every goroutine is a small program counter, every channel is
its buffer together with its `closed` flag, and a scheduler label picks which
goroutine takes the next atomic step.  A schedule is a list of labels; a step
that is not enabled (a blocked channel operation, a goroutine that has
returned) makes the schedule invalid.  "Every interleaving" is "every valid
schedule".
-/

namespace GoLearn

/-! ## Schedules -/

/-- Runs a labelled step function along a schedule; `none` when some step of
the schedule is not enabled. -/
def runFrom {σ ℓ : Type} (step : σ → ℓ → Option σ) : σ → List ℓ → Option σ
  | s, [] => some s
  | s, l :: ls =>
    match step s l with
    | none => none
    | some s' => runFrom step s' ls

/-! ## Go `int` arithmetic (64 bit, two's complement, wrapping) -/

/-- Wraps a mathematical integer to the range of Go's `int` on a 64-bit target. -/
def wrap64 (x : Int) : Int := (x + 2 ^ 63) % 2 ^ 64 - 2 ^ 63

/-- Go `a * b` on `int`. -/
def mulInt (a b : Int) : Int := wrap64 (a * b)

/-- Go `a + b` on `int`. -/
def addInt (a b : Int) : Int := wrap64 (a + b)

/-! ## WorkerPool (`05_patterns.go`, lines 187-219) -/

namespace WorkerPool

/-- A `func()` handed to `AddTask`: an identity for bookkeeping and whether
calling it panics. -/
structure Task where
  id : Nat
  panics : Bool
  deriving DecidableEq, Repr

/-- The API calls the owning goroutine makes on the pool, in program order. -/
inductive Call where
  | start
  | addTask (t : Task)
  | stop
  deriving DecidableEq, Repr

/-- Program counter of one worker goroutine of `Start`. -/
inductive Worker where
  /-- at `for task := range p.tasks` -/
  | ranging
  /-- inside `task()` -/
  | running (t : Task)
  /-- the loop was left and the deferred `p.wg.Done()` has run -/
  | exited
  deriving DecidableEq, Repr

/-- Program counter of the goroutine that owns the pool. -/
inductive Caller where
  /-- between two API calls -/
  | ready
  /-- inside the loop of `Start`, with loop variable `i` -/
  | inStart (i : Nat)
  /-- inside `Stop`, after `close(p.tasks)`, at `p.wg.Wait()` -/
  | inStop
  deriving DecidableEq, Repr

/-- Capacity of `p.tasks`: `make(chan func(), 100)`. -/
def queueCap : Nat := 100

/-- The pool together with its goroutines.  `submitted` and `stopCalls` are
history variables: the tasks whose send on `p.tasks` completed, and the number
of `Stop` calls begun. -/
structure Pool where
  maxWorkers : Int
  tasks : List Task
  closed : Bool
  wg : Nat
  workers : List Worker
  caller : Caller
  script : List Call
  executed : List Task
  submitted : List Task
  stopCalls : Nat
  panicked : Bool
  deriving DecidableEq, Repr

/-- Scheduler labels: the owning goroutine, or worker number `i`. -/
inductive Label where
  | caller
  | worker (i : Nat)
  deriving DecidableEq, Repr

/-- `NewWorkerPool(maxWorkers)`, with the calls the owner is going to make. -/
def NewWorkerPool (maxWorkers : Int) (script : List Call) : Pool :=
  { maxWorkers := maxWorkers, tasks := [], closed := false, wg := 0, workers := [],
    caller := .ready, script := script, executed := [], submitted := [],
    stopCalls := 0, panicked := false }

/-- One atomic step of the owning goroutine: the next iteration of the loop of
`Start`, the send of `AddTask`, the `close` of `Stop`, the return of `wg.Wait`. -/
def callerStep (p : Pool) : Option Pool :=
  match p.caller with
  | .inStart i =>
    if (i : Int) < p.maxWorkers then
      some { p with wg := p.wg + 1, workers := p.workers ++ [Worker.ranging],
                    caller := .inStart (i + 1) }
    else some { p with caller := .ready }
  | .inStop => if p.wg = 0 then some { p with caller := .ready } else none
  | .ready =>
    match p.script with
    | [] => none
    | .start :: r => some { p with caller := .inStart 0, script := r }
    | .addTask t :: r =>
      if p.closed then some { p with panicked := true, script := r }
      else if p.tasks.length < queueCap then
        some { p with tasks := p.tasks ++ [t], submitted := p.submitted ++ [t], script := r }
      else none
    | .stop :: r =>
      if p.closed then some { p with panicked := true, script := r, stopCalls := p.stopCalls + 1 }
      else some { p with closed := true, caller := .inStop, script := r,
                         stopCalls := p.stopCalls + 1 }

/-- One atomic step of worker `i`: receive from `p.tasks`, leave the loop when
the channel is closed and drained, or run the body of the task it holds. -/
def workerStep (p : Pool) (i : Nat) : Option Pool :=
  match p.workers[i]? with
  | none => none
  | some .exited => none
  | some .ranging =>
    match p.tasks with
    | t :: q => some { p with tasks := q, workers := p.workers.set i (.running t) }
    | [] =>
      if p.closed then some { p with workers := p.workers.set i .exited, wg := p.wg - 1 }
      else none
  | some (.running t) =>
    if t.panics then some { p with panicked := true }
    else some { p with executed := p.executed ++ [t], workers := p.workers.set i .ranging }

/-- One step of the program.  An unrecovered panic ends the process: nothing
is enabled afterwards. -/
def step (p : Pool) (l : Label) : Option Pool :=
  if p.panicked then none
  else
    match l with
    | .caller => callerStep p
    | .worker i => workerStep p i

/-- The state reached by a schedule. -/
def run (p : Pool) (ls : List Label) : Option Pool := runFrom step p ls

/-- Tasks a worker is executing at this moment. -/
def Worker.current : Worker → List Task
  | .running t => [t]
  | _ => []

/-- Number of `wg.Add(1)` a worker still holds. -/
def Worker.live : Worker → Nat
  | .exited => 0
  | _ => 1

/-- The tasks being executed by the workers. -/
def runningTasks (ws : List Worker) : List Task := ws.flatMap Worker.current

/-- The tasks the remaining calls of the owner are going to hand over. -/
def tasksOf : List Call → List Task
  | [] => []
  | .addTask t :: r => t :: tasksOf r
  | _ :: r => tasksOf r

/-- The owner has made all its calls and the process is alive. -/
def finished (p : Pool) : Bool :=
  p.caller == .ready && p.script.isEmpty && !p.panicked

/-- The program of `main`: `Start`, then `AddTask` for each task, then `Stop`. -/
def mainScript (ts : List Task) : List Call :=
  .start :: (ts.map Call.addTask ++ [.stop])

/-- A schedule of `main`'s program for two workers and three tasks: the owner
runs up to `wg.Wait`, the workers share the tasks and leave, `Stop` returns. -/
def demoSchedule : List Label :=
  [.caller, .caller, .caller, .caller, .caller, .caller, .caller, .caller,
   .worker 0, .worker 1, .worker 0, .worker 1, .worker 0, .worker 0,
   .worker 0, .worker 1, .caller]

/-- Three tasks whose bodies return. -/
def demoTasks : List Task := [⟨1, false⟩, ⟨2, false⟩, ⟨3, false⟩]

/-- The state `demoSchedule` ends in. -/
def demoFinal : Pool :=
  { maxWorkers := 2, tasks := [], closed := true, wg := 0,
    workers := [.exited, .exited], caller := .ready, script := [],
    executed := [⟨1, false⟩, ⟨2, false⟩, ⟨3, false⟩], submitted := demoTasks,
    stopCalls := 1, panicked := false }

/-- The state of `demoSchedule` before its last step: the owner is at `wg.Wait`. -/
def demoWaiting : Pool := { demoFinal with caller := .inStop }

/-- The steps of the program as a relation, one constructor per atomic step. -/
inductive Step : Pool → Label → Pool → Prop where
  | spawn (p : Pool) (i : Nat) : p.panicked = false → p.caller = .inStart i →
      (i : Int) < p.maxWorkers →
      Step p .caller { p with wg := p.wg + 1, workers := p.workers ++ [Worker.ranging],
                              caller := .inStart (i + 1) }
  | started (p : Pool) (i : Nat) : p.panicked = false → p.caller = .inStart i →
      ¬ (i : Int) < p.maxWorkers → Step p .caller { p with caller := .ready }
  | stopped (p : Pool) : p.panicked = false → p.caller = .inStop → p.wg = 0 →
      Step p .caller { p with caller := .ready }
  | callStart (p : Pool) (r : List Call) : p.panicked = false → p.caller = .ready →
      p.script = .start :: r → Step p .caller { p with caller := .inStart 0, script := r }
  | sendClosed (p : Pool) (t : Task) (r : List Call) : p.panicked = false →
      p.caller = .ready → p.script = .addTask t :: r → p.closed = true →
      Step p .caller { p with panicked := true, script := r }
  | send (p : Pool) (t : Task) (r : List Call) : p.panicked = false →
      p.caller = .ready → p.script = .addTask t :: r → p.closed = false →
      p.tasks.length < queueCap →
      Step p .caller { p with tasks := p.tasks ++ [t], submitted := p.submitted ++ [t],
                              script := r }
  | closeClosed (p : Pool) (r : List Call) : p.panicked = false → p.caller = .ready →
      p.script = .stop :: r → p.closed = true →
      Step p .caller { p with panicked := true, script := r, stopCalls := p.stopCalls + 1 }
  | close (p : Pool) (r : List Call) : p.panicked = false → p.caller = .ready →
      p.script = .stop :: r → p.closed = false →
      Step p .caller { p with closed := true, caller := .inStop, script := r,
                              stopCalls := p.stopCalls + 1 }
  | recv (p : Pool) (i : Nat) (t : Task) (q : List Task) : p.panicked = false →
      p.workers[i]? = some .ranging → p.tasks = t :: q →
      Step p (.worker i) { p with tasks := q, workers := p.workers.set i (.running t) }
  | leave (p : Pool) (i : Nat) : p.panicked = false →
      p.workers[i]? = some .ranging → p.tasks = [] → p.closed = true →
      Step p (.worker i) { p with workers := p.workers.set i .exited, wg := p.wg - 1 }
  | taskPanic (p : Pool) (i : Nat) (t : Task) : p.panicked = false →
      p.workers[i]? = some (.running t) → t.panics = true →
      Step p (.worker i) { p with panicked := true }
  | taskDone (p : Pool) (i : Nat) (t : Task) : p.panicked = false →
      p.workers[i]? = some (.running t) → t.panics = false →
      Step p (.worker i) { p with executed := p.executed ++ [t],
                                  workers := p.workers.set i .ranging }

/-- Remaining iterations of the loop of `Start`. -/
def Caller.toSpawn (n : Nat) : Caller → Nat
  | .inStart i => n - i
  | _ => 0

/-- Facts that hold in every state of every pool, whatever calls its owner makes. -/
structure GInv (N : Int) (orig : List Call) (p : Pool) : Prop where
  maxW : p.maxWorkers = N
  wgLive : p.wg = (p.workers.map Worker.live).sum
  exitedClosed : Worker.exited ∈ p.workers → p.closed = true ∧ p.tasks = []
  conserve : p.submitted.Perm (p.executed ++ runningTasks p.workers ++ p.tasks)
  stopClosed : 0 < p.stopCalls → p.closed = true
  inStopClosed : p.caller = .inStop → p.closed = true
  script : p.panicked = false → p.submitted ++ tasksOf p.script = tasksOf orig
  startCount : p.workers.length + N.toNat * p.script.count .start + p.caller.toSpawn N.toNat
      = N.toNat * orig.count .start

/-- Steps a call still costs: the call itself and everything it sets in motion. -/
def Call.cost (n : Nat) : Call → Nat
  | .start => 2 + 2 * n
  | .addTask _ => 3
  | .stop => 2

/-- Steps the owner still takes inside the call it is in. -/
def Caller.cost (n : Nat) : Caller → Nat
  | .ready => 0
  | .inStart i => 1 + 2 * (n - i)
  | .inStop => 1

/-- Steps a worker still takes on its own account. -/
def Worker.cost : Worker → Nat
  | .ranging => 1
  | .running _ => 2
  | .exited => 0

/-- Upper bound on the number of steps the program can still take. -/
def potential (p : Pool) : Nat :=
  (if p.panicked then 0 else 1) + (p.script.map (Call.cost p.maxWorkers.toNat)).sum
    + p.caller.cost p.maxWorkers.toNat + 2 * p.tasks.length + (p.workers.map Worker.cost).sum

/-- Where the owner stands in `mainScript ts`: before `Start`, between `Start`
and `Stop`, or in and after `Stop`. -/
def Shape (ts : List Task) (p : Pool) : Prop :=
  (p.caller = .ready ∧ p.script = mainScript ts ∧ p.closed = false) ∨
  (∃ rest : List Task, p.script = rest.map Call.addTask ++ [.stop] ∧ p.closed = false
      ∧ p.caller ≠ .inStop) ∨
  (p.script = [] ∧ p.closed = true ∧ (p.caller = .inStop ∨ (p.caller = .ready ∧ p.wg = 0)))

/-- Facts that hold in every state of `main`'s use of the pool when no task panics. -/
structure MInv (N : Int) (ts : List Task) (p : Pool) : Prop where
  gen : GInv N (mainScript ts) p
  alive : p.panicked = false
  shape : Shape ts p

end WorkerPool

/-! ## Fan-out / fan-in (`05_patterns.go`, lines 19-61) -/

namespace FanOut

/-- Program counter of one worker goroutine (lines 34-41). -/
inductive Worker where
  /-- at `for num := range jobs` -/
  | ranging
  /-- at `results <- num * num`, holding the product -/
  | sending (v : Int)
  /-- the loop was left and the deferred `wg.Done()` has run -/
  | exited
  deriving DecidableEq, Repr

/-- Program counter of `main` in the block. -/
inductive Main where
  /-- in `for i := 0; i < numWorkers; i++`, with loop variable `i` -/
  | spawning (i : Nat)
  /-- in `for _, num := range numbers { jobs <- num }`, these numbers not sent
  yet; with none left, at `close(jobs)` -/
  | sending (rest : List Int)
  /-- at `go func() { wg.Wait(); close(results) }()` -/
  | forking
  /-- in `for result := range results` -/
  | collecting
  /-- the collecting loop was left -/
  | done
  deriving DecidableEq, Repr

/-- Program counter of the goroutine that closes `results` (lines 51-54). -/
inductive Closer where
  | absent
  /-- at `wg.Wait()` -/
  | waiting
  /-- after `close(results)` -/
  | done
  deriving DecidableEq, Repr

/-- The channels, the wait group and the goroutines of the block.  `collected`
is the sequence of values the collecting loop has received. -/
structure State where
  numWorkers : Int
  numbers : List Int
  jobs : List Int
  jobsClosed : Bool
  results : List Int
  resultsClosed : Bool
  wg : Nat
  workers : List Worker
  main : Main
  closer : Closer
  collected : List Int
  sum : Int
  panicked : Bool
  deriving DecidableEq, Repr

/-- Scheduler labels. -/
inductive Label where
  | main
  | worker (i : Nat)
  | closer
  deriving DecidableEq, Repr

/-- The block at its first line, for `numWorkers` workers over `numbers`. -/
def init (numWorkers : Int) (numbers : List Int) : State :=
  { numWorkers := numWorkers, numbers := numbers, jobs := [], jobsClosed := false,
    results := [], resultsClosed := false, wg := 0, workers := [], main := .spawning 0,
    closer := .absent, collected := [], sum := 0, panicked := false }

/-- One atomic step of `main`.  Both channels have capacity `len(numbers)`. -/
def mainStep (s : State) : Option State :=
  match s.main with
  | .spawning i =>
    if (i : Int) < s.numWorkers then
      some { s with wg := s.wg + 1, workers := s.workers ++ [Worker.ranging],
                    main := .spawning (i + 1) }
    else some { s with main := .sending s.numbers }
  | .sending (n :: rest) =>
    if s.jobsClosed then some { s with panicked := true }
    else if s.jobs.length < s.numbers.length then
      some { s with jobs := s.jobs ++ [n], main := .sending rest }
    else none
  | .sending [] =>
    if s.jobsClosed then some { s with panicked := true }
    else some { s with jobsClosed := true, main := .forking }
  | .forking => some { s with closer := .waiting, main := .collecting }
  | .collecting =>
    match s.results with
    | r :: q => some { s with results := q, collected := s.collected ++ [r],
                              sum := addInt s.sum r }
    | [] => if s.resultsClosed then some { s with main := .done } else none
  | .done => none

/-- One atomic step of worker `i`. -/
def workerStep (s : State) (i : Nat) : Option State :=
  match s.workers[i]? with
  | none => none
  | some .exited => none
  | some .ranging =>
    match s.jobs with
    | n :: q => some { s with jobs := q, workers := s.workers.set i (.sending (mulInt n n)) }
    | [] =>
      if s.jobsClosed then some { s with workers := s.workers.set i .exited, wg := s.wg - 1 }
      else none
  | some (.sending v) =>
    if s.resultsClosed then some { s with panicked := true }
    else if s.results.length < s.numbers.length then
      some { s with results := s.results ++ [v], workers := s.workers.set i .ranging }
    else none

/-- One atomic step of the closing goroutine: `wg.Wait()` returns when the
counter is zero, then `close(results)`. -/
def closerStep (s : State) : Option State :=
  match s.closer with
  | .waiting =>
    if s.wg = 0 then
      if s.resultsClosed then some { s with panicked := true }
      else some { s with resultsClosed := true, closer := .done }
    else none
  | _ => none

/-- One step of the block; a panic ends the process. -/
def step (s : State) (l : Label) : Option State :=
  if s.panicked then none
  else
    match l with
    | .main => mainStep s
    | .worker i => workerStep s i
    | .closer => closerStep s

/-- The state reached by a schedule. -/
def run (s : State) (ls : List Label) : Option State := runFrom step s ls

/-- Number of `wg.Add(1)` a worker still holds. -/
def Worker.live : Worker → Nat
  | .exited => 0
  | _ => 1

/-- The value a worker holds for `results`. -/
def Worker.held : Worker → List Int
  | .sending v => [v]
  | _ => []

/-- The values held by the workers. -/
def inFlight (ws : List Worker) : List Int := ws.flatMap Worker.held

/-- The numbers `main` has not sent on `jobs` yet. -/
def Main.toSend (numbers : List Int) : Main → List Int
  | .spawning _ => numbers
  | .sending rest => rest
  | _ => []

/-- The transform of the workers: `num * num`. -/
def square (n : Int) : Int := mulInt n n

/-- The numbers of `main`: 1 to 10. -/
def demoNumbers : List Int := [1, 2, 3, 4, 5, 6, 7, 8, 9, 10]

/-- The steps of the block as a relation, one constructor per atomic step. -/
inductive Step : State → Label → State → Prop where
  | spawn (s : State) (i : Nat) : s.panicked = false → s.main = .spawning i →
      (i : Int) < s.numWorkers →
      Step s .main { s with wg := s.wg + 1, workers := s.workers ++ [Worker.ranging],
                            main := .spawning (i + 1) }
  | spawned (s : State) (i : Nat) : s.panicked = false → s.main = .spawning i →
      ¬ (i : Int) < s.numWorkers → Step s .main { s with main := .sending s.numbers }
  | sendJobClosed (s : State) (n : Int) (rest : List Int) : s.panicked = false →
      s.main = .sending (n :: rest) → s.jobsClosed = true →
      Step s .main { s with panicked := true }
  | sendJob (s : State) (n : Int) (rest : List Int) : s.panicked = false →
      s.main = .sending (n :: rest) → s.jobsClosed = false →
      s.jobs.length < s.numbers.length →
      Step s .main { s with jobs := s.jobs ++ [n], main := .sending rest }
  | closeJobsClosed (s : State) : s.panicked = false → s.main = .sending [] →
      s.jobsClosed = true → Step s .main { s with panicked := true }
  | closeJobs (s : State) : s.panicked = false → s.main = .sending [] →
      s.jobsClosed = false → Step s .main { s with jobsClosed := true, main := .forking }
  | fork (s : State) : s.panicked = false → s.main = .forking →
      Step s .main { s with closer := .waiting, main := .collecting }
  | collect (s : State) (r : Int) (q : List Int) : s.panicked = false →
      s.main = .collecting → s.results = r :: q →
      Step s .main { s with results := q, collected := s.collected ++ [r],
                            sum := addInt s.sum r }
  | finish (s : State) : s.panicked = false → s.main = .collecting → s.results = [] →
      s.resultsClosed = true → Step s .main { s with main := .done }
  | recv (s : State) (i : Nat) (n : Int) (q : List Int) : s.panicked = false →
      s.workers[i]? = some .ranging → s.jobs = n :: q →
      Step s (.worker i) { s with jobs := q,
                                  workers := s.workers.set i (.sending (mulInt n n)) }
  | leave (s : State) (i : Nat) : s.panicked = false → s.workers[i]? = some .ranging →
      s.jobs = [] → s.jobsClosed = true →
      Step s (.worker i) { s with workers := s.workers.set i .exited, wg := s.wg - 1 }
  | sendClosed (s : State) (i : Nat) (v : Int) : s.panicked = false →
      s.workers[i]? = some (.sending v) → s.resultsClosed = true →
      Step s (.worker i) { s with panicked := true }
  | send (s : State) (i : Nat) (v : Int) : s.panicked = false →
      s.workers[i]? = some (.sending v) → s.resultsClosed = false →
      s.results.length < s.numbers.length →
      Step s (.worker i) { s with results := s.results ++ [v],
                                  workers := s.workers.set i .ranging }
  | closeClosed (s : State) : s.panicked = false → s.closer = .waiting → s.wg = 0 →
      s.resultsClosed = true → Step s .closer { s with panicked := true }
  | close (s : State) : s.panicked = false → s.closer = .waiting → s.wg = 0 →
      s.resultsClosed = false →
      Step s .closer { s with resultsClosed := true, closer := .done }

/-- Remaining iterations of the spawning loop. -/
def Main.toSpawn (n : Nat) : Main → Nat
  | .spawning i => n - i
  | _ => 0

/-- Facts that hold in every state of the block for `W` workers over `xs`. -/
structure FInv (W : Int) (xs : List Int) (s : State) : Prop where
  numW : s.numWorkers = W
  nums : s.numbers = xs
  alive : s.panicked = false
  wgLive : s.wg = (s.workers.map Worker.live).sum
  conserve : (s.collected ++ s.results ++ inFlight s.workers
      ++ (s.jobs ++ s.main.toSend xs).map square).Perm (xs.map square)
  exitedClosed : Worker.exited ∈ s.workers → s.jobsClosed = true ∧ s.jobs = []
  jobsOpen : s.jobsClosed = true ↔ (s.main = .forking ∨ s.main = .collecting ∨ s.main = .done)
  closerAbsent : s.closer = .absent ↔
      ((∃ i, s.main = .spawning i) ∨ (∃ r, s.main = .sending r) ∨ s.main = .forking)
  closedDone : s.resultsClosed = true ↔ s.closer = .done
  closedExited : s.resultsClosed = true → ∀ w ∈ s.workers, w = Worker.exited
  count : s.workers.length + s.main.toSpawn W.toNat = W.toNat
  doneEmpty : s.main = .done → s.results = [] ∧ s.resultsClosed = true
  sumOk : s.sum = s.collected.foldl addInt 0

/-- Steps `main` still takes, with what they set in motion. -/
def Main.cost (n m : Nat) : Main → Nat
  | .spawning i => 2 * (n - i) + 1 + 4 * m + 4
  | .sending rest => 4 * rest.length + 4
  | .forking => 3
  | .collecting => 1
  | .done => 0

/-- Steps a worker still takes on its own account. -/
def Worker.cost : Worker → Nat
  | .ranging => 1
  | .sending _ => 3
  | .exited => 0

/-- Steps the closing goroutine still takes. -/
def Closer.cost : Closer → Nat
  | .waiting => 1
  | _ => 0

/-- Upper bound on the number of steps the block can still take. -/
def potential (s : State) : Nat :=
  (if s.panicked then 0 else 1) + s.main.cost s.numWorkers.toNat s.numbers.length
    + 3 * s.jobs.length + s.results.length + (s.workers.map Worker.cost).sum + s.closer.cost

/-- A schedule of the block for three workers over `demoNumbers`: `main` runs
up to the collecting loop, worker 0 squares every number, the workers leave,
`results` is closed and `main` collects. -/
def demoSchedule : List Label :=
  List.replicate 16 Label.main ++ List.replicate 20 (Label.worker 0)
    ++ [.worker 0, .worker 1, .worker 2, .closer] ++ List.replicate 11 Label.main

/-- The state `demoSchedule` ends in. -/
def demoFinal : State :=
  { numWorkers := 3, numbers := demoNumbers, jobs := [], jobsClosed := true, results := [],
    resultsClosed := true, wg := 0, workers := [.exited, .exited, .exited], main := .done,
    closer := .done, collected := [1, 4, 9, 16, 25, 36, 49, 64, 81, 100], sum := 385,
    panicked := false }

end FanOut

/-! ## ConcurrentDownloader.DownloadAll (`05_patterns.go`, lines 261-303) -/

namespace Download

/-- The struct `DownloadResult`; `Error` stays `nil` in `DownloadAll`. -/
structure DownloadResult where
  url : String
  data : String
  deriving DecidableEq, Repr

/-- Program counter of the goroutine started for one url (lines 282-294). -/
inductive Routine where
  /-- at `sem <- struct{}{}` -/
  | acquiring (u : String)
  /-- holding the semaphore, at `results <- DownloadResult{...}` -/
  | sending (u : String)
  /-- running the deferred `<-sem` -/
  | releasing
  /-- running the deferred `wg.Done()` -/
  | finishing
  | exited
  deriving DecidableEq, Repr

/-- Program counter of `DownloadAll`. -/
inductive Main where
  /-- in `for _, url := range urls`, these urls not started yet -/
  | spawning (rest : List String)
  /-- at `go func() { wg.Wait(); close(results) }()` -/
  | forking
  /-- `results` has been returned to the caller -/
  | returned
  deriving DecidableEq, Repr

/-- Program counter of the goroutine that closes `results` (lines 297-300). -/
inductive Closer where
  | absent
  | waiting
  | done
  deriving DecidableEq, Repr

/-- A runtime panic. -/
inductive Panic where
  /-- `make(chan struct{}, n)` with `n < 0` -/
  | makechan
  | sendOnClosed
  | closeOfClosed
  deriving DecidableEq, Repr

/-- The channels, the wait group and the goroutines of `DownloadAll`.  `sem`
is the number of tokens in the semaphore channel; `received` is what the
caller has taken from `results`. -/
structure State where
  maxConcurrent : Int
  urls : List String
  results : List DownloadResult
  resultsClosed : Bool
  sem : Nat
  wg : Nat
  routines : List Routine
  main : Main
  closer : Closer
  received : List DownloadResult
  panic : Option Panic
  deriving DecidableEq, Repr

/-- Scheduler labels: `DownloadAll` itself, the goroutine of url number `i`,
the closing goroutine, and the caller receiving from the returned channel. -/
inductive Label where
  | main
  | routine (i : Nat)
  | closer
  | receive
  deriving DecidableEq, Repr

/-- `NewConcurrentDownloader(maxConcurrent).DownloadAll(urls)` after its two
`make` calls. -/
def init (maxConcurrent : Int) (urls : List String) : State :=
  { maxConcurrent := maxConcurrent, urls := urls, results := [], resultsClosed := false,
    sem := 0, wg := 0, routines := [], main := .spawning urls, closer := .absent,
    received := [], panic := if maxConcurrent < 0 then some .makechan else none }

/-- One atomic step of `DownloadAll`. -/
def mainStep (s : State) : Option State :=
  match s.main with
  | .spawning (u :: rest) =>
    some { s with wg := s.wg + 1, routines := s.routines ++ [Routine.acquiring u],
                  main := .spawning rest }
  | .spawning [] => some { s with main := .forking }
  | .forking => some { s with closer := .waiting, main := .returned }
  | .returned => none

/-- One atomic step of the goroutine of url number `i`. -/
def routineStep (s : State) (i : Nat) : Option State :=
  match s.routines[i]? with
  | none => none
  | some .exited => none
  | some (.acquiring u) =>
    if (s.sem : Int) < s.maxConcurrent then
      some { s with sem := s.sem + 1, routines := s.routines.set i (.sending u) }
    else none
  | some (.sending u) =>
    if s.resultsClosed then some { s with panic := some .sendOnClosed }
    else if s.results.length < s.urls.length then
      some { s with results := s.results ++ [⟨u, "データ from " ++ u⟩],
                    routines := s.routines.set i .releasing }
    else none
  | some .releasing =>
    if 0 < s.sem then
      some { s with sem := s.sem - 1, routines := s.routines.set i .finishing }
    else none
  | some .finishing =>
    some { s with wg := s.wg - 1, routines := s.routines.set i .exited }

/-- One atomic step of the closing goroutine. -/
def closerStep (s : State) : Option State :=
  match s.closer with
  | .waiting =>
    if s.wg = 0 then
      if s.resultsClosed then some { s with panic := some .closeOfClosed }
      else some { s with resultsClosed := true, closer := .done }
    else none
  | _ => none

/-- The caller takes the next result from the returned channel. -/
def receiveStep (s : State) : Option State :=
  match s.main, s.results with
  | .returned, r :: q => some { s with results := q, received := s.received ++ [r] }
  | _, _ => none

/-- One step of the program; a panic ends the process. -/
def step (s : State) (l : Label) : Option State :=
  if s.panic.isSome then none
  else
    match l with
    | .main => mainStep s
    | .routine i => routineStep s i
    | .closer => closerStep s
    | .receive => receiveStep s

/-- The state reached by a schedule. -/
def run (s : State) (ls : List Label) : Option State := runFrom step s ls

/-- Number of `wg.Add(1)` a goroutine still holds. -/
def Routine.live : Routine → Nat
  | .exited => 0
  | _ => 1

/-- Facts that hold in every state of `DownloadAll`. -/
structure DInv (s : State) : Prop where
  noRace : s.panic = none ∨ s.panic = some Panic.makechan
  wgLive : s.wg = (s.routines.map Routine.live).sum
  closerAbsent : s.closer = .absent ↔ ((∃ r, s.main = .spawning r) ∨ s.main = .forking)
  closedDone : s.resultsClosed = true ↔ s.closer = .done
  closedExited : s.resultsClosed = true → ∀ r ∈ s.routines, r = Routine.exited

/-- The urls of `main`. -/
def demoUrls : List String :=
  ["https://example.com/file1.txt", "https://example.com/file2.txt"]

/-- A schedule of `DownloadAll` for `demoUrls` with one permit: both goroutines
are started, each downloads in turn, then `results` is closed. -/
def demoSchedule : List Label :=
  [.main, .main, .main, .main, .routine 0, .routine 0, .routine 0, .routine 0,
   .routine 1, .routine 1, .routine 1, .routine 1, .closer]

/-- The state `demoSchedule` ends in. -/
def demoFinal : State :=
  { maxConcurrent := 1, urls := demoUrls,
    results := [⟨"https://example.com/file1.txt", "データ from https://example.com/file1.txt"⟩,
                ⟨"https://example.com/file2.txt", "データ from https://example.com/file2.txt"⟩],
    resultsClosed := true, sem := 0, wg := 0, routines := [.exited, .exited],
    main := .returned, closer := .done, received := [], panic := none }

end Download

/-! ## ParallelMap (`05_patterns.go`, lines 307-338) -/

namespace ParallelMap

/-- A job: the anonymous struct `{index int; value int}`. -/
abbrev Job := Nat × Int

/-- Program counter of one worker goroutine (lines 319-324). -/
inductive Worker where
  /-- at `for job := range jobs` -/
  | ranging
  /-- at `results[job.index] = fn(job.value)` -/
  | writing (job : Job)
  /-- the loop was left and the deferred `wg.Done()` has run -/
  | exited
  deriving DecidableEq, Repr

/-- Program counter of `ParallelMap`. -/
inductive Main where
  /-- in `for i := 0; i < workers; i++`, with loop variable `i` -/
  | spawning (i : Nat)
  /-- in `for i, v := range input { jobs <- {i, v} }`, these jobs not sent
  yet; with none left, at `close(jobs)` -/
  | sending (rest : List Job)
  /-- at `wg.Wait()` -/
  | waiting
  /-- `results` has been returned -/
  | returned
  deriving DecidableEq, Repr

/-- The slice `results`, the channel `jobs`, the wait group and the goroutines. -/
structure State where
  workersN : Int
  input : List Int
  results : List Int
  jobs : List Job
  jobsClosed : Bool
  wg : Nat
  workers : List Worker
  main : Main
  panicked : Bool
  deriving DecidableEq, Repr

/-- Scheduler labels. -/
inductive Label where
  | main
  | worker (i : Nat)
  deriving DecidableEq, Repr

/-- `ParallelMap(input, fn, workers)` after its two `make` calls: `results`
holds `len(input)` zeros, `jobs` has capacity `len(input)`. -/
def init (workers : Int) (input : List Int) : State :=
  { workersN := workers, input := input, results := List.replicate input.length 0,
    jobs := [], jobsClosed := false, wg := 0, workers := [], main := .spawning 0,
    panicked := false }

/-- One atomic step of `ParallelMap` itself. -/
def mainStep (s : State) : Option State :=
  match s.main with
  | .spawning i =>
    if (i : Int) < s.workersN then
      some { s with wg := s.wg + 1, workers := s.workers ++ [Worker.ranging],
                    main := .spawning (i + 1) }
    else some { s with main := .sending s.input.enum }
  | .sending (j :: rest) =>
    if s.jobsClosed then some { s with panicked := true }
    else if s.jobs.length < s.input.length then
      some { s with jobs := s.jobs ++ [j], main := .sending rest }
    else none
  | .sending [] =>
    if s.jobsClosed then some { s with panicked := true }
    else some { s with jobsClosed := true, main := .waiting }
  | .waiting => if s.wg = 0 then some { s with main := .returned } else none
  | .returned => none

/-- One atomic step of worker `i`; an index outside `results` panics. -/
def workerStep (fn : Int → Int) (s : State) (i : Nat) : Option State :=
  match s.workers[i]? with
  | none => none
  | some .exited => none
  | some .ranging =>
    match s.jobs with
    | j :: q => some { s with jobs := q, workers := s.workers.set i (.writing j) }
    | [] =>
      if s.jobsClosed then some { s with workers := s.workers.set i .exited, wg := s.wg - 1 }
      else none
  | some (.writing j) =>
    if j.1 < s.results.length then
      some { s with results := s.results.set j.1 (fn j.2),
                    workers := s.workers.set i .ranging }
    else some { s with panicked := true }

/-- One step of the program; a panic ends the process. -/
def step (fn : Int → Int) (s : State) (l : Label) : Option State :=
  if s.panicked then none
  else
    match l with
    | .main => mainStep s
    | .worker i => workerStep fn s i

/-- The state reached by a schedule. -/
def run (fn : Int → Int) (s : State) (ls : List Label) : Option State :=
  runFrom (step fn) s ls

/-- Number of `wg.Add(1)` a worker still holds. -/
def Worker.live : Worker → Nat
  | .exited => 0
  | _ => 1

/-- The job a worker holds. -/
def Worker.held : Worker → List Job
  | .writing j => [j]
  | _ => []

/-- The jobs `main` has not sent yet. -/
def Main.toSend (input : List Int) : Main → List Job
  | .spawning _ => input.enum
  | .sending rest => rest
  | _ => []

/-- Remaining iterations of the spawning loop. -/
def Main.toSpawn (n : Nat) : Main → Nat
  | .spawning i => n - i
  | _ => 0

/-- The jobs that are still to be written: held by a worker, queued or unsent. -/
def pending (s : State) : List Job :=
  s.workers.flatMap Worker.held ++ s.jobs ++ s.main.toSend s.input

/-- The steps of the program as a relation, one constructor per atomic step. -/
inductive Step (fn : Int → Int) : State → Label → State → Prop where
  | spawn (s : State) (i : Nat) : s.panicked = false → s.main = .spawning i →
      (i : Int) < s.workersN →
      Step fn s .main { s with wg := s.wg + 1, workers := s.workers ++ [Worker.ranging],
                               main := .spawning (i + 1) }
  | spawned (s : State) (i : Nat) : s.panicked = false → s.main = .spawning i →
      ¬ (i : Int) < s.workersN → Step fn s .main { s with main := .sending s.input.enum }
  | sendJobClosed (s : State) (j : Job) (rest : List Job) : s.panicked = false →
      s.main = .sending (j :: rest) → s.jobsClosed = true →
      Step fn s .main { s with panicked := true }
  | sendJob (s : State) (j : Job) (rest : List Job) : s.panicked = false →
      s.main = .sending (j :: rest) → s.jobsClosed = false →
      s.jobs.length < s.input.length →
      Step fn s .main { s with jobs := s.jobs ++ [j], main := .sending rest }
  | closeJobsClosed (s : State) : s.panicked = false → s.main = .sending [] →
      s.jobsClosed = true → Step fn s .main { s with panicked := true }
  | closeJobs (s : State) : s.panicked = false → s.main = .sending [] →
      s.jobsClosed = false → Step fn s .main { s with jobsClosed := true, main := .waiting }
  | waited (s : State) : s.panicked = false → s.main = .waiting → s.wg = 0 →
      Step fn s .main { s with main := .returned }
  | recv (s : State) (i : Nat) (j : Job) (q : List Job) : s.panicked = false →
      s.workers[i]? = some .ranging → s.jobs = j :: q →
      Step fn s (.worker i) { s with jobs := q, workers := s.workers.set i (.writing j) }
  | leave (s : State) (i : Nat) : s.panicked = false → s.workers[i]? = some .ranging →
      s.jobs = [] → s.jobsClosed = true →
      Step fn s (.worker i) { s with workers := s.workers.set i .exited, wg := s.wg - 1 }
  | write (s : State) (i : Nat) (j : Job) : s.panicked = false →
      s.workers[i]? = some (.writing j) → j.1 < s.results.length →
      Step fn s (.worker i) { s with results := s.results.set j.1 (fn j.2),
                                     workers := s.workers.set i .ranging }
  | writeOut (s : State) (i : Nat) (j : Job) : s.panicked = false →
      s.workers[i]? = some (.writing j) → ¬ j.1 < s.results.length →
      Step fn s (.worker i) { s with panicked := true }

/-- Facts that hold in every state of `ParallelMap(input, fn, W)`. -/
structure PInv (fn : Int → Int) (W : Int) (input : List Int) (s : State) : Prop where
  numW : s.workersN = W
  inp : s.input = input
  alive : s.panicked = false
  wgLive : s.wg = (s.workers.map Worker.live).sum
  len : s.results.length = input.length
  wellFormed : ∀ j ∈ pending s, input[j.1]? = some j.2
  written : ∀ (k : Nat) (v : Int), input[k]? = some v →
      s.results[k]? = some (fn v) ∨ (k, v) ∈ pending s
  bounded : (pending s).length ≤ input.length
  exitedClosed : Worker.exited ∈ s.workers → s.jobsClosed = true ∧ s.jobs = []
  jobsOpen : s.jobsClosed = true ↔ (s.main = .waiting ∨ s.main = .returned)
  count : s.workers.length + s.main.toSpawn W.toNat = W.toNat
  returnedDone : s.main = .returned → s.wg = 0

/-- Steps `ParallelMap` itself still takes, with what they set in motion. -/
def Main.cost (n m : Nat) : Main → Nat
  | .spawning i => 2 * (n - i) + 1 + 3 * m + 2
  | .sending rest => 3 * rest.length + 2
  | .waiting => 1
  | .returned => 0

/-- Steps a worker still takes on its own account. -/
def Worker.cost : Worker → Nat
  | .ranging => 1
  | .writing _ => 2
  | .exited => 0

/-- Upper bound on the number of steps the program can still take. -/
def potential (s : State) : Nat :=
  (if s.panicked then 0 else 1) + s.main.cost s.workersN.toNat s.input.length
    + 2 * s.jobs.length + (s.workers.map Worker.cost).sum

/-- The function of `main`'s demo: `n * n`. -/
def demoFn (n : Int) : Int := mulInt n n

/-- The input of `main`'s demo. -/
def demoInput : List Int := [1, 2, 3, 4, 5, 6, 7, 8, 9, 10]

/-- A schedule of `ParallelMap(demoInput, demoFn, 3)`: `ParallelMap` runs up to
`wg.Wait()`, worker 0 takes every job, the workers leave, `wg.Wait()` returns. -/
def demoSchedule : List Label :=
  List.replicate 15 Label.main ++ List.replicate 20 (Label.worker 0)
    ++ [.worker 0, .worker 1, .worker 2, .main]

/-- The state `demoSchedule` ends in. -/
def demoFinal : State :=
  { workersN := 3, input := demoInput, results := [1, 4, 9, 16, 25, 36, 49, 64, 81, 100],
    jobs := [], jobsClosed := true, wg := 0, workers := [.exited, .exited, .exited],
    main := .returned, panicked := false }

end ParallelMap

/-! ## parallelMap (`03_sync.go`, lines 240-254) -/

namespace SyncMap

/-- The arguments `(index, value)` of one goroutine. -/
abbrev Job := Nat × Int

/-- Program counter of the goroutine started for one element. -/
inductive Routine where
  /-- at `results[index] = fn(value)` -/
  | writing (job : Job)
  /-- running the deferred `wg.Done()` -/
  | finishing
  | exited
  deriving DecidableEq, Repr

/-- Program counter of `parallelMap`. -/
inductive Main where
  /-- in `for i, num := range nums`, these elements not started yet -/
  | spawning (rest : List Job)
  /-- at `wg.Wait()` -/
  | waiting
  /-- `results` has been returned -/
  | returned
  deriving DecidableEq, Repr

/-- The slice `results`, the wait group and the goroutines. -/
structure State where
  nums : List Int
  results : List Int
  wg : Nat
  routines : List Routine
  main : Main
  panicked : Bool
  deriving DecidableEq, Repr

/-- Scheduler labels. -/
inductive Label where
  | main
  | routine (i : Nat)
  deriving DecidableEq, Repr

/-- `parallelMap(nums, fn)` after `make([]int, len(nums))`. -/
def init (nums : List Int) : State :=
  { nums := nums, results := List.replicate nums.length 0, wg := 0, routines := [],
    main := .spawning nums.enum, panicked := false }

/-- One atomic step of `parallelMap` itself. -/
def mainStep (s : State) : Option State :=
  match s.main with
  | .spawning (j :: rest) =>
    some { s with wg := s.wg + 1, routines := s.routines ++ [Routine.writing j],
                  main := .spawning rest }
  | .spawning [] => some { s with main := .waiting }
  | .waiting => if s.wg = 0 then some { s with main := .returned } else none
  | .returned => none

/-- One atomic step of goroutine `i`; an index outside `results` panics. -/
def routineStep (fn : Int → Int) (s : State) (i : Nat) : Option State :=
  match s.routines[i]? with
  | none => none
  | some .exited => none
  | some (.writing j) =>
    if j.1 < s.results.length then
      some { s with results := s.results.set j.1 (fn j.2),
                    routines := s.routines.set i .finishing }
    else some { s with panicked := true }
  | some .finishing =>
    some { s with wg := s.wg - 1, routines := s.routines.set i .exited }

/-- One step of the program; a panic ends the process. -/
def step (fn : Int → Int) (s : State) (l : Label) : Option State :=
  if s.panicked then none
  else
    match l with
    | .main => mainStep s
    | .routine i => routineStep fn s i

/-- The state reached by a schedule. -/
def run (fn : Int → Int) (s : State) (ls : List Label) : Option State :=
  runFrom (step fn) s ls

/-- Number of `wg.Add(1)` a goroutine still holds. -/
def Routine.live : Routine → Nat
  | .exited => 0
  | _ => 1

/-- The job a goroutine has not written yet. -/
def Routine.held : Routine → List Job
  | .writing j => [j]
  | _ => []

/-- The elements `parallelMap` has not started a goroutine for. -/
def Main.toSpawn : Main → List Job
  | .spawning rest => rest
  | _ => []

/-- The jobs that are still to be written. -/
def pending (s : State) : List Job :=
  s.routines.flatMap Routine.held ++ s.main.toSpawn

/-- The steps of the program as a relation, one constructor per atomic step. -/
inductive Step (fn : Int → Int) : State → Label → State → Prop where
  | spawn (s : State) (j : Job) (rest : List Job) : s.panicked = false →
      s.main = .spawning (j :: rest) →
      Step fn s .main { s with wg := s.wg + 1, routines := s.routines ++ [Routine.writing j],
                               main := .spawning rest }
  | spawned (s : State) : s.panicked = false → s.main = .spawning [] →
      Step fn s .main { s with main := .waiting }
  | waited (s : State) : s.panicked = false → s.main = .waiting → s.wg = 0 →
      Step fn s .main { s with main := .returned }
  | write (s : State) (i : Nat) (j : Job) : s.panicked = false →
      s.routines[i]? = some (.writing j) → j.1 < s.results.length →
      Step fn s (.routine i) { s with results := s.results.set j.1 (fn j.2),
                                      routines := s.routines.set i .finishing }
  | writeOut (s : State) (i : Nat) (j : Job) : s.panicked = false →
      s.routines[i]? = some (.writing j) → ¬ j.1 < s.results.length →
      Step fn s (.routine i) { s with panicked := true }
  | finish (s : State) (i : Nat) : s.panicked = false →
      s.routines[i]? = some .finishing →
      Step fn s (.routine i) { s with wg := s.wg - 1, routines := s.routines.set i .exited }

/-- Facts that hold in every state of `parallelMap(nums, fn)`. -/
structure SInv (fn : Int → Int) (nums : List Int) (s : State) : Prop where
  alive : s.panicked = false
  wgLive : s.wg = (s.routines.map Routine.live).sum
  len : s.results.length = nums.length
  wellFormed : ∀ j ∈ pending s, nums[j.1]? = some j.2
  written : ∀ (k : Nat) (v : Int), nums[k]? = some v →
      s.results[k]? = some (fn v) ∨ (k, v) ∈ pending s
  returnedDone : s.main = .returned → s.wg = 0

/-- Steps `parallelMap` itself still takes, with what they set in motion. -/
def Main.cost : Main → Nat
  | .spawning rest => 3 * rest.length + 2
  | .waiting => 1
  | .returned => 0

/-- Steps a goroutine still takes. -/
def Routine.cost : Routine → Nat
  | .writing _ => 2
  | .finishing => 1
  | .exited => 0

/-- Upper bound on the number of steps the program can still take. -/
def potential (s : State) : Nat :=
  (if s.panicked then 0 else 1) + s.main.cost + (s.routines.map Routine.cost).sum

/-- A schedule of `parallelMap` over three numbers: the goroutines are started,
each writes and finishes, `wg.Wait()` returns. -/
def demoSchedule : List Label :=
  [.main, .main, .main, .main, .routine 2, .routine 0, .routine 1, .routine 1,
   .routine 0, .routine 2, .main]

/-- The state `demoSchedule` ends in for the input `[1, 2, 3]` and `n * n`. -/
def demoFinal : State :=
  { nums := [1, 2, 3], results := [1, 4, 9], wg := 0,
    routines := [.exited, .exited, .exited], main := .returned, panicked := false }

end SyncMap

/-! ## Pipeline stages (`05_patterns.go`, lines 223-257)

A channel is modelled by its history: the items sent on it, in order, and
whether it has been closed.  Each stage is the function from the history of
its input to the history of its output that its loop computes when every send
is taken. -/

namespace Pipeline

/-- The history of a channel. -/
structure Chan where
  items : List Int
  closed : Bool
  deriving DecidableEq, Repr

/-- The loop `for _, n := range nums { out <- n }` of `generator`. -/
def generatorLoop : List Int → List Int → List Int
  | [], out => out
  | n :: nums, out => generatorLoop nums (out ++ [n])

/-- `generator(nums...)`: the loop always ends and the deferred `close(out)` runs. -/
def generator (nums : List Int) : Chan :=
  { items := generatorLoop nums [], closed := true }

/-- The loop `for n := range in { out <- n * 2 }` of `doubler`. -/
def doublerLoop : List Int → List Int → List Int
  | [], out => out
  | n :: rest, out => doublerLoop rest (out ++ [mulInt n 2])

/-- `doubler(in)`: the loop ends, and the deferred `close(out)` runs, when `in`
is closed. -/
def doubler (input : Chan) : Chan :=
  { items := doublerLoop input.items [], closed := input.closed }

/-- The loop `for n := range in { if predicate(n) { out <- n } }` of `filter`. -/
def filterLoop (predicate : Int → Bool) : List Int → List Int → List Int
  | [], out => out
  | n :: rest, out =>
    if predicate n then filterLoop predicate rest (out ++ [n])
    else filterLoop predicate rest out

/-- `filter(in, predicate)`. -/
def filter (input : Chan) (predicate : Int → Bool) : Chan :=
  { items := filterLoop predicate input.items [], closed := input.closed }

/-- The predicate of `main`: `n >= 10`. -/
def atLeastTen (n : Int) : Bool := decide (n ≥ 10)

end Pipeline

/-! ## Cancellable stages (`04_context.go`, lines 210-241) -/

namespace Cancellable

/-- Program counter of the goroutine of `multiply`. -/
inductive MulPc where
  /-- at `for n := range in` -/
  | ranging
  /-- at the `select`, holding `n` -/
  | selecting (n : Int)
  /-- returned; the deferred `close(out)` has run -/
  | exited
  deriving DecidableEq, Repr

/-- The goroutine of `multiply(ctx, in, factor)` and its surroundings: `input`
are the items `in` still delivers, `inClosed` whether `in` is closed after
them, `ctxDone` whether `ctx.Done()` is closed, `out` the items sent on `out`. -/
structure MulState where
  factor : Int
  input : List Int
  inClosed : Bool
  ctxDone : Bool
  pc : MulPc
  out : List Int
  outClosed : Bool
  deriving DecidableEq, Repr

/-- What happens next: the context is cancelled, the loop receives, or one of
the two cases of the `select` is taken. -/
inductive MulLabel where
  | cancel
  | receive
  | caseDone
  | caseSend
  deriving DecidableEq, Repr

/-- `multiply(ctx, in, factor)` at the start of its goroutine. -/
def mulInit (factor : Int) (input : List Int) (inClosed : Bool) : MulState :=
  { factor := factor, input := input, inClosed := inClosed, ctxDone := false,
    pc := .ranging, out := [], outClosed := false }

/-- One step of `multiply`.  `case <-ctx.Done()` can be taken only when the
context is done; `case out <- n * factor` when the reader of `out` takes it. -/
def mulStep (s : MulState) : MulLabel → Option MulState
  | .cancel => some { s with ctxDone := true }
  | .receive =>
    match s.pc, s.input with
    | .ranging, n :: rest => some { s with input := rest, pc := .selecting n }
    | .ranging, [] =>
      if s.inClosed then some { s with pc := .exited, outClosed := true } else none
    | _, _ => none
  | .caseDone =>
    match s.pc with
    | .selecting _ =>
      if s.ctxDone then some { s with pc := .exited, outClosed := true } else none
    | _ => none
  | .caseSend =>
    match s.pc with
    | .selecting n => some { s with out := s.out ++ [mulInt n s.factor], pc := .ranging }
    | _ => none

/-- The state reached by a schedule. -/
def mulRun (s : MulState) (ls : List MulLabel) : Option MulState := runFrom mulStep s ls

/-- The item the `select` is about to send. -/
def MulPc.held : MulPc → List Int
  | .selecting n => [n]
  | _ => []

/-- Program counter of the goroutine of `generate`. -/
inductive GenPc where
  /-- in `for _, n := range nums`, at the `select`, these numbers not sent yet;
  with none left the loop is over -/
  | looping (rest : List Int)
  /-- returned; the deferred `close(out)` has run -/
  | exited
  deriving DecidableEq, Repr

/-- The goroutine of `generate(ctx, nums...)`. -/
structure GenState where
  ctxDone : Bool
  pc : GenPc
  out : List Int
  outClosed : Bool
  deriving DecidableEq, Repr

/-- What happens next in `generate`. -/
inductive GenLabel where
  | cancel
  | caseDone
  | caseSend
  | finish
  deriving DecidableEq, Repr

/-- `generate(ctx, nums...)` at the start of its goroutine. -/
def genInit (nums : List Int) : GenState :=
  { ctxDone := false, pc := .looping nums, out := [], outClosed := false }

/-- One step of `generate`. -/
def genStep (s : GenState) : GenLabel → Option GenState
  | .cancel => some { s with ctxDone := true }
  | .caseDone =>
    match s.pc with
    | .looping (_ :: _) =>
      if s.ctxDone then some { s with pc := .exited, outClosed := true } else none
    | _ => none
  | .caseSend =>
    match s.pc with
    | .looping (n :: rest) => some { s with out := s.out ++ [n], pc := .looping rest }
    | _ => none
  | .finish =>
    match s.pc with
    | .looping [] => some { s with pc := .exited, outClosed := true }
    | _ => none

/-- The state reached by a schedule. -/
def genRun (s : GenState) (ls : List GenLabel) : Option GenState := runFrom genStep s ls

/-- The numbers `generate` has not sent. -/
def GenPc.rest : GenPc → List Int
  | .looping rest => rest
  | .exited => []

/-- Facts that hold in every state of `multiply`. -/
structure MulInv (factor : Int) (input : List Int) (s : MulState) : Prop where
  fac : s.factor = factor
  sent : ∃ tail : List Int,
    input.map (fun n => mulInt n factor) = s.out ++ tail
  exact : s.pc ≠ .exited →
    input.map (fun n => mulInt n factor)
      = s.out ++ (s.pc.held ++ s.input).map (fun n => mulInt n factor)
  closedIff : s.outClosed = true ↔ s.pc = .exited

/-- Facts that hold in every state of `generate`. -/
structure GenInv (nums : List Int) (s : GenState) : Prop where
  sent : ∃ tail : List Int, nums = s.out ++ tail
  exact : s.pc ≠ .exited → nums = s.out ++ s.pc.rest
  closedIff : s.outClosed = true ↔ s.pc = .exited

end Cancellable

/-! ## The semaphore block of `main` (`05_patterns.go`, lines 101-121) -/

namespace Semaphore

/-- Program counter of one task goroutine (lines 110-118). -/
inductive Routine where
  /-- at `sem <- struct{}{}` -/
  | acquiring
  /-- holding a permit: between the two `Printf`, in `time.Sleep` -/
  | working
  /-- still holding the permit, at `<-sem` -/
  | releasing
  /-- running the deferred `wg2.Done()` -/
  | finishing
  | exited
  deriving DecidableEq, Repr

/-- Program counter of `main` in the block. -/
inductive Main where
  /-- in `for i := 1; i <= tasks; i++`, with loop variable `i` -/
  | spawning (i : Nat)
  /-- at `wg2.Wait()` -/
  | waiting
  | done
  deriving DecidableEq, Repr

/-- The semaphore channel (`sem` is the number of tokens in its buffer), the
wait group and the goroutines.  `tasks` is the loop bound, 5 in `main`. -/
structure State where
  maxConcurrent : Int
  tasks : Nat
  sem : Nat
  wg2 : Nat
  routines : List Routine
  main : Main
  panicked : Bool
  deriving DecidableEq, Repr

/-- Scheduler labels. -/
inductive Label where
  | main
  | routine (i : Nat)
  deriving DecidableEq, Repr

/-- The block after `sem := make(chan struct{}, maxConcurrent)`, which panics
for a negative capacity. -/
def init (maxConcurrent : Int) (tasks : Nat) : State :=
  { maxConcurrent := maxConcurrent, tasks := tasks, sem := 0, wg2 := 0, routines := [],
    main := .spawning 1, panicked := decide (maxConcurrent < 0) }

/-- The block as written in `main`: two permits, five tasks. -/
def mainInit : State := init 2 5

/-- One atomic step of `main`. -/
def mainStep (s : State) : Option State :=
  match s.main with
  | .spawning i =>
    if i ≤ s.tasks then
      some { s with wg2 := s.wg2 + 1, routines := s.routines ++ [Routine.acquiring],
                    main := .spawning (i + 1) }
    else some { s with main := .waiting }
  | .waiting => if s.wg2 = 0 then some { s with main := .done } else none
  | .done => none

/-- One atomic step of the goroutine number `i` (task id `i + 1`). -/
def routineStep (s : State) (i : Nat) : Option State :=
  match s.routines[i]? with
  | none => none
  | some .exited => none
  | some .acquiring =>
    if (s.sem : Int) < s.maxConcurrent then
      some { s with sem := s.sem + 1, routines := s.routines.set i .working }
    else none
  | some .working => some { s with routines := s.routines.set i .releasing }
  | some .releasing =>
    if 0 < s.sem then
      some { s with sem := s.sem - 1, routines := s.routines.set i .finishing }
    else none
  | some .finishing =>
    some { s with wg2 := s.wg2 - 1, routines := s.routines.set i .exited }

/-- One step of the block; a panic ends the process. -/
def step (s : State) (l : Label) : Option State :=
  if s.panicked then none
  else
    match l with
    | .main => mainStep s
    | .routine i => routineStep s i

/-- The state reached by a schedule. -/
def run (s : State) (ls : List Label) : Option State := runFrom step s ls

/-- Whether a goroutine is between its acquire and its release. -/
def Routine.holding : Routine → Nat
  | .working => 1
  | .releasing => 1
  | _ => 0

/-- Number of goroutines between their acquire and their release. -/
def holders (s : State) : Nat := (s.routines.map Routine.holding).sum

/-- A schedule of `mainInit`: all five goroutines are started, then the first
two acquire. -/
def demoSchedule : List Label :=
  [.main, .main, .main, .main, .main, .main, .routine 0, .routine 1]

/-- The state `demoSchedule` ends in. -/
def demoHolding : State :=
  { maxConcurrent := 2, tasks := 5, sem := 2, wg2 := 5,
    routines := [.working, .working, .acquiring, .acquiring, .acquiring],
    main := .waiting, panicked := false }

end Semaphore

namespace Download

/-- Whether a goroutine of `DownloadAll` is between its acquire and the
deferred release. -/
def Routine.holding : Routine → Nat
  | .sending _ => 1
  | .releasing => 1
  | _ => 0

/-- Number of goroutines between their acquire and their release. -/
def holders (s : State) : Nat := (s.routines.map Routine.holding).sum

/-- A schedule of `DownloadAll` for `demoUrls` with one permit: both goroutines
are started and the first one acquires. -/
def holdSchedule : List Label := [.main, .main, .main, .main, .routine 0]

/-- The state `holdSchedule` ends in. -/
def holdState : State :=
  { maxConcurrent := 1, urls := demoUrls, results := [], resultsClosed := false,
    sem := 1, wg := 2,
    routines := [.sending "https://example.com/file1.txt",
                 .acquiring "https://example.com/file2.txt"],
    main := .returned, closer := .waiting, received := [], panic := none }

end Download

/-! ## `Config.Initialize` and `sync.Once` (`03_sync.go`, lines 99-115, 194-211) -/

namespace OnceInit

/-- Modelled from the spec: package `sync` is the standard library and not
under src/; the Once-Guard (the action runs at most once, callers return only
after it has completed) is modelled by the algorithm of `sync.Once`.
Program counter of one call `c.Initialize(id)`, which is
`c.once.Do(func() { ... })`; `sync.Once.Do(f)` is
`if o.done.Load() == 0 { o.doSlow(f) }`, and `doSlow` is
`o.m.Lock(); defer o.m.Unlock(); if o.done.Load() == 0 { defer o.done.Store(1); f() }`. -/
inductive Pc where
  /-- at the first `o.done.Load() == 0` -/
  | entering
  /-- at `o.m.Lock()` -/
  | locking
  /-- holding the mutex, at the second `o.done.Load() == 0` -/
  | checking
  /-- in the action, after its `Printf`, before `c.value = ...` -/
  | running
  /-- at the deferred `o.done.Store(1)` -/
  | storing
  /-- at the deferred `o.m.Unlock()` -/
  | unlocking
  | returned
  deriving DecidableEq, Repr

/-- One `Config` and the calls of `Initialize` made on it, each with its
argument.  `done` and `locked` are the two fields of `c.once`; `printed` lists
the ids of the lines "初期化実行（ID: %d）" written so far, one for every time
the action was entered. -/
structure State where
  calls : List (Int × Pc)
  done : Bool
  locked : Bool
  value : String
  printed : List Int
  deriving DecidableEq, Repr

/-- Scheduler labels: the call number `i`. -/
inductive Label where
  | call (i : Nat)
  deriving DecidableEq, Repr

/-- The string `fmt.Sprintf("initialized by %d", id)`. -/
def Sprintf (id : Int) : String := "initialized by " ++ toString id

/-- A fresh `&Config{}` on which `Initialize(id)` is called once for each of
`ids`, no call having taken a step yet. -/
def init (ids : List Int) : State :=
  { calls := ids.map (fun id => (id, Pc.entering)), done := false, locked := false,
    value := "", printed := [] }

/-- The calls of `main`: `for i := 0; i < 5; i++ { go ... config.Initialize(id) }`. -/
def mainIds : List Int := [0, 1, 2, 3, 4]

/-- One atomic step of the call number `i`.  Unlocking a mutex that is not
locked is a fatal error: no step. -/
def step (s : State) : Label → Option State
  | .call i =>
    match s.calls[i]? with
    | none => none
    | some (id, .entering) =>
      if s.done then some { s with calls := s.calls.set i (id, .returned) }
      else some { s with calls := s.calls.set i (id, .locking) }
    | some (id, .locking) =>
      if s.locked then none
      else some { s with locked := true, calls := s.calls.set i (id, .checking) }
    | some (id, .checking) =>
      if s.done then some { s with calls := s.calls.set i (id, .unlocking) }
      else some { s with printed := s.printed ++ [id], calls := s.calls.set i (id, .running) }
    | some (id, .running) =>
      some { s with value := Sprintf id, calls := s.calls.set i (id, .storing) }
    | some (id, .storing) =>
      some { s with done := true, calls := s.calls.set i (id, .unlocking) }
    | some (id, .unlocking) =>
      if s.locked then some { s with locked := false, calls := s.calls.set i (id, .returned) }
      else none
    | some (_, .returned) => none

/-- The state reached by a schedule. -/
def run (s : State) (ls : List Label) : Option State := runFrom step s ls

/-- Every call has returned. -/
def finished (s : State) : Bool := s.calls.all (fun c => decide (c.2 = Pc.returned))

/-- Whether a call holds the mutex of the `Once`. -/
def holds : Int × Pc → Nat
  | (_, .checking) => 1
  | (_, .running) => 1
  | (_, .storing) => 1
  | (_, .unlocking) => 1
  | _ => 0

/-- Steps a call still has to take at most. -/
def cost : Int × Pc → Nat
  | (_, .entering) => 6
  | (_, .locking) => 5
  | (_, .checking) => 4
  | (_, .running) => 3
  | (_, .storing) => 2
  | (_, .unlocking) => 1
  | (_, .returned) => 0

/-- Steps the calls still have to take at most. -/
def potential (s : State) : Nat := (s.calls.map cost).sum

/-- Facts that hold in every state of the calls `Initialize(ids)`. -/
structure OInv (ids : List Int) (s : State) : Prop where
  idsEq : s.calls.map Prod.fst = ids
  hold : (s.calls.map holds).sum = if s.locked then 1 else 0
  fresh : s.printed = [] → s.done = false ∧ s.value = ""
  one : s.printed.length ≤ 1
  mem : ∀ k ∈ s.printed, k ∈ ids
  running : ∀ c ∈ s.calls, c.2 = Pc.running →
    s.printed = [c.1] ∧ s.value = "" ∧ s.done = false
  storing : ∀ c ∈ s.calls, c.2 = Pc.storing →
    s.printed = [c.1] ∧ s.value = Sprintf c.1 ∧ s.done = false
  dn : s.done = true → ∃ k, s.printed = [k] ∧ s.value = Sprintf k
  ret : ∀ c ∈ s.calls, c.2 = Pc.unlocking ∨ c.2 = Pc.returned → s.done = true
  started : s.printed ≠ [] →
    s.done = true ∨ ∃ c ∈ s.calls, c.2 = Pc.running ∨ c.2 = Pc.storing

/-- A schedule of `main`: call 3 enters first and runs the action while call 0
waits for the mutex; the others arrive after `done` is set. -/
def demoSchedule : List Label :=
  [.call 3, .call 0, .call 3, .call 3, .call 3, .call 3, .call 3,
   .call 0, .call 0, .call 0, .call 1, .call 2, .call 4]

/-- The state `demoSchedule` ends in. -/
def demoFinal : State :=
  { calls := [(0, .returned), (1, .returned), (2, .returned), (3, .returned), (4, .returned)],
    done := true, locked := false, value := "initialized by 3", printed := [3] }

end OnceInit

/-! ## Package `context` as `04_context.go` uses it -/

namespace Context

/-- Modelled from the spec: package `context` is the standard library and not
under src/.  The two terminal outcomes of a cancellation token, the sentinels
`context.Canceled` and `context.DeadlineExceeded`; `Err()` is `nil` (here
`none`) while the token is active. -/
inductive Error where
  | Canceled
  | DeadlineExceeded
  deriving DecidableEq, Repr

/-- The two types named `key` of `04_context.go`: `type key string` is declared
once in the body of `main` (line 81) and once in the body of `processRequest`
(line 166), and each declaration makes a type of its own. -/
inductive KeyType where
  | keyOfMain
  | keyOfProcessRequest
  deriving DecidableEq, Repr

/-- A key as `WithValue` and `Value` see it, an interface value: two keys are
equal only when both the dynamic type and the string agree. -/
structure Key where
  typ : KeyType
  str : String
  deriving DecidableEq, Repr

/-- The values of type `any` that `main` attaches. -/
inductive Any where
  | int (n : Int)
  | string (s : String)
  deriving DecidableEq, Repr

/-- Modelled from the spec: package `context` is not under src/.  A token is a
node in a tree: the root, or a child made by `WithCancel`, by `WithTimeout` or
`WithDeadline`, or by `WithValue`.  `id` names the cancellation state of the
node. -/
inductive Ctx where
  | Background
  | cancelCtx (parent : Ctx) (id : Nat)
  | timerCtx (parent : Ctx) (id : Nat)
  | valueCtx (parent : Ctx) (key : Key) (val : Any)
  deriving DecidableEq, Repr

/-- Modelled from the spec: package `context` is not under src/.  The
cancellation state of all tokens: the terminal transitions that took place, in
order of time, each with the node it was requested on, and the next unused
node id. -/
structure World where
  next : Nat
  log : List (Nat × Error)
  deriving DecidableEq, Repr

/-- No token exists yet. -/
def World.empty : World := { next := 0, log := [] }

/-- The nodes with a cancellation state on the path from a token to the root:
a transition of any of them is a transition of the token. -/
def Ctx.ids : Ctx → List Nat
  | .Background => []
  | .cancelCtx p id => id :: p.ids
  | .timerCtx p id => id :: p.ids
  | .valueCtx p _ _ => p.ids

/-- Modelled from the spec: `ctx.Err()`, `nil` while active and the sentinel of
the first terminal transition of the token or of one of its ancestors after
that. -/
def Err (w : World) (c : Ctx) : Option Error :=
  (w.log.find? (fun ev => decide (ev.1 ∈ c.ids))).map Prod.snd

/-- Modelled from the spec: whether the channel `ctx.Done()` is closed. -/
def Done (w : World) (c : Ctx) : Bool := (Err w c).isSome

/-- Modelled from the spec: `context.WithCancel(parent)`; the cancel function
it returns is `cancel` of the new token. -/
def WithCancel (w : World) (parent : Ctx) : World × Ctx :=
  ({ w with next := w.next + 1 }, .cancelCtx parent w.next)

/-- Modelled from the spec: `context.WithTimeout(parent, d)` and
`context.WithDeadline(parent, t)`; the timer is the step `expire`. -/
def WithTimeout (w : World) (parent : Ctx) : World × Ctx :=
  ({ w with next := w.next + 1 }, .timerCtx parent w.next)

/-- Modelled from the spec: `context.WithValue(parent, key, val)`. -/
def WithValue (parent : Ctx) (key : Key) (val : Any) : Ctx := .valueCtx parent key val

/-- Modelled from the spec: the transition of a token to a terminal state; a
token that is terminal already is left alone. -/
def cancelWith (c : Ctx) (e : Error) (w : World) : World :=
  match c with
  | .cancelCtx _ id => if (Err w c).isSome then w else { w with log := w.log ++ [(id, e)] }
  | .timerCtx _ id => if (Err w c).isSome then w else { w with log := w.log ++ [(id, e)] }
  | _ => w

/-- Modelled from the spec: the cancel function returned with the token `c`. -/
def cancel (c : Ctx) (w : World) : World := cancelWith c .Canceled w

/-- Modelled from the spec: the timer of the token `c` fires. -/
def expire (c : Ctx) (w : World) : World :=
  match c with
  | .timerCtx _ _ => cancelWith c .DeadlineExceeded w
  | _ => w

/-- Modelled from the spec: `ctx.Value(key)`; a `WithValue` token answers its
own key and hands every other key to its parent, the root answers `nil`. -/
def Ctx.Value : Ctx → Key → Option Any
  | .Background, _ => none
  | .cancelCtx p _, k => p.Value k
  | .timerCtx p _, k => p.Value k
  | .valueCtx p k' v, k => if k' = k then some v else p.Value k

/-- Something that happens to the tokens after a point in time. -/
inductive Op where
  | cancel (c : Ctx)
  | expire (c : Ctx)
  | withCancel (parent : Ctx)
  | withTimeout (parent : Ctx)
  deriving DecidableEq, Repr

/-- The world after an operation. -/
def Op.apply (w : World) : Op → World
  | .cancel c => Context.cancel c w
  | .expire c => Context.expire c w
  | .withCancel p => (WithCancel w p).1
  | .withTimeout p => (WithTimeout w p).1

/-- The world after a sequence of operations. -/
def applyAll (w : World) (ops : List Op) : World := ops.foldl Op.apply w

/-- Lines 33-49 of `main`: `ctx1, cancel1 := context.WithCancel(context.Background())`
and then the explicit `cancel1()`. -/
def mainCancelled : World × Ctx :=
  let p := WithCancel World.empty .Background
  (cancel p.2 p.1, p.2)

/-- What `main` does to tokens between the explicit `cancel1()` and the
deferred one: `ctx2` and `ctx3` are made and their timers fire, `ctx5` is made,
`ctx6` is made and cancelled, `ctx7` and `ctx8` are made, and the deferred
`cancel8()`, `cancel7()`, `cancel5()`, `cancel3()` and `cancel2()` run. -/
def mainRest : List Op :=
  [.withTimeout .Background, .expire (.timerCtx .Background 1),
   .withTimeout .Background, .expire (.timerCtx .Background 2),
   .withTimeout .Background,
   .withCancel .Background, .cancel (.cancelCtx .Background 4),
   .withTimeout .Background, .withTimeout .Background,
   .cancel (.timerCtx .Background 6), .cancel (.timerCtx .Background 5),
   .cancel (.timerCtx .Background 3), .cancel (.timerCtx .Background 2),
   .cancel (.timerCtx .Background 1)]

/-- The world in which the deferred `cancel1()` of `main` runs. -/
def mainBeforeDeferred : World :=
  { next := 7,
    log := [(0, .Canceled), (1, .DeadlineExceeded), (2, .DeadlineExceeded), (4, .Canceled),
            (6, .Canceled), (5, .Canceled), (3, .Canceled)] }

/-- `main`, lines 81-83: the constants `userIDKey` and `requestIDKey` of the
type `key` declared in `main`. -/
def mainUserIDKey : Key := ⟨.keyOfMain, "userID"⟩

def mainRequestIDKey : Key := ⟨.keyOfMain, "requestID"⟩

/-- `main`, lines 85-86. -/
def ctx4 : Ctx :=
  WithValue (WithValue .Background mainUserIDKey (.int 12345)) mainRequestIDKey
    (.string "req-abc-123")

/-- `processRequest` (lines 165-174): the two values it looks up with the
constants of its own type `key`, which it then prints. -/
def processRequest (ctx : Ctx) : Option Any × Option Any :=
  let userIDKey : Key := ⟨.keyOfProcessRequest, "userID"⟩
  let requestIDKey : Key := ⟨.keyOfProcessRequest, "requestID"⟩
  let userID := ctx.Value userIDKey
  let requestID := ctx.Value requestIDKey
  (userID, requestID)

end Context

/-! ## `fetchData` and `queryUsers` (`04_context.go`, lines 176-195, 243-259) -/

namespace FetchData

/-- A value of type `error`: what `ctx.Err()` gives, or anything else. -/
inductive GoError where
  | context (e : Context.Error)
  | other (msg : String)
  deriving DecidableEq, Repr

/-- One call `fetchData(ctx, url)`: what `ctx.Err()` is now, the two channels
of capacity 1, whether the goroutine has sent, and the pair returned. -/
structure State where
  ctxErr : Option Context.Error
  resultCh : List String
  errCh : List GoError
  sent : Bool
  ret : Option (String × Option GoError)
  deriving DecidableEq, Repr

/-- Scheduler labels: the context is cancelled or its deadline passes, the
goroutine sends, and the three cases of the `select`. -/
inductive Label where
  | cancel
  | expire
  | worker
  | caseDone
  | caseResult
  | caseErr
  deriving DecidableEq, Repr

/-- The call after its two `make` and the `go` statement; the context may be
terminal already. -/
def init (ctxErr : Option Context.Error) (_url : String) : State :=
  { ctxErr := ctxErr, resultCh := [], errCh := [], sent := false, ret := none }

/-- One atomic step. -/
def step (s : State) : Label → Option State
  | .cancel =>
    match s.ctxErr with
    | none => some { s with ctxErr := some .Canceled }
    | some _ => none
  | .expire =>
    match s.ctxErr with
    | none => some { s with ctxErr := some .DeadlineExceeded }
    | some _ => none
  | .worker =>
    if s.sent = false ∧ s.resultCh.length < 1 then
      some { s with resultCh := s.resultCh ++ ["データ取得成功"], sent := true }
    else none
  | .caseDone =>
    match s.ret, s.ctxErr with
    | none, some e => some { s with ret := some ("", some (.context e)) }
    | _, _ => none
  | .caseResult =>
    match s.ret, s.resultCh with
    | none, result :: rest => some { s with resultCh := rest, ret := some (result, none) }
    | _, _ => none
  | .caseErr =>
    match s.ret, s.errCh with
    | none, err :: rest => some { s with errCh := rest, ret := some ("", some err) }
    | _, _ => none

/-- The state reached by a schedule. -/
def run (s : State) (ls : List Label) : Option State := runFrom step s ls

/-- Steps still possible at most. -/
def potential (s : State) : Nat :=
  (if s.ctxErr = none then 1 else 0) + (if s.sent then 0 else 1) + (if s.ret = none then 1 else 0)

end FetchData

namespace QueryUsers

/-- One call `queryUsers(ctx)`; a `nil` slice is `none`. -/
structure State where
  ctxErr : Option Context.Error
  resultCh : List (List String)
  sent : Bool
  ret : Option (Option (List String) × Option FetchData.GoError)
  deriving DecidableEq, Repr

/-- Scheduler labels. -/
inductive Label where
  | cancel
  | expire
  | worker
  | caseDone
  | caseResult
  deriving DecidableEq, Repr

/-- The call after its `make` and the `go` statement. -/
def init (ctxErr : Option Context.Error) : State :=
  { ctxErr := ctxErr, resultCh := [], sent := false, ret := none }

/-- One atomic step. -/
def step (s : State) : Label → Option State
  | .cancel =>
    match s.ctxErr with
    | none => some { s with ctxErr := some .Canceled }
    | some _ => none
  | .expire =>
    match s.ctxErr with
    | none => some { s with ctxErr := some .DeadlineExceeded }
    | some _ => none
  | .worker =>
    if s.sent = false ∧ s.resultCh.length < 1 then
      some { s with resultCh := s.resultCh ++ [["太郎", "花子", "次郎"]], sent := true }
    else none
  | .caseDone =>
    match s.ret, s.ctxErr with
    | none, some e => some { s with ret := some (none, some (.context e)) }
    | _, _ => none
  | .caseResult =>
    match s.ret, s.resultCh with
    | none, users :: rest => some { s with resultCh := rest, ret := some (some users, none) }
    | _, _ => none

/-- The state reached by a schedule. -/
def run (s : State) (ls : List Label) : Option State := runFrom step s ls

/-- Steps still possible at most. -/
def potential (s : State) : Nat :=
  (if s.ctxErr = none then 1 else 0) + (if s.sent then 0 else 1) + (if s.ret = none then 1 else 0)

end QueryUsers

namespace FetchData

/-- The url `main` passes (line 96). -/
def demoUrl : String := "https://example.com/api/data"

/-- The state after the goroutine has sent and the `select` has taken the
result, with the context still active. -/
def demoReturned : State :=
  { ctxErr := none, resultCh := [], errCh := [], sent := true,
    ret := some ("データ取得成功", none) }

/-- The state after the deadline has passed and the `select` has taken
`ctx.Done()`. -/
def demoTimedOut : State :=
  { ctxErr := some .DeadlineExceeded, resultCh := [], errCh := [], sent := false,
    ret := some ("", some (.context .DeadlineExceeded)) }

end FetchData

/-! ## The REST API (`07_rest_api/02_advanced_api.go`) -/

namespace RestAPI

/-- A `time.Time`, as a number. -/
abbrev Time := Int

/-- The struct `User` (lines 24-30).  `Password` carries the tag `json:"-"`:
package `encoding/json` neither writes nor reads it. -/
structure User where
  ID : Int
  Username : String
  Email : String
  Password : String
  CreatedAt : Time
  deriving DecidableEq, Repr

/-- The struct `CreatePostRequest` (lines 53-57). -/
structure CreatePostRequest where
  Title : String
  Content : String
  Published : Bool
  deriving DecidableEq, Repr

/-- The struct `PaginatedResponse` (lines 66-72), with `Data` a slice of users. -/
structure PaginatedResponse where
  Data : List User
  Page : Int
  PerPage : Int
  Total : Int
  TotalPages : Int
  deriving DecidableEq, Repr

/-- A `map[string]string` in which every key is set at most once, in the order
of the assignments. -/
abbrev Errors := List (String × String)

/-- The assignment `errors[k] = v`. -/
def Errors.set (errors : Errors) (k v : String) : Errors :=
  errors.filter (fun p => p.1 != k) ++ [(k, v)]

/-- The struct `ErrorResponse` (lines 74-78); a `nil` map is `none`. -/
structure ErrorResponse where
  Error : String
  Message : String
  Details : Option Errors
  deriving DecidableEq, Repr

/-- What a handler hands to `respondJSON`. -/
inductive Payload where
  | error (e : ErrorResponse)
  | user (u : User)
  | page (p : PaginatedResponse)
  deriving DecidableEq, Repr

/-- The status and the data written by `respondJSON`. -/
structure Response where
  status : Int
  payload : Payload
  deriving DecidableEq, Repr

/-- The package variables `users` and `nextUserID`. -/
structure Store where
  users : List User
  nextUserID : Int
  deriving DecidableEq, Repr

/-- A request body that decodes into a `User` without error: a JSON object,
given by the keys the decoder can meet (`none` for a key that is absent or
`null`); every other key is skipped. -/
structure UserBody where
  id : Option Int
  username : Option String
  email : Option String
  password : Option String
  created_at : Option Time
  deriving DecidableEq, Repr

/-- What the handlers read of a request: the method, the query parameters
`page` and `per_page` ("" when absent), and the body, `none` when it does not
decode. -/
structure Request where
  Method : String
  page : String
  per_page : String
  body : Option UserBody
  deriving DecidableEq, Repr

/-- The builtin `len` of a string: its number of bytes. -/
def len (s : String) : Int := s.utf8ByteSize

/-- `http.StatusText` on the codes the handlers use. -/
def StatusText (status : Int) : String :=
  if status = 400 then "Bad Request"
  else if status = 405 then "Method Not Allowed"
  else if status = 409 then "Conflict"
  else ""

/-- `respondError` (lines 537-543). -/
def respondError (message : String) (status : Int) (details : Option Errors) : Response :=
  { status := status,
    payload := .error { Error := StatusText status, Message := message, Details := details } }

/-- `json.NewDecoder(r.Body).Decode(&user)` on a body that decodes: each key
is stored in the field with that tag; no field has the tag `password`, and
`Password`, tagged `-`, is never written. -/
def decodeUser (b : UserBody) : User :=
  { ID := b.id.getD 0, Username := b.username.getD "", Email := b.email.getD "",
    Password := "", CreatedAt := b.created_at.getD 0 }

/-- `validateUser` (lines 465-484); `nil` is `none`. -/
def validateUser (user : User) : Option Errors :=
  let errors : Errors := []
  let errors := if user.Username = "" then errors.set "username" "Username is required"
    else errors
  let errors := if user.Email = "" then errors.set "email" "Email is required" else errors
  let errors :=
    if user.Password = "" then errors.set "password" "Password is required"
    else if len user.Password < 6 then
      errors.set "password" "Password must be at least 6 characters"
    else errors
  if errors.length > 0 then some errors else none

/-- `validateCreatePost` (lines 486-503). -/
def validateCreatePost (req : CreatePostRequest) : Option Errors :=
  let errors : Errors := []
  let errors :=
    if req.Title = "" then errors.set "title" "Title is required"
    else if len req.Title > 200 then
      errors.set "title" "Title must be less than 200 characters"
    else errors
  let errors := if req.Content = "" then errors.set "content" "Content is required"
    else errors
  if errors.length > 0 then some errors else none

/-- `registerHandler` (lines 172-205); `now` is what `time.Now()` gives. -/
def registerHandler (st : Store) (now : Time) (r : Request) : Store × Response :=
  if r.Method ≠ "POST" then (st, respondError "Method not allowed" 405 none)
  else
    match r.body with
    | none => (st, respondError "Invalid request body" 400 none)
    | some b =>
      let user := decodeUser b
      match validateUser user with
      | some err => (st, respondError "Validation failed" 400 (some err))
      | none =>
        if st.users.any (fun u => u.Email = user.Email) then
          (st, respondError "Email already exists" 409 none)
        else
          let user := { user with ID := st.nextUserID, CreatedAt := now }
          ({ users := st.users ++ [user], nextUserID := addInt st.nextUserID 1 },
           { status := 201, payload := .user user })

/-- `strconv.Atoi`: an optional sign and decimal digits, within the range of
`int`; `none` for an error. -/
def Atoi (s : String) : Option Int :=
  let ds := match s.toList with
    | '-' :: r => r
    | '+' :: r => r
    | r => r
  if ds = [] ∨ ds.all Char.isDigit = false then none
  else
    let n : Int := ds.foldl (fun a c => 10 * a + ((c.toNat - 48 : Nat) : Int)) 0
    let v : Int := match s.toList with
      | '-' :: _ => -n
      | _ => n
    if -(2 : Int) ^ 63 ≤ v ∧ v < (2 : Int) ^ 63 then some v else none

/-- `getPagination` (lines 512-529). -/
def getPagination (r : Request) : Int × Int :=
  let page : Int :=
    if r.page ≠ "" then
      match Atoi r.page with
      | some parsed => if parsed > 0 then parsed else 1
      | none => 1
    else 1
  let perPage : Int :=
    if r.per_page ≠ "" then
      match Atoi r.per_page with
      | some parsed => if parsed > 0 ∧ parsed ≤ 100 then parsed else 10
      | none => 10
    else 10
  (page, perPage)

/-- The slice expression `users[start:end]`; `none` is the runtime panic for
bounds out of range. -/
def slice (users : List User) (start stop : Int) : Option (List User) :=
  if 0 ≤ start ∧ start ≤ stop ∧ stop ≤ (users.length : Int) then
    some ((users.drop start.toNat).take (stop.toNat - start.toNat))
  else none

/-- `usersHandler` (lines 209-243) on the package variable `users`; `none` is
a runtime panic. -/
def usersHandler (users : List User) (r : Request) : Option Response :=
  if r.Method ≠ "GET" then some (respondError "Method not allowed" 405 none)
  else
    let (page, perPage) := getPagination r
    let start := mulInt (wrap64 (page - 1)) perPage
    let stop := addInt start perPage
    let n : Int := users.length
    let totalPages := Int.tdiv (wrap64 (addInt n perPage - 1)) perPage
    if start ≥ n then
      some { status := 200,
             payload := .page { Data := [], Page := page, PerPage := perPage, Total := n,
                                TotalPages := totalPages } }
    else
      let stop := if stop > n then n else stop
      match slice users start stop with
      | none => none
      | some data =>
        some { status := 200,
               payload := .page { Data := data, Page := page, PerPage := perPage, Total := n,
                                  TotalPages := totalPages } }

/-- The package variable `users` as initialised (lines 83-86). -/
def initialUsers (now : Time) : List User :=
  [{ ID := 1, Username := "太郎", Email := "taro@example.com", Password := "password123",
     CreatedAt := now },
   { ID := 2, Username := "花子", Email := "hanako@example.com", Password := "password123",
     CreatedAt := now }]

/-- The store as initialised (lines 82-94). -/
def initialStore (now : Time) : Store := { users := initialUsers now, nextUserID := 3 }

/-- The body `{"username":"jiro","email":"jiro@example.com","password":"secret123"}`. -/
def registerBody : UserBody :=
  { id := none, username := some "jiro", email := some "jiro@example.com",
    password := some "secret123", created_at := none }

/-- A title of exactly 200 characters, each of one byte. -/
def title200 : String := String.mk (List.replicate 200 (Char.ofNat 97))

end RestAPI

/-! ## `BankAccount` (`02_functions/03_methods.go`, lines 225-251) -/

namespace Bank

/-- Go `a - b` on `int`. -/
def subInt (a b : Int) : Int := wrap64 (a - b)

/-- The struct `BankAccount`. -/
structure BankAccount where
  owner : String
  balance : Int
  deriving DecidableEq, Repr

/-- `NewBankAccount` (lines 230-235). -/
def NewBankAccount (owner : String) (initialBalance : Int) : BankAccount :=
  { owner := owner, balance := initialBalance }

/-- `Deposit` (lines 237-239): the account afterwards. -/
def BankAccount.Deposit (ba : BankAccount) (amount : Int) : BankAccount :=
  { ba with balance := addInt ba.balance amount }

/-- `Withdraw` (lines 241-247): the account afterwards and the error, `none`
for `nil`. -/
def BankAccount.Withdraw (ba : BankAccount) (amount : Int) : BankAccount × Option String :=
  if amount > ba.balance then
    (ba, some ("残高不足: 残高 " ++ toString ba.balance ++ "円, 出金額 " ++ toString amount ++ "円"))
  else
    ({ ba with balance := subInt ba.balance amount }, none)

/-- `Balance` (lines 249-251). -/
def BankAccount.Balance (ba : BankAccount) : Int := ba.balance

/-- The account of `main` after `Deposit(500)` and `Withdraw(300)` (lines 80-86). -/
def demoAccount : BankAccount :=
  (((NewBankAccount "太郎" 1000).Deposit 500).Withdraw 300).1

end Bank

/-! ## `UserStore` (`07_rest_api/01_rest_api.go`, lines 25-135) -/

namespace RestCRUD

/-- A `time.Time`, as a number. -/
abbrev Time := Int

/-- The struct `User` (lines 25-31). -/
structure User where
  ID : Int
  Name : String
  Email : String
  CreatedAt : Time
  UpdatedAt : Time
  deriving DecidableEq, Repr

/-- A `map[int]*User`: every `*User` is made by `Create` and stored under one
key only, so the map is given by its entries, the user itself in place of the
pointer. -/
abbrev UserMap := List (Int × User)

/-- The index expression `users[id]` with its `exists` flag. -/
def UserMap.get : UserMap → Int → Option User
  | [], _ => none
  | (k, u) :: rest, id => if k = id then some u else UserMap.get rest id

/-- The assignment `users[id] = user`, also the write through the pointer
stored under `id`. -/
def UserMap.set : UserMap → Int → User → UserMap
  | [], id, user => [(id, user)]
  | (k, u) :: rest, id, user =>
    if k = id then (k, user) :: rest else (k, u) :: UserMap.set rest id user

/-- The builtin `delete(users, id)`. -/
def UserMap.delete : UserMap → Int → UserMap
  | [], _ => []
  | (k, u) :: rest, id =>
    if k = id then UserMap.delete rest id else (k, u) :: UserMap.delete rest id

/-- The struct `UserStore` (lines 52-56); every method holds `mu` from its
first to its last statement, so a method is one atomic step. -/
structure UserStore where
  users : UserMap
  nextID : Int
  deriving DecidableEq, Repr

/-- `NewUserStore` (lines 58-63). -/
def NewUserStore : UserStore := { users := [], nextID := 1 }

/-- The error made by `fmt.Errorf("ユーザーが見つかりません")`. -/
def notFound : String := "ユーザーが見つかりません"

/-- `Create` (lines 65-81); `t1` and `t2` are what the two `time.Now()` give. -/
def UserStore.Create (s : UserStore) (name email : String) (t1 t2 : Time) :
    UserStore × (Option User × Option String) :=
  let user : User :=
    { ID := s.nextID, Name := name, Email := email, CreatedAt := t1, UpdatedAt := t2 }
  ({ users := s.users.set s.nextID user, nextID := addInt s.nextID 1 }, (some user, none))

/-- `GetAll` (lines 83-92): the users in the slice it returns, each as often as
it occurs.  The slice is filled by a `range` over the map, whose order is not
fixed and differs from call to call, so the order of the slice is left open. -/
def UserStore.GetAll (s : UserStore) : Multiset User :=
  Multiset.ofList (s.users.map Prod.snd)

/-- `GetByID` (lines 94-103). -/
def UserStore.GetByID (s : UserStore) (id : Int) : Option User × Option String :=
  match s.users.get id with
  | none => (none, some notFound)
  | some user => (some user, none)

/-- `Update` (lines 105-123); `now` is what `time.Now()` gives. -/
def UserStore.Update (s : UserStore) (id : Int) (name email : String) (now : Time) :
    UserStore × (Option User × Option String) :=
  match s.users.get id with
  | none => (s, (none, some notFound))
  | some user =>
    let user := if name ≠ "" then { user with Name := name } else user
    let user := if email ≠ "" then { user with Email := email } else user
    let user := { user with UpdatedAt := now }
    ({ s with users := s.users.set id user }, (some user, none))

/-- `Delete` (lines 125-135). -/
def UserStore.Delete (s : UserStore) (id : Int) : UserStore × Option String :=
  match s.users.get id with
  | none => (s, some notFound)
  | some _ => ({ s with users := s.users.delete id }, none)

/-- A call of a method that writes to the store. -/
inductive Op where
  | create (name email : String) (t1 t2 : Time)
  | update (id : Int) (name email : String) (now : Time)
  | delete (id : Int)
  deriving DecidableEq, Repr

/-- The store after a call. -/
def Op.apply (s : UserStore) : Op → UserStore
  | .create name email t1 t2 => (s.Create name email t1 t2).1
  | .update id name email now => (s.Update id name email now).1
  | .delete id => (s.Delete id).1

/-- The store after a sequence of calls on a new store. -/
def exec (ops : List Op) : UserStore := ops.foldl Op.apply NewUserStore

/-- The three `Create` calls of `main` (lines 337-339). -/
def mainOps (t : Time) : List Op :=
  [.create "太郎" "taro@example.com" t t, .create "花子" "hanako@example.com" t t,
   .create "次郎" "jiro@example.com" t t]

end RestCRUD

/-! ## Middleware (`05_web_basics/02_middleware.go`) -/

namespace WebMiddleware

/-- An `http.Header`: the values stored under each (canonical) key. -/
abbrev Header := List (String × List String)

/-- `Header.Get`: the first value under the key, "" when there is none. -/
def Header.Get (h : Header) (key : String) : String :=
  match h.lookup key with
  | some (v :: _) => v
  | _ => ""

/-- `Header.Set`: the key now holds this one value. -/
def Header.Set (h : Header) (key value : String) : Header :=
  h.filter (fun p => p.1 != key) ++ [(key, [value])]

/-- What a handler reads of an `*http.Request`. -/
structure Request where
  Method : String
  Path : String
  RemoteAddr : String
  Header : Header
  deriving DecidableEq, Repr

/-- An `http.ResponseWriter`: its header map, the status sent (by `WriteHeader`
or by the first `Write`), and the body written. -/
structure ResponseWriter where
  header : Header
  status : Option Int
  body : String
  deriving DecidableEq, Repr

/-- The writer a request starts with. -/
def ResponseWriter.new : ResponseWriter := { header := [], status := none, body := "" }

/-- `w.WriteHeader(code)`; a second call is ignored. -/
def ResponseWriter.WriteHeader (w : ResponseWriter) (code : Int) : ResponseWriter :=
  if w.status.isSome then w else { w with status := some code }

/-- `w.Write`, as used by `fmt.Fprintf(w, ...)` and the JSON encoder. -/
def ResponseWriter.Write (w : ResponseWriter) (data : String) : ResponseWriter :=
  let w := w.WriteHeader 200
  { w with body := w.body ++ data }

/-- `http.Error(w, error, code)`. -/
def Error (w : ResponseWriter) (error : String) (code : Int) : ResponseWriter :=
  let w := { w with header := (w.header.Set "Content-Type" "text/plain; charset=utf-8").Set
                      "X-Content-Type-Options" "nosniff" }
  let w := w.WriteHeader code
  w.Write (error ++ "\n")

/-- A line written through package `log`; the duration printed by
`loggingMiddleware` is left out. -/
inductive LogEntry where
  /-- `log.Printf("[%s] %s %s", r.Method, r.URL.Path, r.RemoteAddr)` -/
  | request (method path remoteAddr : String)
  /-- `log.Printf("処理時間: %v", time.Since(start))` -/
  | elapsed
  /-- `log.Println("認証成功")` -/
  | authOK
  /-- any other line -/
  | line (text : String)
  deriving DecidableEq, Repr

/-- The package variable `requestCount`, a `map[string]int`. -/
abbrev Counts := List (String × Int)

/-- The index expression `requestCount[ip]`, 0 for a missing key. -/
def Counts.get (m : Counts) (ip : String) : Int := (m.lookup ip).getD 0

/-- The assignment `requestCount[ip] = n`. -/
def Counts.set (m : Counts) (ip : String) (n : Int) : Counts :=
  m.filter (fun p => p.1 != ip) ++ [(ip, n)]

/-- What serving a request can write to: the response writer of the request,
the log, and the package variable `requestCount`. -/
structure World where
  w : ResponseWriter
  log : List LogEntry
  requestCount : Counts
  deriving DecidableEq, Repr

/-- An `http.Handler`: `ServeHTTP(w, r)` as its effect. -/
abbrev Handler := Request → World → World

/-- The type `Middleware` (line 65). -/
abbrev Middleware := Handler → Handler

/-- `loggingMiddleware` (lines 69-82). -/
def loggingMiddleware : Middleware := fun next r world =>
  let world := { world with log := world.log ++ [.request r.Method r.Path r.RemoteAddr] }
  let world := next r world
  { world with log := world.log ++ [.elapsed] }

/-- `authMiddleware` (lines 86-107). -/
def authMiddleware : Middleware := fun next r world =>
  let token := r.Header.Get "Authorization"
  if token = "" then { world with w := Error world.w "認証が必要です" 401 }
  else if token ≠ "Bearer secret-token" then
    { world with w := Error world.w "無効なトークンです" 401 }
  else
    let world := { world with log := world.log ++ [.authOK] }
    next r world

/-- `corsMiddleware` (lines 111-127). -/
def corsMiddleware : Middleware := fun next r world =>
  let h := world.w.header.Set "Access-Control-Allow-Origin" "*"
  let h := h.Set "Access-Control-Allow-Methods" "GET, POST, PUT, DELETE, OPTIONS"
  let h := h.Set "Access-Control-Allow-Headers" "Content-Type, Authorization"
  let world := { world with w := { world.w with header := h } }
  if r.Method = "OPTIONS" then { world with w := world.w.WriteHeader 200 }
  else next r world

/-- `rateLimitMiddleware` (lines 133-149). -/
def rateLimitMiddleware : Middleware := fun next r world =>
  let ip := r.RemoteAddr
  let world := { world with
    requestCount := world.requestCount.set ip (addInt (world.requestCount.get ip) 1) }
  if world.requestCount.get ip > 10 then
    { world with w := Error world.w "レート制限を超えました" 429 }
  else next r world

/-- The loop of `chain` (lines 172-174) with `i + 1 = n`: it stops when
`i >= 0` fails. -/
def chainLoop (middlewares : List Middleware) : Nat → Handler → Handler
  | 0, final => final
  | i + 1, final =>
    match middlewares[i]? with
    | some m => chainLoop middlewares i (m final)
    | none => final

/-- `chain` (lines 169-177). -/
def chain (middlewares : List Middleware) : Middleware := fun final =>
  chainLoop middlewares middlewares.length final

/-- `protectedHandler` (lines 181-183). -/
def protectedHandler : Handler := fun _ world =>
  { world with w := world.w.Write "認証済みユーザーのみアクセス可能" }

/-- The JSON text of the map in `dataHandler`; the encoder writes the keys of
a map in sorted order and ends with a newline. -/
def dataJSON : String :=
  "\x7b\"data\":[\"item1\",\"item2\",\"item3\"],\"message\":\"保護されたデータ\",\"user_id\":123\x7d\n"

/-- `dataHandler` (lines 185-194). -/
def dataHandler : Handler := fun _ world =>
  let w := { world.w with header := world.w.header.Set "Content-Type" "application/json" }
  { world with w := w.Write dataJSON }

/-- A handler that only leaves a line in the log. -/
def probe : Handler := fun _ world => { world with log := world.log ++ [.line "next"] }

/-- Nothing written yet, no request counted. -/
def World.init : World := { w := ResponseWriter.new, log := [], requestCount := [] }

/-- Requests served one at a time by `h`, each with a writer of its own. -/
def serve (h : Handler) (reqs : List Request) (world : World) : World :=
  reqs.foldl (fun world r => h r { world with w := ResponseWriter.new }) world

/-- Number of requests of `reqs` that come from `addr`. -/
def seen (reqs : List Request) (addr : String) : Nat :=
  (reqs.filter (fun r => decide (r.RemoteAddr = addr))).length

/-- The request `curl -H "Authorization: Bearer secret-token" .../api/data`. -/
def demoRequest : Request :=
  { Method := "GET", Path := "/api/data", RemoteAddr := "127.0.0.1:50000",
    Header := [("Authorization", ["Bearer secret-token"])] }

/-- The request `curl .../with-middleware`, without the header. -/
def anonymousRequest : Request :=
  { Method := "GET", Path := "/with-middleware", RemoteAddr := "127.0.0.1:50001",
    Header := [] }

end WebMiddleware

namespace WebMiddleware

/-- The world after the requests `reqs` were served one at a time by
`rateLimitMiddleware(next)`, starting with an empty `requestCount`. -/
def limited (next : Handler) (reqs : List Request) : World :=
  serve (rateLimitMiddleware next) reqs World.init

/-- The world in which a request is handled after `rateLimitMiddleware` has
counted it as number `k` of its address. -/
def counted (world : World) (r : Request) (k : Int) : World :=
  { world with w := ResponseWriter.new, requestCount := world.requestCount.set r.RemoteAddr k }

/-- Ten requests from one address and one from another. -/
def demoTraffic : List Request := List.replicate 10 demoRequest ++ [anonymousRequest]

end WebMiddleware

/-! # Theorems -/

/-- An invariant that every enabled step preserves holds along every schedule. -/
theorem runFrom_invariant {σ ℓ : Type} (step : σ → ℓ → Option σ) (Inv : σ → Prop)
    (hstep : ∀ s l s', Inv s → step s l = some s' → Inv s') :
    ∀ (ls : List ℓ) (s s' : σ), Inv s → runFrom step s ls = some s' → Inv s' := by
  intro ls
  induction ls with
  | nil =>
    intro s s' hs h
    simp only [runFrom, Option.some.injEq] at h
    exact h ▸ hs
  | cons l ls ih =>
    intro s s' hs h
    simp only [runFrom] at h
    cases hl : step s l with
    | none => simp [hl] at h
    | some t =>
      rw [hl] at h
      exact ih t s' (hstep s l t hs hl) h

/-- A potential that every enabled step lowers bounds the length of every schedule. -/
theorem runFrom_potential {σ ℓ : Type} (step : σ → ℓ → Option σ) (Φ : σ → Nat)
    (hstep : ∀ s l s', step s l = some s' → Φ s' + 1 ≤ Φ s) :
    ∀ (ls : List ℓ) (s s' : σ), runFrom step s ls = some s' → ls.length + Φ s' ≤ Φ s := by
  intro ls
  induction ls with
  | nil =>
    intro s s' h
    simp only [runFrom, Option.some.injEq] at h
    simp [h]
  | cons l ls ih =>
    intro s s' h
    simp only [runFrom] at h
    cases hl : step s l with
    | none => simp [hl] at h
    | some t =>
      rw [hl] at h
      have h1 := ih t s' h
      have h2 := hstep s l t hl
      simp only [List.length_cons]
      omega

/-- Splitting a schedule in two. -/
theorem runFrom_append {σ ℓ : Type} (step : σ → ℓ → Option σ) :
    ∀ (ls ms : List ℓ) (s : σ),
      runFrom step s (ls ++ ms) = (runFrom step s ls).bind (fun t => runFrom step t ms) := by
  intro ls
  induction ls with
  | nil => intro ms s; simp [runFrom]
  | cons l ls ih =>
    intro ms s
    simp only [List.cons_append, runFrom]
    cases hl : step s l with
    | none => simp
    | some t => simp [ih]

theorem sum_map_set {α : Type} (f : α → Nat) :
    ∀ (l : List α) (i : Nat) (a b : α), l[i]? = some a →
      ((l.set i b).map f).sum + f a = (l.map f).sum + f b := by
  intro l
  induction l with
  | nil => intro i a b h; simp at h
  | cons x xs ih =>
    intro i a b h
    cases i with
    | zero =>
      simp only [List.getElem?_cons_zero, Option.some.injEq] at h
      subst h
      simp only [List.set, List.map_cons, List.sum_cons]
      omega
    | succ i =>
      simp only [List.getElem?_cons_succ] at h
      have := ih i a b h
      simp only [List.set, List.map_cons, List.sum_cons]
      omega

theorem flatMap_set_perm {α β : Type} (f : α → List β) :
    ∀ (l : List α) (i : Nat) (a b : α), l[i]? = some a →
      ((l.set i b).flatMap f ++ f a).Perm (l.flatMap f ++ f b) := by
  intro l
  induction l with
  | nil => intro i a b h; simp at h
  | cons x xs ih =>
    intro i a b h
    cases i with
    | zero =>
      simp only [List.getElem?_cons_zero, Option.some.injEq] at h
      subst h
      simp only [List.set, List.flatMap_cons]
      rw [← Multiset.coe_eq_coe]
      simp only [← Multiset.coe_add]
      abel
    | succ i =>
      simp only [List.getElem?_cons_succ] at h
      have := ih i a b h
      simp only [List.set, List.flatMap_cons, List.append_assoc]
      exact this.append_left _

theorem wrap64_add_wrap64 (a b : Int) : wrap64 (wrap64 a + b) = wrap64 (a + b) := by
  unfold wrap64
  omega

theorem wrap64_of_range (a : Int) (h1 : -(2 ^ 63) ≤ a) (h2 : a < 2 ^ 63) : wrap64 a = a := by
  unfold wrap64
  omega

theorem foldl_addInt (l : List Int) (a : Int) :
    l.foldl addInt (wrap64 a) = wrap64 (a + l.sum) := by
  induction l generalizing a with
  | nil => simp
  | cons x xs ih =>
    simp only [List.foldl_cons, List.sum_cons, addInt]
    rw [ih, add_assoc, wrap64_add_wrap64]

theorem foldl_addInt_zero (l : List Int) : l.foldl addInt 0 = wrap64 l.sum := by
  have := foldl_addInt l 0
  rw [wrap64_of_range 0 (by norm_num) (by norm_num)] at this
  simpa using this

namespace WorkerPool

theorem pool_step_sound {p p' : Pool} {l : Label} (h : step p l = some p') : Step p l p' := by
  unfold step at h
  split at h
  · simp at h
  · rename_i hp
    simp only [Bool.not_eq_true] at hp
    cases l with
    | caller =>
      simp only [callerStep] at h
      split at h
      · rename_i i hc
        split at h
        · rename_i hi
          simp only [Option.some.injEq] at h
          subst h
          exact Step.spawn p i hp hc hi
        · rename_i hi
          simp only [Option.some.injEq] at h
          subst h
          exact Step.started p i hp hc hi
      · rename_i hc
        split at h
        · rename_i hw
          simp only [Option.some.injEq] at h
          subst h
          exact Step.stopped p hp hc hw
        · simp at h
      · rename_i hc
        split at h
        · simp at h
        · rename_i r hs
          simp only [Option.some.injEq] at h
          subst h
          exact Step.callStart p r hp hc hs
        · rename_i t r hs
          split at h
          · rename_i hcl
            simp only [Option.some.injEq] at h
            subst h
            exact Step.sendClosed p t r hp hc hs hcl
          · rename_i hcl
            simp only [Bool.not_eq_true] at hcl
            split at h
            · rename_i hlen
              simp only [Option.some.injEq] at h
              subst h
              exact Step.send p t r hp hc hs hcl hlen
            · simp at h
        · rename_i r hs
          split at h
          · rename_i hcl
            simp only [Option.some.injEq] at h
            subst h
            exact Step.closeClosed p r hp hc hs hcl
          · rename_i hcl
            simp only [Bool.not_eq_true] at hcl
            simp only [Option.some.injEq] at h
            subst h
            exact Step.close p r hp hc hs hcl
    | worker i =>
      simp only [workerStep] at h
      split at h
      · simp at h
      · simp at h
      · rename_i hw
        split at h
        · rename_i t q ht
          simp only [Option.some.injEq] at h
          subst h
          exact Step.recv p i t q hp hw ht
        · rename_i ht
          split at h
          · rename_i hcl
            simp only [Option.some.injEq] at h
            subst h
            exact Step.leave p i hp hw ht hcl
          · simp at h
      · rename_i t hw
        split at h
        · rename_i ht
          simp only [Option.some.injEq] at h
          subst h
          exact Step.taskPanic p i t hp hw ht
        · rename_i ht
          simp only [Bool.not_eq_true] at ht
          simp only [Option.some.injEq] at h
          subst h
          exact Step.taskDone p i t hp hw ht

theorem pool_step_complete {p p' : Pool} {l : Label} (h : Step p l p') : step p l = some p' := by
  cases h <;> simp_all [step, callerStep, workerStep]

theorem runningTasks_append (ws : List Worker) :
    runningTasks (ws ++ [Worker.ranging]) = runningTasks ws := by
  simp [runningTasks, Worker.current]

theorem GInv_init (N : Int) (orig : List Call) : GInv N orig (NewWorkerPool N orig) := by
  constructor <;> simp [NewWorkerPool, runningTasks, Caller.toSpawn]

theorem pool_mem_set_exited {ws : List Worker} {i : Nat} {w : Worker}
    (h : Worker.exited ∈ ws.set i w) (hw : w ≠ Worker.exited) : Worker.exited ∈ ws := by
  rcases List.mem_or_eq_of_mem_set h with h | h
  · exact h
  · exact absurd h.symm hw

theorem GInv_step (N : Int) (orig : List Call) (p p' : Pool) (l : Label)
    (hI : GInv N orig p) (h : step p l = some p') : GInv N orig p' := by
  have hst := pool_step_sound h
  obtain ⟨h1, h2, h3, h4, h5, h6, h7, h8⟩ := hI
  refine ⟨?_, ?_, ?_, ?_, ?_, ?_, ?_, ?_⟩
  · cases hst <;> exact h1
  · cases hst with
    | spawn i hp hc hi => simp [h2, Worker.live]
    | recv i t q hp hw ht =>
      have := sum_map_set Worker.live p.workers i _ (Worker.running t) hw
      simp only [Worker.live] at this ⊢
      omega
    | leave i hp hw ht hcl =>
      have := sum_map_set Worker.live p.workers i _ Worker.exited hw
      simp only [Worker.live] at this ⊢
      omega
    | taskDone i t hp hw ht =>
      have := sum_map_set Worker.live p.workers i _ Worker.ranging hw
      simp only [Worker.live] at this ⊢
      omega
    | _ => exact h2
  · cases hst with
    | spawn i hp hc hi =>
      intro hm
      apply h3
      simpa using hm
    | send t r hp hc hs hcl hlen =>
      intro hm
      have := (h3 hm).1
      simp [hcl] at this
    | close r hp hc hs hcl =>
      intro hm
      have := (h3 hm).1
      simp [hcl] at this
    | recv i t q hp hw ht =>
      intro hm
      have := (h3 (pool_mem_set_exited hm (by simp))).2
      simp [ht] at this
    | leave i hp hw ht hcl => intro _; exact ⟨hcl, ht⟩
    | taskDone i t hp hw ht =>
      intro hm
      exact h3 (pool_mem_set_exited hm (by simp))
    | _ => exact h3
  · cases hst with
    | spawn i hp hc hi => simpa [runningTasks_append] using h4
    | send t r hp hc hs hcl hlen =>
      simp only [← List.append_assoc]
      exact h4.append_right [t] |>.trans (by simp)
    | recv i t q hp hw ht =>
      have := flatMap_set_perm Worker.current p.workers i _ (Worker.running t) hw
      simp only [Worker.current, List.append_nil] at this
      refine h4.trans ?_
      have e1 : t :: q = [t] ++ q := rfl
      simp only [ht, runningTasks, e1]
      rw [← Multiset.coe_eq_coe] at this ⊢
      simp only [← Multiset.coe_add] at this ⊢
      rw [this]
      abel
    | leave i hp hw ht hcl =>
      have := flatMap_set_perm Worker.current p.workers i _ Worker.exited hw
      simp only [Worker.current, List.append_nil] at this
      refine h4.trans ?_
      simp only [runningTasks]
      rw [← Multiset.coe_eq_coe] at this ⊢
      simp only [← Multiset.coe_add] at this ⊢
      rw [this]
    | taskDone i t hp hw ht =>
      have := flatMap_set_perm Worker.current p.workers i _ Worker.ranging hw
      simp only [Worker.current, List.append_nil] at this
      refine h4.trans ?_
      simp only [runningTasks]
      rw [← Multiset.coe_eq_coe] at this ⊢
      simp only [← Multiset.coe_add] at this ⊢
      rw [← this]
      abel
    | _ => exact h4
  · cases hst with
    | closeClosed r hp hc hs hcl => intro _; exact hcl
    | close r hp hc hs hcl => intro _; rfl
    | _ => exact h5
  · cases hst with
    | spawn i hp hc hi => intro hh; cases hh
    | started i hp hc hi => intro hh; cases hh
    | stopped hp hc hw => intro hh; cases hh
    | callStart r hp hc hs => intro hh; cases hh
    | sendClosed t r hp hc hs hcl => intro _; exact hcl
    | send t r hp hc hs hcl hlen => intro hh; simp [hc] at hh
    | closeClosed r hp hc hs hcl => intro _; exact hcl
    | close r hp hc hs hcl => intro _; rfl
    | _ => exact h6
  · cases hst with
    | callStart r hp hc hs => intro _; simpa [hs, tasksOf] using h7 hp
    | sendClosed t r hp hc hs hcl => intro hh; cases hh
    | send t r hp hc hs hcl hlen => intro _; simpa [hs, tasksOf] using h7 hp
    | closeClosed r hp hc hs hcl => intro hh; cases hh
    | close r hp hc hs hcl => intro _; simpa [hs, tasksOf] using h7 hp
    | taskPanic i t hp hw ht => intro hh; cases hh
    | _ => exact h7
  · cases hst with
    | spawn i hp hc hi =>
      rw [h1] at hi
      simp only [hc, Caller.toSpawn, List.length_append, List.length_singleton] at h8 ⊢
      omega
    | started i hp hc hi =>
      rw [h1] at hi
      simp only [hc, Caller.toSpawn] at h8 ⊢
      omega
    | stopped hp hc hw =>
      simp only [hc, Caller.toSpawn] at h8 ⊢
      omega
    | callStart r hp hc hs =>
      simp only [hc, hs, Caller.toSpawn, List.count_cons_self, Nat.mul_succ] at h8 ⊢
      omega
    | sendClosed t r hp hc hs hcl =>
      simp only [hc, hs, Caller.toSpawn] at h8 ⊢
      rw [List.count_cons_of_ne (by simp)] at h8
      omega
    | send t r hp hc hs hcl hlen =>
      simp only [hc, hs, Caller.toSpawn] at h8 ⊢
      rw [List.count_cons_of_ne (by simp)] at h8
      omega
    | closeClosed r hp hc hs hcl =>
      simp only [hc, hs, Caller.toSpawn] at h8 ⊢
      rw [List.count_cons_of_ne (by simp)] at h8
      omega
    | close r hp hc hs hcl =>
      simp only [hc, hs, Caller.toSpawn] at h8 ⊢
      rw [List.count_cons_of_ne (by simp)] at h8
      omega
    | recv i t q hp hw ht => simpa using h8
    | leave i hp hw ht hcl => simpa using h8
    | taskPanic i t hp hw ht => exact h8
    | taskDone i t hp hw ht => simpa using h8

theorem pool_potential_step (p p' : Pool) (l : Label) (h : step p l = some p') :
    potential p' + 1 ≤ potential p := by
  have hst := pool_step_sound h
  cases hst with
  | spawn i hp hc hi =>
    simp only [potential, hp, hc, Caller.cost, List.map_append, List.sum_append, List.map_cons,
      List.map_nil, List.sum_cons, List.sum_nil, Worker.cost]
    simp only [Bool.false_eq_true, if_false]
    omega
  | started i hp hc hi =>
    simp only [potential, hp, hc, Caller.cost]
    omega
  | stopped hp hc hw =>
    simp only [potential, hp, hc, Caller.cost]
    omega
  | callStart r hp hc hs =>
    simp only [potential, hp, hc, hs, Caller.cost, Call.cost, List.map_cons, List.sum_cons]
    omega
  | sendClosed t r hp hc hs hcl =>
    simp only [potential, hp, hc, hs, Caller.cost, Call.cost, List.map_cons, List.sum_cons]
    simp only [Bool.false_eq_true, if_false, if_true]
    omega
  | send t r hp hc hs hcl hlen =>
    simp only [potential, hp, hc, hs, Caller.cost, Call.cost, List.map_cons, List.sum_cons,
      List.length_append, List.length_singleton]
    omega
  | closeClosed r hp hc hs hcl =>
    simp only [potential, hp, hc, hs, Caller.cost, Call.cost, List.map_cons, List.sum_cons]
    simp only [Bool.false_eq_true, if_false, if_true]
    omega
  | close r hp hc hs hcl =>
    simp only [potential, hp, hc, hs, Caller.cost, Call.cost, List.map_cons, List.sum_cons]
    omega
  | recv i t q hp hw ht =>
    have := sum_map_set Worker.cost p.workers i _ (Worker.running t) hw
    simp only [Worker.cost] at this
    simp only [potential, hp, ht, List.length_cons]
    omega
  | leave i hp hw ht hcl =>
    have := sum_map_set Worker.cost p.workers i _ Worker.exited hw
    simp only [Worker.cost] at this
    simp only [potential, hp, ht]
    omega
  | taskPanic i t hp hw ht =>
    simp only [potential, hp]
    simp only [Bool.false_eq_true, if_false, if_true]
    omega
  | taskDone i t hp hw ht =>
    have := sum_map_set Worker.cost p.workers i _ Worker.ranging hw
    simp only [Worker.cost] at this
    simp only [potential, hp]
    omega

theorem tasksOf_adds (ts : List Task) (r : List Call) :
    tasksOf (ts.map Call.addTask ++ r) = ts ++ tasksOf r := by
  induction ts with
  | nil => rfl
  | cons t ts ih => simp [tasksOf, ih]

theorem tasksOf_mainScript (ts : List Task) : tasksOf (mainScript ts) = ts := by
  simp [mainScript, tasksOf, tasksOf_adds]

theorem mem_runningTasks {ws : List Worker} {i : Nat} {t : Task}
    (h : ws[i]? = some (Worker.running t)) : t ∈ runningTasks ws := by
  simp only [runningTasks, List.mem_flatMap]
  exact ⟨Worker.running t, List.getElem?_mem h, by simp [Worker.current]⟩

/-- A task some worker is executing was handed over by one of the owner's calls. -/
theorem running_mem_orig {N : Int} {orig : List Call} {p : Pool} (hI : GInv N orig p)
    (hp : p.panicked = false) {i : Nat} {t : Task} (h : p.workers[i]? = some (Worker.running t)) :
    t ∈ tasksOf orig := by
  have h1 : t ∈ p.submitted :=
    hI.conserve.mem_iff.mpr (by simp [mem_runningTasks h])
  rw [← hI.script hp]
  exact List.mem_append_left _ h1

theorem pool_all_exited_of_sum {ws : List Worker} (h : (ws.map Worker.live).sum = 0) :
    ∀ w ∈ ws, w = Worker.exited := by
  induction ws with
  | nil => simp
  | cons x xs ih =>
    simp only [List.map_cons, List.sum_cons, Nat.add_eq_zero_iff] at h
    intro w hw
    rcases List.mem_cons.mp hw with rfl | hw
    · cases w <;> simp_all [Worker.live]
    · exact ih h.2 w hw

theorem pool_exists_live_of_sum {ws : List Worker} (h : (ws.map Worker.live).sum ≠ 0) :
    ∃ (i : Nat) (w : Worker), ws[i]? = some w ∧ w ≠ Worker.exited := by
  induction ws with
  | nil => simp at h
  | cons x xs ih =>
    by_cases hx : x = Worker.exited
    · subst hx
      simp only [List.map_cons, List.sum_cons, Worker.live, Nat.zero_add] at h
      obtain ⟨i, w, hi, hw⟩ := ih h
      exact ⟨i + 1, w, by simpa using hi, hw⟩
    · exact ⟨0, x, by simp, hx⟩

theorem runningTasks_all_exited {ws : List Worker} (h : ∀ w ∈ ws, w = Worker.exited) :
    runningTasks ws = [] := by
  induction ws with
  | nil => rfl
  | cons x xs ih =>
    have hx := h x (List.mem_cons_self _ _)
    subst hx
    simp only [runningTasks, List.flatMap_cons, Worker.current, List.nil_append]
    exact ih (fun w hw => h w (List.mem_cons_of_mem _ hw))


theorem MInv_init (N : Int) (ts : List Task) : MInv N ts (NewWorkerPool N (mainScript ts)) :=
  ⟨GInv_init N _, rfl, Or.inl ⟨rfl, rfl, rfl⟩⟩

theorem MInv_step (N : Int) (ts : List Task) (hts : ∀ t ∈ ts, t.panics = false)
    (p p' : Pool) (l : Label) (hI : MInv N ts p) (h : step p l = some p') : MInv N ts p' := by
  have hG := GInv_step N _ p p' l hI.gen h
  have hst := pool_step_sound h
  obtain ⟨hgen, halive, hS⟩ := hI
  refine ⟨hG, ?_, ?_⟩
  · cases hst with
    | sendClosed t r hp hc hs hcl =>
      rcases hS with ⟨h1, h2, h3⟩ | ⟨rest, h1, h2, h3⟩ | ⟨h1, h2, h3⟩
      · simp [hcl] at h3
      · simp [hcl] at h2
      · simp [hs] at h1
    | closeClosed r hp hc hs hcl =>
      rcases hS with ⟨h1, h2, h3⟩ | ⟨rest, h1, h2, h3⟩ | ⟨h1, h2, h3⟩
      · simp [hcl] at h3
      · simp [hcl] at h2
      · simp [hs] at h1
    | taskPanic i t hp hw ht =>
      have hm := running_mem_orig hgen hp hw
      rw [tasksOf_mainScript] at hm
      have := hts t hm
      simp [ht] at this
    | _ => exact halive
  · cases hst with
    | spawn i hp hc hi =>
      rcases hS with ⟨h1, h2, h3⟩ | ⟨rest, h1, h2, h3⟩ | ⟨h1, h2, h3⟩
      · simp [hc] at h1
      · exact Or.inr (Or.inl ⟨rest, h1, h2, by simp⟩)
      · simp [hc] at h3
    | started i hp hc hi =>
      rcases hS with ⟨h1, h2, h3⟩ | ⟨rest, h1, h2, h3⟩ | ⟨h1, h2, h3⟩
      · simp [hc] at h1
      · exact Or.inr (Or.inl ⟨rest, h1, h2, by simp⟩)
      · simp [hc] at h3
    | stopped hp hc hw =>
      rcases hS with ⟨h1, h2, h3⟩ | ⟨rest, h1, h2, h3⟩ | ⟨h1, h2, h3⟩
      · simp [hc] at h1
      · exact absurd hc h3
      · exact Or.inr (Or.inr ⟨h1, h2, Or.inr ⟨rfl, hw⟩⟩)
    | callStart r hp hc hs =>
      rcases hS with ⟨h1, h2, h3⟩ | ⟨rest, h1, h2, h3⟩ | ⟨h1, h2, h3⟩
      · rw [hs, mainScript] at h2
        simp only [List.cons.injEq, true_and] at h2
        exact Or.inr (Or.inl ⟨ts, h2, h3, by simp⟩)
      · rw [hs] at h1
        cases rest <;> simp at h1
      · simp [hs] at h1
    | sendClosed t r hp hc hs hcl =>
      rcases hS with ⟨h1, h2, h3⟩ | ⟨rest, h1, h2, h3⟩ | ⟨h1, h2, h3⟩
      · simp [hcl] at h3
      · simp [hcl] at h2
      · simp [hs] at h1
    | send t r hp hc hs hcl hlen =>
      rcases hS with ⟨h1, h2, h3⟩ | ⟨rest, h1, h2, h3⟩ | ⟨h1, h2, h3⟩
      · simp [hs, mainScript] at h2
      · rw [hs] at h1
        cases rest with
        | nil => simp at h1
        | cons t' rest' =>
          simp only [List.map_cons, List.cons_append, List.cons.injEq] at h1
          exact Or.inr (Or.inl ⟨rest', h1.2, hcl, by simp [hc]⟩)
      · simp [hs] at h1
    | closeClosed r hp hc hs hcl =>
      rcases hS with ⟨h1, h2, h3⟩ | ⟨rest, h1, h2, h3⟩ | ⟨h1, h2, h3⟩
      · simp [hcl] at h3
      · simp [hcl] at h2
      · simp [hs] at h1
    | close r hp hc hs hcl =>
      rcases hS with ⟨h1, h2, h3⟩ | ⟨rest, h1, h2, h3⟩ | ⟨h1, h2, h3⟩
      · simp [hs, mainScript] at h2
      · rw [hs] at h1
        cases rest with
        | nil =>
          simp only [List.map_nil, List.nil_append, List.cons.injEq, true_and] at h1
          exact Or.inr (Or.inr ⟨h1, rfl, Or.inl rfl⟩)
        | cons t' rest' => simp at h1
      · simp [hs] at h1
    | recv i t q hp hw ht => exact hS
    | leave i hp hw ht hcl =>
      rcases hS with ⟨h1, h2, h3⟩ | ⟨rest, h1, h2, h3⟩ | ⟨h1, h2, h3⟩
      · exact Or.inl ⟨h1, h2, h3⟩
      · exact Or.inr (Or.inl ⟨rest, h1, h2, h3⟩)
      · refine Or.inr (Or.inr ⟨h1, h2, ?_⟩)
        rcases h3 with h3 | ⟨h3, h4⟩
        · exact Or.inl h3
        · exact Or.inr ⟨h3, by simp [h4]⟩
    | taskPanic i t hp hw ht => exact hS
    | taskDone i t hp hw ht => exact hS

theorem MInv_run (N : Int) (ts : List Task) (hts : ∀ t ∈ ts, t.panics = false)
    (ls : List Label) (p : Pool) (h : run (NewWorkerPool N (mainScript ts)) ls = some p) :
    MInv N ts p :=
  runFrom_invariant step (MInv N ts) (fun s l s' => MInv_step N ts hts s s' l) ls _ p (MInv_init N ts) h

theorem GInv_run (N : Int) (orig : List Call)
    (ls : List Label) (p : Pool) (h : run (NewWorkerPool N orig) ls = some p) :
    GInv N orig p :=
  runFrom_invariant step (GInv N orig) (fun s l s' => GInv_step N orig s s' l) ls _ p (GInv_init N orig) h


theorem count_start_adds (rest : List Task) :
    (rest.map Call.addTask ++ [Call.stop]).count Call.start = 0 := by
  apply List.count_eq_zero_of_not_mem
  simp

theorem count_start_mainScript (ts : List Task) : (mainScript ts).count Call.start = 1 := by
  rw [mainScript, List.count_cons_self, count_start_adds]

theorem pool_potential_run (p p' : Pool) (ls : List Label) (h : run p ls = some p') :
    ls.length + potential p' ≤ potential p :=
  runFrom_potential step potential (fun s l s' => pool_potential_step s s' l) ls p p' h

/-- A worker that has not exited can take a step once the queue is closed or
holds a task, provided the task it runs does not panic. -/
theorem worker_enabled {p : Pool} {i : Nat} {w : Worker} (hp : p.panicked = false)
    (hw : p.workers[i]? = some w) (hne : w ≠ Worker.exited)
    (hq : p.tasks ≠ [] ∨ p.closed = true)
    (hrun : ∀ t, w = Worker.running t → t.panics = false) :
    ∃ p', step p (.worker i) = some p' := by
  cases w with
  | exited => exact absurd rfl hne
  | running t =>
    exact ⟨_, pool_step_complete (Step.taskDone p i t hp hw (hrun t rfl))⟩
  | ranging =>
    cases ht : p.tasks with
    | cons t q => exact ⟨_, pool_step_complete (Step.recv p i t q hp hw ht)⟩
    | nil =>
      rcases hq with hq | hq
      · exact absurd ht hq
      · exact ⟨_, pool_step_complete (Step.leave p i hp hw ht hq)⟩

theorem MInv_progress (N : Int) (hN : 1 ≤ N) (ts : List Task)
    (hts : ∀ t ∈ ts, t.panics = false) (p : Pool) (hI : MInv N ts p)
    (hf : finished p = false) : ∃ l p', step p l = some p' := by
  obtain ⟨hG, hp, hS⟩ := hI
  have hrun : ∀ (i : Nat) (w : Worker), p.workers[i]? = some w →
      ∀ t, w = Worker.running t → t.panics = false := by
    intro i w hw t ht
    subst ht
    have hm := running_mem_orig hG hp hw
    rw [tasksOf_mainScript] at hm
    exact hts t hm
  rcases hS with ⟨h1, h2, h3⟩ | ⟨rest, h1, h2, h3⟩ | ⟨h1, h2, h3⟩
  · exact ⟨.caller, _, pool_step_complete (Step.callStart p _ hp h1 h2)⟩
  · cases hc : p.caller with
    | inStop => exact absurd hc h3
    | inStart i =>
      by_cases hi : (i : Int) < p.maxWorkers
      · exact ⟨.caller, _, pool_step_complete (Step.spawn p i hp hc hi)⟩
      · exact ⟨.caller, _, pool_step_complete (Step.started p i hp hc hi)⟩
    | ready =>
      cases rest with
      | nil => exact ⟨.caller, _, pool_step_complete (Step.close p [] hp hc (by simpa using h1) h2)⟩
      | cons t rest' =>
        by_cases hlen : p.tasks.length < queueCap
        · exact ⟨.caller, _, pool_step_complete (Step.send p t _ hp hc (by simpa using h1) h2 hlen)⟩
        · have hlenW : 1 ≤ p.workers.length := by
            have hb := hG.startCount
            rw [h1, hc, count_start_adds, count_start_mainScript] at hb
            simp only [Caller.toSpawn] at hb
            omega
          have hw : p.workers[0]? = some (p.workers[0]) := List.getElem?_eq_getElem (by omega)
          have hne : p.workers[0] ≠ Worker.exited := by
            intro he
            have := (hG.exitedClosed (he ▸ List.getElem?_mem hw)).1
            simp [h2] at this
          have hq : p.tasks ≠ [] := by
            intro he
            simp [he, queueCap] at hlen
          obtain ⟨p', hp'⟩ := worker_enabled hp hw hne (Or.inl hq) (hrun 0 _ hw)
          exact ⟨.worker 0, p', hp'⟩
  · rcases h3 with h3 | ⟨h3, h4⟩
    · by_cases hw : p.wg = 0
      · exact ⟨.caller, _, pool_step_complete (Step.stopped p hp h3 hw)⟩
      · rw [hG.wgLive] at hw
        obtain ⟨i, w, hi, hne⟩ := pool_exists_live_of_sum hw
        obtain ⟨p', hp'⟩ := worker_enabled hp hi hne (Or.inr h2) (hrun i w hi)
        exact ⟨.worker i, p', hp'⟩
    · simp [finished, h3, h1, hp] at hf

theorem MInv_finished (N : Int) (hN : 1 ≤ N) (ts : List Task) (p : Pool) (hI : MInv N ts p)
    (hf : finished p = true) : p.executed.Perm ts ∧ p.tasks = [] ∧ runningTasks p.workers = [] := by
  obtain ⟨hG, hp, hS⟩ := hI
  simp only [finished, Bool.and_eq_true, beq_iff_eq, List.isEmpty_iff, Bool.not_eq_true'] at hf
  obtain ⟨⟨hc, hs⟩, _⟩ := hf
  rcases hS with ⟨h1, h2, h3⟩ | ⟨rest, h1, h2, h3⟩ | ⟨h1, h2, h3⟩
  · rw [hs] at h2; simp [mainScript] at h2
  · rw [hs] at h1; simp at h1
  · rcases h3 with h3 | ⟨_, h4⟩
    · simp [hc] at h3
    · rw [hG.wgLive] at h4
      have hall := pool_all_exited_of_sum h4
      have hlenW : 1 ≤ p.workers.length := by
        have hb := hG.startCount
        rw [hs, hc] at hb
        simp only [List.count_nil, Nat.mul_zero, Nat.add_zero, Caller.toSpawn] at hb
        rw [hb, count_start_mainScript]
        omega
      have hw : p.workers[0]? = some (p.workers[0]) := List.getElem?_eq_getElem (by omega)
      have hmem := List.getElem?_mem hw
      have he := hall _ hmem
      have ht := (hG.exitedClosed (he ▸ hmem)).2
      have hr := runningTasks_all_exited hall
      refine ⟨?_, ht, hr⟩
      have hc := hG.conserve
      have hsc := hG.script hp
      rw [hs, tasksOf_mainScript] at hsc
      simp only [tasksOf, List.append_nil] at hsc
      rw [hr, ht, hsc] at hc
      simpa using hc.symm


theorem runningTasks_length_le (ws : List Worker) : (runningTasks ws).length ≤ ws.length := by
  induction ws with
  | nil => simp [runningTasks]
  | cons w ws ih =>
    simp only [runningTasks, List.flatMap_cons, List.length_append, List.length_cons] at ih ⊢
    cases w <;> simp only [Worker.current, List.length_nil, List.length_singleton] <;> omega

theorem step_none_of_panicked (p : Pool) (h : p.panicked = true) (l : Label) :
    step p l = none := by
  simp [step, h]

theorem sum_cost_adds (n : Nat) (ts : List Task) :
    (List.map (Call.cost n ∘ Call.addTask) ts).sum = 3 * ts.length := by
  induction ts with
  | nil => rfl
  | cons t ts ih =>
    simp only [List.map_cons, List.sum_cons, Function.comp, Call.cost, List.length_cons] at ih ⊢
    omega

/-- C1 fails as stated: with `NewWorkerPool(1)`, `Start`, `AddTask` of a task
whose body panics and of a second task, and `Stop`, the worker takes the first
task and panics; the process ends with both tasks submitted, none executed,
the second still queued and `Stop` not returned. -/
theorem C1_panicking_task_loses_tasks_counterexample :
    (run (NewWorkerPool 1 (mainScript [⟨1, true⟩, ⟨2, false⟩]))
        [.caller, .caller, .caller, .caller, .caller, .caller, .worker 0, .worker 0]).map
        (fun p => (p.submitted.length, p.executed.length, p.tasks, p.caller, p.panicked,
          finished p, (step p .caller).isNone, (step p (.worker 0)).isNone))
      = some (2, 0, [⟨2, false⟩], Caller.inStop, true, false, true, true) := by
  rfl

/-- C1 (amended). A pool made by `NewWorkerPool(N)` with `N ≥ 1`, started once,
handed the tasks `ts`, whose bodies return (none panics), and then stopped
executes each task exactly once in every interleaving: along every schedule no
task is lost or duplicated (each is still to be handed over, queued, being run
or executed), when `Stop` has returned the executed tasks are exactly `ts`,
until then some step is enabled, and no schedule is longer than `2N + 3M + 5`
steps, so every interleaving ends with `Stop` returned. -/
theorem C1_pool_executes_each_task_once (N : Int) (hN : 1 ≤ N) (ts : List Task)
    (hts : ∀ t ∈ ts, t.panics = false) (ls : List Label) (p : Pool)
    (hrun : run (NewWorkerPool N (mainScript ts)) ls = some p) :
    (p.executed ++ runningTasks p.workers ++ p.tasks ++ tasksOf p.script).Perm ts
    ∧ (finished p = true → p.executed.Perm ts ∧ p.executed.length = ts.length)
    ∧ (finished p = false → ∃ l p', step p l = some p')
    ∧ ls.length ≤ 2 * N.toNat + 3 * ts.length + 5 := by
  have hI := MInv_run N ts hts ls p hrun
  refine ⟨?_, ?_, ?_, ?_⟩
  · have h1 := hI.gen.conserve
    have h2 := hI.gen.script hI.alive
    rw [tasksOf_mainScript] at h2
    rw [← h2]
    exact (h1.symm).append_right _
  · intro hf
    have := (MInv_finished N hN ts p hI hf).1
    exact ⟨this, this.length_eq⟩
  · exact MInv_progress N hN ts hts p hI
  · have := pool_potential_run _ p ls hrun
    have h0 : potential (NewWorkerPool N (mainScript ts)) = 2 * N.toNat + 3 * ts.length + 5 := by
      simp only [potential, NewWorkerPool, mainScript, List.map_cons, List.sum_cons,
        List.map_append, List.sum_append, List.map_map, Call.cost, Caller.cost, List.map_nil,
        List.sum_nil, List.length_nil]
      rw [sum_cost_adds]
      simp only [Bool.false_eq_true, if_false]
      omega
    omega


theorem C1_pool_executes_each_task_once_witness :
    run (NewWorkerPool 2 (mainScript demoTasks)) demoSchedule = some demoFinal
    ∧ finished demoFinal = true ∧ demoFinal.executed.Perm demoTasks
    ∧ demoSchedule.length ≤ 2 * (2 : Int).toNat + 3 * demoTasks.length + 5 :=
  have h := C1_pool_executes_each_task_once 2 (by decide) demoTasks (by decide)
    demoSchedule demoFinal rfl
  ⟨rfl, rfl, (h.2.1 rfl).1, h.2.2.2⟩

/-- C2 fails as stated: with `NewWorkerPool(0)` the loop of `Start` spawns no
worker, `AddTask` puts the task in the buffer, and `Stop` returns at once with
the task still queued and never executed. -/
theorem C2_stop_returns_with_queued_task_counterexample :
    (run (NewWorkerPool 0 (mainScript [⟨1, false⟩])) [.caller, .caller, .caller, .caller, .caller]).map
        (fun p => (finished p, p.stopCalls, p.tasks, p.executed, p.submitted))
      = some (true, 1, [⟨1, false⟩], [], [⟨1, false⟩]) := by
  decide

/-- C2 (amended). For a pool created with `N ≥ 1` on which `Start` was called
before `Stop`: in the state in which that `Stop` returns, the task queue is
empty, every worker has exited (none is running a task), and the executed
tasks are exactly the tasks submitted. -/
theorem C2_stop_returns_after_all_tasks (N : Int) (hN : 1 ≤ N) (pre post : List Call)
    (hstart : Call.start ∈ pre) (ls : List Label) (p p' : Pool)
    (hrun : run (NewWorkerPool N (pre ++ Call.stop :: post)) ls = some p)
    (hc : p.caller = .inStop) (hs : p.script = post)
    (hret : step p .caller = some p') :
    p'.caller = .ready ∧ p'.tasks = [] ∧ (∀ w ∈ p'.workers, w = Worker.exited)
    ∧ runningTasks p'.workers = [] ∧ p'.executed.Perm p'.submitted
    ∧ p'.executed.length = p'.submitted.length := by
  have hG := GInv_run N _ ls p hrun
  have hst := pool_step_sound hret
  cases hst with
  | stopped hp _ hw =>
    rw [hG.wgLive] at hw
    have hall := pool_all_exited_of_sum hw
    have hcount := hG.startCount
    rw [hs, hc] at hcount
    simp only [Caller.toSpawn, List.count_append, Nat.add_zero] at hcount
    rw [List.count_cons_of_ne (by simp)] at hcount
    have hpos : 0 < pre.count Call.start := List.count_pos_iff.mpr hstart
    have hmul : N.toNat ≤ N.toNat * pre.count Call.start := Nat.le_mul_of_pos_right _ hpos
    rw [Nat.mul_add] at hcount
    have hlenW : 1 ≤ p.workers.length := by omega
    have hw0 : p.workers[0]? = some (p.workers[0]) := List.getElem?_eq_getElem (by omega)
    have hmem := List.getElem?_mem hw0
    have he := hall _ hmem
    have ht := (hG.exitedClosed (he ▸ hmem)).2
    have hr := runningTasks_all_exited hall
    have hcons := hG.conserve
    rw [hr, ht] at hcons
    simp only [List.append_nil] at hcons
    exact ⟨rfl, ht, hall, hr, hcons.symm, hcons.symm.length_eq⟩
  | spawn i _ hc' _ => simp [hc] at hc'
  | started i _ hc' _ => simp [hc] at hc'
  | callStart r _ hc' _ => simp [hc] at hc'
  | sendClosed t r _ hc' _ _ => simp [hc] at hc'
  | send t r _ hc' _ _ _ => simp [hc] at hc'
  | closeClosed r _ hc' _ _ => simp [hc] at hc'
  | close r _ hc' _ _ => simp [hc] at hc'

theorem C2_stop_returns_after_all_tasks_witness :
    run (NewWorkerPool 2 ([Call.start, .addTask ⟨1, false⟩, .addTask ⟨2, false⟩,
        .addTask ⟨3, false⟩] ++ Call.stop :: [])) demoSchedule.dropLast = some demoWaiting
    ∧ step demoWaiting .caller = some demoFinal
    ∧ demoFinal.tasks = [] ∧ demoFinal.executed.length = demoFinal.submitted.length :=
  have h := C2_stop_returns_after_all_tasks 2 (by decide)
    [Call.start, .addTask ⟨1, false⟩, .addTask ⟨2, false⟩, .addTask ⟨3, false⟩] []
    (by decide) demoSchedule.dropLast demoWaiting demoFinal rfl rfl rfl rfl
  ⟨rfl, rfl, h.2.1, h.2.2.2.2.2⟩

/-- C3 fails as stated: `AddTask` after `Stop` is a send on the closed channel
`p.tasks`, which panics; the owner is not handed a PoolClosed condition, the
process is terminated. -/
theorem C3_addTask_after_stop_panics_counterexample :
    (run (NewWorkerPool 1 [.start, .stop, .addTask ⟨1, false⟩])
        [.caller, .caller, .caller, .caller, .worker 0, .caller, .caller]).map
        (fun p => (p.panicked, p.stopCalls, p.tasks, p.executed))
      = some (true, 1, [], []) := by
  decide

/-- C3 (amended). After `Stop` has been called on a pool, an `AddTask` call
panics (send on a closed channel; `AddTask` has no result to report a
condition with): the task is not put in the queue, nothing is executed by the
call, and no goroutine takes a step afterwards, so the task is never executed. -/
theorem C3_addTask_after_stop_panics (N : Int) (script : List Call) (ls : List Label)
    (p : Pool) (t : Task) (r : List Call)
    (hrun : run (NewWorkerPool N script) ls = some p)
    (hstop : 0 < p.stopCalls) (halive : p.panicked = false)
    (hc : p.caller = .ready) (hs : p.script = .addTask t :: r) :
    ∃ p', step p .caller = some p' ∧ p'.panicked = true ∧ p'.tasks = p.tasks
      ∧ p'.submitted = p.submitted ∧ p'.executed = p.executed
      ∧ ∀ ms p'', run p' ms = some p'' → p'' = p' := by
  have hG := GInv_run N _ ls p hrun
  have hcl := hG.stopClosed hstop
  refine ⟨_, pool_step_complete (Step.sendClosed p t r halive hc hs hcl), rfl, rfl, rfl, rfl, ?_⟩
  intro ms p'' hms
  cases ms with
  | nil => simpa [run, runFrom] using hms.symm
  | cons m ms => simp [run, runFrom, step] at hms

theorem C3_addTask_after_stop_panics_witness :
    ∃ p', step { demoFinal with script := [.addTask ⟨4, false⟩] } .caller = some p'
      ∧ p'.panicked = true ∧ p'.tasks = [] :=
  have h := C3_addTask_after_stop_panics 2
    ([Call.start, .addTask ⟨1, false⟩, .addTask ⟨2, false⟩, .addTask ⟨3, false⟩, .stop,
      .addTask ⟨4, false⟩])
    demoSchedule { demoFinal with script := [.addTask ⟨4, false⟩] } ⟨4, false⟩ []
    rfl (by decide) rfl rfl rfl
  h.imp (fun _ hp => ⟨hp.1, hp.2.1, hp.2.2.1⟩)

/-- C4 fails as stated: a worker that runs a panicking task does not recover;
the panic ends the process, the task queued behind it is never executed and
`Stop` is never reached. -/
theorem C4_task_panic_not_recovered_counterexample :
    (run (NewWorkerPool 1 (mainScript [⟨1, true⟩, ⟨2, false⟩]))
        [.caller, .caller, .caller, .caller, .caller, .worker 0, .worker 0]).map
        (fun p => (p.panicked, p.tasks, p.executed, p.script,
          (step p .caller).isNone, (step p (.worker 0)).isNone))
      = some (true, [⟨2, false⟩], [], [.stop], true, true) := by
  rfl

/-- C4 (amended). There is no recovery in the worker loop: when the body of
the task a worker executes panics, the panic is not converted into an error;
it terminates the process, so the worker, the pool and every other goroutine
take no further step and the tasks still queued stay unexecuted. -/
theorem C4_task_panic_terminates (p : Pool) (i : Nat) (t : Task)
    (halive : p.panicked = false) (hw : p.workers[i]? = some (Worker.running t))
    (ht : t.panics = true) :
    ∃ p', step p (.worker i) = some p' ∧ p'.panicked = true ∧ p'.executed = p.executed
      ∧ p'.tasks = p.tasks ∧ (∀ l, step p' l = none)
      ∧ ∀ ms p'', run p' ms = some p'' → p''.executed = p.executed := by
  refine ⟨_, pool_step_complete (Step.taskPanic p i t halive hw ht), rfl, rfl, rfl, ?_, ?_⟩
  · intro l
    exact step_none_of_panicked _ rfl l
  · intro ms p'' hms
    cases ms with
    | nil =>
      simp only [run, runFrom, Option.some.injEq] at hms
      rw [← hms]
    | cons m ms => simp [run, runFrom, step] at hms

theorem C4_task_panic_terminates_witness :
    ∃ p', step { demoWaiting with workers := [.running ⟨9, true⟩, .exited] } (.worker 0) = some p'
      ∧ p'.panicked = true :=
  have h := C4_task_panic_terminates { demoWaiting with workers := [.running ⟨9, true⟩, .exited] }
    0 ⟨9, true⟩ rfl rfl rfl
  h.imp (fun _ hp => ⟨hp.1, hp.2.1⟩)

/-- C5 fails as stated: `Start` called twice on `NewWorkerPool(1)` spawns two
workers, and two tasks are executing at the same time. -/
theorem C5_two_starts_exceed_N_counterexample :
    (run (NewWorkerPool 1 [.start, .start, .addTask ⟨1, false⟩, .addTask ⟨2, false⟩])
        [.caller, .caller, .caller, .caller, .caller, .caller, .caller, .caller,
         .worker 0, .worker 1]).map (fun p => (p.maxWorkers, runningTasks p.workers))
      = some (1, [⟨1, false⟩, ⟨2, false⟩]) := by
  decide

/-- C5 (amended). In every reachable state of a pool created with
`NewWorkerPool(N)`, after any sequence of `Start`, `AddTask` and `Stop` calls,
the number of tasks executing at the same time is at most `N` times the number
of `Start` calls of the sequence (and zero when `N ≤ 0`); it is at most `N`
when `Start` is called once. -/
theorem C5_running_at_most_N_per_start (N : Int) (script : List Call) (ls : List Label)
    (p : Pool) (hrun : run (NewWorkerPool N script) ls = some p) :
    (runningTasks p.workers).length ≤ N.toNat * script.count Call.start
    ∧ (script.count Call.start = 1 → ((runningTasks p.workers).length : Int) ≤ max N 0) := by
  have hG := GInv_run N _ ls p hrun
  have h1 := runningTasks_length_le p.workers
  have h2 := hG.startCount
  have h3 : (runningTasks p.workers).length ≤ N.toNat * script.count Call.start := by omega
  refine ⟨h3, ?_⟩
  intro hone
  rw [hone, Nat.mul_one] at h3
  omega

theorem C5_running_at_most_N_per_start_witness :
    run (NewWorkerPool 2 (mainScript demoTasks)) (demoSchedule.take 10)
      = some { demoFinal with tasks := [⟨3, false⟩], closed := true, wg := 2, caller := .inStop,
                              workers := [.running ⟨1, false⟩, .running ⟨2, false⟩],
                              executed := [] }
    ∧ (runningTasks [Worker.running ⟨1, false⟩, .running ⟨2, false⟩]).length
        ≤ (2 : Int).toNat * (mainScript demoTasks).count Call.start :=
  ⟨rfl, (C5_running_at_most_N_per_start 2 (mainScript demoTasks) (demoSchedule.take 10)
    { demoFinal with tasks := [⟨3, false⟩], closed := true, wg := 2, caller := .inStop,
                     workers := [.running ⟨1, false⟩, .running ⟨2, false⟩],
                     executed := [] } rfl).1⟩


end WorkerPool

namespace FanOut

set_option linter.unusedTactic false in
set_option linter.unreachableTactic false in
theorem fan_step_sound {s s' : State} {l : Label} (h : step s l = some s') : Step s l s' := by
  unfold step at h
  split at h
  · simp at h
  · rename_i hp
    simp only [Bool.not_eq_true] at hp
    cases l with
    | main =>
      simp only [mainStep] at h
      repeat' split at h
      all_goals first
        | (simp at h; done)
        | (simp only [Option.some.injEq] at h; subst h
           first
            | (apply Step.spawn <;> first | assumption | simp_all)
            | (apply Step.spawned <;> first | assumption | simp_all)
            | (apply Step.sendJobClosed <;> first | assumption | simp_all)
            | (apply Step.sendJob <;> first | assumption | simp_all)
            | (apply Step.closeJobsClosed <;> first | assumption | simp_all)
            | (apply Step.closeJobs <;> first | assumption | simp_all)
            | (apply Step.fork <;> first | assumption | simp_all)
            | (apply Step.collect <;> first | assumption | simp_all)
            | (apply Step.finish <;> first | assumption | simp_all))
    | worker i =>
      simp only [workerStep] at h
      repeat' split at h
      all_goals first
        | (simp at h; done)
        | (simp only [Option.some.injEq] at h; subst h
           first
            | (apply Step.recv <;> first | assumption | simp_all)
            | (apply Step.leave <;> first | assumption | simp_all)
            | (apply Step.sendClosed <;> first | assumption | simp_all)
            | (apply Step.send <;> first | assumption | simp_all))
    | closer =>
      simp only [closerStep] at h
      repeat' split at h
      all_goals first
        | (simp at h; done)
        | (simp only [Option.some.injEq] at h; subst h
           first
            | (apply Step.closeClosed <;> first | assumption | simp_all)
            | (apply Step.close <;> first | assumption | simp_all))

theorem fan_step_complete {s s' : State} {l : Label} (h : Step s l s') : step s l = some s' := by
  cases h <;> simp_all [step, mainStep, workerStep, closerStep]

theorem FInv_init (W : Int) (xs : List Int) : FInv W xs (init W xs) := by
  constructor <;> simp [init, inFlight, Main.toSend, Main.toSpawn, Worker.live]

theorem inFlight_append (ws : List Worker) : inFlight (ws ++ [Worker.ranging]) = inFlight ws := by
  simp [inFlight, Worker.held]

theorem fan_mem_set_exited {ws : List Worker} {i : Nat} {w : Worker}
    (h : Worker.exited ∈ ws.set i w) (hw : w ≠ Worker.exited) : Worker.exited ∈ ws := by
  rcases List.mem_or_eq_of_mem_set h with h | h
  · exact h
  · exact absurd h.symm hw

/-- No worker is at a send or a receive once `results` is closed. -/
theorem not_closed_of_worker {W : Int} {xs : List Int} {s : State} (hI : FInv W xs s)
    {i : Nat} {w : Worker} (hw : s.workers[i]? = some w) (hne : w ≠ Worker.exited) :
    s.resultsClosed = false := by
  cases hc : s.resultsClosed with
  | false => rfl
  | true => exact absurd (hI.closedExited hc w (List.getElem?_mem hw)) hne

theorem FInv_step_alive (W : Int) (xs : List Int) (s s' : State) (l : Label)
    (hI : FInv W xs s) (hst : Step s l s') : s'.panicked = false := by
  cases hst with
  | sendJobClosed n rest hp hm hcl =>
    have := hI.jobsOpen.mp hcl
    simp [hm] at this
  | closeJobsClosed hp hm hcl =>
    have := hI.jobsOpen.mp hcl
    simp [hm] at this
  | sendClosed i v hp hw hcl =>
    have := not_closed_of_worker hI hw (by simp)
    simp [hcl] at this
  | closeClosed hp hc hw hcl =>
    have := hI.closedDone.mp hcl
    simp [hc] at this
  | _ => exact hI.alive

theorem FInv_step_wgLive (W : Int) (xs : List Int) (s s' : State) (l : Label)
    (hI : FInv W xs s) (hst : Step s l s') : s'.wg = (s'.workers.map Worker.live).sum := by
  have h2 := hI.wgLive
  cases hst with
  | spawn i hp hc hi => simp [h2, Worker.live]
  | recv i n q hp hw ht =>
    have := sum_map_set Worker.live s.workers i _ (Worker.sending (mulInt n n)) hw
    simp only [Worker.live] at this ⊢
    omega
  | leave i hp hw ht hcl =>
    have := sum_map_set Worker.live s.workers i _ Worker.exited hw
    simp only [Worker.live] at this ⊢
    omega
  | send i v hp hw hcl hlen =>
    have := sum_map_set Worker.live s.workers i _ Worker.ranging hw
    simp only [Worker.live] at this ⊢
    omega
  | _ => exact h2

theorem FInv_step_conserve (W : Int) (xs : List Int) (s s' : State) (l : Label)
    (hI : FInv W xs s) (hst : Step s l s') :
    (s'.collected ++ s'.results ++ inFlight s'.workers
      ++ (s'.jobs ++ s'.main.toSend xs).map square).Perm (xs.map square) := by
  have h4 := hI.conserve
  cases hst with
  | spawn i hp hc hi => simpa [inFlight_append, hc, Main.toSend] using h4
  | spawned i hp hc hi => simpa [hI.nums, hc, Main.toSend] using h4
  | sendJob n rest hp hm hcl hlen => simpa [hm, Main.toSend] using h4
  | closeJobs hp hm hcl => simpa [hm, Main.toSend] using h4
  | fork hp hm => simpa [hm, Main.toSend] using h4
  | finish hp hm hr hcl => simpa [hm, Main.toSend] using h4
  | collect r q hp hm hr =>
    refine List.Perm.trans ?_ h4
    simp [hr]
  | recv i n q hp hw ht =>
    have := flatMap_set_perm Worker.held s.workers i _ (Worker.sending (mulInt n n)) hw
    simp only [Worker.held, List.append_nil] at this
    refine List.Perm.trans ?_ h4
    have e1 : n :: q = [n] ++ q := rfl
    simp only [ht, inFlight, e1, List.map_append, List.map_cons, List.map_nil, square]
    rw [← Multiset.coe_eq_coe] at this ⊢
    simp only [← Multiset.coe_add] at this ⊢
    rw [this]
    abel
  | leave i hp hw ht hcl =>
    have := flatMap_set_perm Worker.held s.workers i _ Worker.exited hw
    simp only [Worker.held, List.append_nil] at this
    refine List.Perm.trans ?_ h4
    simp only [inFlight]
    rw [← Multiset.coe_eq_coe] at this ⊢
    simp only [← Multiset.coe_add] at this ⊢
    rw [this]
  | send i v hp hw hcl hlen =>
    have := flatMap_set_perm Worker.held s.workers i _ Worker.ranging hw
    simp only [Worker.held, List.append_nil] at this
    refine List.Perm.trans ?_ h4
    simp only [inFlight]
    rw [← Multiset.coe_eq_coe] at this ⊢
    simp only [← Multiset.coe_add] at this ⊢
    rw [← this]
    abel
  | _ => exact h4

theorem FInv_step_exitedClosed (W : Int) (xs : List Int) (s s' : State) (l : Label)
    (hI : FInv W xs s) (hst : Step s l s') :
    Worker.exited ∈ s'.workers → s'.jobsClosed = true ∧ s'.jobs = [] := by
  have h3 := hI.exitedClosed
  cases hst with
  | spawn i hp hc hi =>
    intro hm
    apply h3
    simpa using hm
  | sendJob n rest hp hm hcl hlen =>
    intro hm
    have := (h3 hm).1
    simp [hcl] at this
  | closeJobs hp hm hcl =>
    intro hm
    have := (h3 hm).1
    simp [hcl] at this
  | recv i n q hp hw ht =>
    intro hm
    have := (h3 (fan_mem_set_exited hm (by simp))).2
    simp [ht] at this
  | leave i hp hw ht hcl => intro _; exact ⟨hcl, ht⟩
  | send i v hp hw hcl hlen =>
    intro hm
    exact h3 (fan_mem_set_exited hm (by simp))
  | _ => exact h3

theorem FInv_step_phases (W : Int) (xs : List Int) (s s' : State) (l : Label)
    (hI : FInv W xs s) (hst : Step s l s') :
    (s'.jobsClosed = true ↔ (s'.main = .forking ∨ s'.main = .collecting ∨ s'.main = .done))
    ∧ (s'.closer = .absent ↔
      ((∃ i, s'.main = .spawning i) ∨ (∃ r, s'.main = .sending r) ∨ s'.main = .forking))
    ∧ (s'.resultsClosed = true ↔ s'.closer = .done) := by
  have h1 := hI.jobsOpen
  have h2 := hI.closerAbsent
  have h3 := hI.closedDone
  cases hst with
  | spawn i hp hc hi => simp_all
  | spawned i hp hc hi => simp_all
  | sendJobClosed n rest hp hm hcl => exact ⟨h1, h2, h3⟩
  | sendJob n rest hp hm hcl hlen => simp_all
  | closeJobsClosed hp hm hcl => exact ⟨h1, h2, h3⟩
  | closeJobs hp hm hcl => simp_all
  | fork hp hm =>
    have hab : s.closer = .absent := h2.mpr (Or.inr (Or.inr hm))
    have hrc : ¬ s.resultsClosed = true := by
      intro h
      have := h3.mp h
      simp [hab] at this
    simp_all
  | collect r q hp hm hr => simp_all
  | finish hp hm hr hcl => simp_all
  | recv i n q hp hw ht => exact ⟨h1, h2, h3⟩
  | leave i hp hw ht hcl => exact ⟨h1, h2, h3⟩
  | sendClosed i v hp hw hcl => exact ⟨h1, h2, h3⟩
  | send i v hp hw hcl hlen => exact ⟨h1, h2, h3⟩
  | closeClosed hp hc hw hcl => exact ⟨h1, h2, h3⟩
  | close hp hc hw hcl =>
    refine ⟨h1, ?_, by simp⟩
    have : ¬ s.closer = .absent := by simp [hc]
    simp only [reduceCtorEq, false_iff]
    exact fun h => this (h2.mpr h)

theorem FInv_step_closedExited (W : Int) (xs : List Int) (s s' : State) (l : Label)
    (hI : FInv W xs s) (hst : Step s l s') :
    s'.resultsClosed = true → ∀ w ∈ s'.workers, w = Worker.exited := by
  have h1 := hI.closedExited
  cases hst with
  | spawn i hp hc hi =>
    intro hcl
    have hd := hI.closedDone.mp hcl
    have hab := hI.closerAbsent.mpr (Or.inl ⟨i, hc⟩)
    simp [hab] at hd
  | recv i n q hp hw ht =>
    intro hcl
    have := not_closed_of_worker hI hw (by simp)
    simp [this] at hcl
  | leave i hp hw ht hcl =>
    intro hcl
    have := not_closed_of_worker hI hw (by simp)
    simp [this] at hcl
  | send i v hp hw hcl hlen =>
    intro hcl'
    simp [hcl] at hcl'
  | close hp hc hw hcl =>
    intro _
    rw [hI.wgLive] at hw
    intro w hm
    have : ∀ (ws : List Worker), (ws.map Worker.live).sum = 0 → ∀ w ∈ ws, w = Worker.exited := by
      intro ws
      induction ws with
      | nil => simp
      | cons x xs ih =>
        intro h w hw
        simp only [List.map_cons, List.sum_cons, Nat.add_eq_zero_iff] at h
        rcases List.mem_cons.mp hw with rfl | hw
        · cases w <;> simp_all [Worker.live]
        · exact ih h.2 w hw
    exact this _ hw w hm
  | _ => exact h1

theorem FInv_step_count (W : Int) (xs : List Int) (s s' : State) (l : Label)
    (hI : FInv W xs s) (hst : Step s l s') :
    s'.workers.length + s'.main.toSpawn W.toNat = W.toNat := by
  have h8 := hI.count
  have h1 := hI.numW
  cases hst with
  | spawn i hp hc hi =>
    rw [h1] at hi
    simp only [hc, Main.toSpawn, List.length_append, List.length_singleton] at h8 ⊢
    omega
  | spawned i hp hc hi =>
    rw [h1] at hi
    simp only [hc, Main.toSpawn] at h8 ⊢
    omega
  | sendJobClosed n rest hp hm hcl => exact h8
  | sendJob n rest hp hm hcl hlen => simpa [hm, Main.toSpawn] using h8
  | closeJobsClosed hp hm hcl => exact h8
  | closeJobs hp hm hcl => simpa [hm, Main.toSpawn] using h8
  | fork hp hm => simpa [hm, Main.toSpawn] using h8
  | collect r q hp hm hr => exact h8
  | finish hp hm hr hcl => simpa [hm, Main.toSpawn] using h8
  | recv i n q hp hw ht => simpa using h8
  | leave i hp hw ht hcl => simpa using h8
  | sendClosed i v hp hw hcl => exact h8
  | send i v hp hw hcl hlen => simpa using h8
  | closeClosed hp hc hw hcl => exact h8
  | close hp hc hw hcl => exact h8

theorem FInv_step_doneEmpty (W : Int) (xs : List Int) (s s' : State) (l : Label)
    (hI : FInv W xs s) (hst : Step s l s') :
    s'.main = .done → s'.results = [] ∧ s'.resultsClosed = true := by
  have h1 := hI.doneEmpty
  cases hst with
  | spawn i hp hc hi => intro h; cases h
  | spawned i hp hc hi => intro h; cases h
  | sendJob n rest hp hm hcl hlen => intro h; cases h
  | closeJobs hp hm hcl => intro h; cases h
  | fork hp hm => intro h; cases h
  | collect r q hp hm hr => intro h; simp [hm] at h
  | finish hp hm hr hcl => intro _; exact ⟨hr, hcl⟩
  | send i v hp hw hcl hlen =>
    intro h
    have := (h1 h).2
    simp [hcl] at this
  | close hp hc hw hcl =>
    intro h
    have := (h1 h).2
    simp [hcl] at this
  | _ => exact h1

theorem FInv_step_sumOk (W : Int) (xs : List Int) (s s' : State) (l : Label)
    (hI : FInv W xs s) (hst : Step s l s') : s'.sum = s'.collected.foldl addInt 0 := by
  have h1 := hI.sumOk
  cases hst with
  | collect r q hp hm hr => simp [h1, List.foldl_append]
  | _ => exact h1

theorem FInv_step (W : Int) (xs : List Int) (s s' : State) (l : Label)
    (hI : FInv W xs s) (h : step s l = some s') : FInv W xs s' := by
  have hst := fan_step_sound h
  have hph := FInv_step_phases W xs s s' l hI hst
  refine ⟨?_, ?_, FInv_step_alive W xs s s' l hI hst, FInv_step_wgLive W xs s s' l hI hst,
    FInv_step_conserve W xs s s' l hI hst, FInv_step_exitedClosed W xs s s' l hI hst,
    hph.1, hph.2.1, hph.2.2, FInv_step_closedExited W xs s s' l hI hst,
    FInv_step_count W xs s s' l hI hst, FInv_step_doneEmpty W xs s s' l hI hst,
    FInv_step_sumOk W xs s s' l hI hst⟩
  · cases hst <;> exact hI.numW
  · cases hst <;> exact hI.nums

theorem FInv_run (W : Int) (xs : List Int) (ls : List Label) (s : State)
    (h : run (init W xs) ls = some s) : FInv W xs s :=
  runFrom_invariant step (FInv W xs) (fun s l s' => FInv_step W xs s s' l) ls _ s
    (FInv_init W xs) h

theorem fan_potential_step (s s' : State) (l : Label) (h : step s l = some s') :
    potential s' + 1 ≤ potential s := by
  have hst := fan_step_sound h
  cases hst with
  | spawn i hp hc hi =>
    simp only [potential, hp, hc, Main.cost, List.map_append, List.sum_append, List.map_cons,
      List.map_nil, List.sum_cons, List.sum_nil, Worker.cost]
    omega
  | spawned i hp hc hi =>
    simp only [potential, hp, hc, Main.cost]
    omega
  | sendJobClosed n rest hp hm hcl =>
    simp only [potential, hp, hm, Main.cost]
    simp only [Bool.false_eq_true, if_false, if_true]
    omega
  | sendJob n rest hp hm hcl hlen =>
    simp only [potential, hp, hm, Main.cost, List.length_append, List.length_singleton,
      List.length_cons, List.length_nil]
    omega
  | closeJobsClosed hp hm hcl =>
    simp only [potential, hp, hm, Main.cost]
    simp only [Bool.false_eq_true, if_false, if_true]
    omega
  | closeJobs hp hm hcl =>
    simp only [potential, hp, hm, Main.cost, List.length_nil]
    omega
  | fork hp hm =>
    have : s.closer.cost ≤ 1 := by cases s.closer <;> simp [Closer.cost]
    simp only [potential, hp, hm, Main.cost, Closer.cost]
    omega
  | collect r q hp hm hr =>
    simp only [potential, hp, hm, hr, Main.cost, List.length_cons]
    omega
  | finish hp hm hr hcl =>
    simp only [potential, hp, hm, hr, Main.cost]
    omega
  | recv i n q hp hw ht =>
    have := sum_map_set Worker.cost s.workers i _ (Worker.sending (mulInt n n)) hw
    simp only [Worker.cost] at this
    simp only [potential, hp, ht, List.length_cons]
    omega
  | leave i hp hw ht hcl =>
    have := sum_map_set Worker.cost s.workers i _ Worker.exited hw
    simp only [Worker.cost] at this
    simp only [potential, hp, ht]
    omega
  | sendClosed i v hp hw hcl =>
    simp only [potential, hp]
    simp only [Bool.false_eq_true, if_false, if_true]
    omega
  | send i v hp hw hcl hlen =>
    have := sum_map_set Worker.cost s.workers i _ Worker.ranging hw
    simp only [Worker.cost] at this
    simp only [potential, hp, List.length_append, List.length_singleton]
    omega
  | closeClosed hp hc hw hcl =>
    simp only [potential, hp]
    simp only [Bool.false_eq_true, if_false, if_true]
    omega
  | close hp hc hw hcl =>
    simp only [potential, hp, hc, Closer.cost]
    omega

theorem fan_potential_run (s s' : State) (ls : List Label) (h : run s ls = some s') :
    ls.length + potential s' ≤ potential s :=
  runFrom_potential step potential (fun s l s' => fan_potential_step s s' l) ls s s' h

theorem fan_all_exited_of_sum {ws : List Worker} (h : (ws.map Worker.live).sum = 0) :
    ∀ w ∈ ws, w = Worker.exited := by
  induction ws with
  | nil => simp
  | cons x xs ih =>
    simp only [List.map_cons, List.sum_cons, Nat.add_eq_zero_iff] at h
    intro w hw
    rcases List.mem_cons.mp hw with rfl | hw
    · cases w <;> simp_all [Worker.live]
    · exact ih h.2 w hw

theorem fan_exists_live_of_sum {ws : List Worker} (h : (ws.map Worker.live).sum ≠ 0) :
    ∃ (i : Nat) (w : Worker), ws[i]? = some w ∧ w ≠ Worker.exited := by
  induction ws with
  | nil => simp at h
  | cons x xs ih =>
    by_cases hx : x = Worker.exited
    · subst hx
      simp only [List.map_cons, List.sum_cons, Worker.live, Nat.zero_add] at h
      obtain ⟨i, w, hi, hw⟩ := ih h
      exact ⟨i + 1, w, by simpa using hi, hw⟩
    · exact ⟨0, x, by simp, hx⟩

theorem inFlight_all_exited {ws : List Worker} (h : ∀ w ∈ ws, w = Worker.exited) :
    inFlight ws = [] := by
  induction ws with
  | nil => rfl
  | cons x xs ih =>
    have hx := h x (List.mem_cons_self _ _)
    subst hx
    simp only [inFlight, List.flatMap_cons, Worker.held, List.nil_append]
    exact ih (fun w hw => h w (List.mem_cons_of_mem _ hw))

theorem inFlight_pos {ws : List Worker} {i : Nat} {v : Int}
    (h : ws[i]? = some (Worker.sending v)) : 1 ≤ (inFlight ws).length := by
  have hm : v ∈ inFlight ws := by
    simp only [inFlight, List.mem_flatMap]
    exact ⟨Worker.sending v, List.getElem?_mem h, by simp [Worker.held]⟩
  exact List.length_pos_of_mem hm

/-- Once `results` is closed, with at least one worker, everything has been
delivered: nothing is left in `jobs`, in the workers or to be sent by `main`. -/
theorem FInv_closed (W : Int) (hW : 1 ≤ W) (xs : List Int) (s : State) (hI : FInv W xs s)
    (hcl : s.resultsClosed = true) : (s.collected ++ s.results).Perm (xs.map square) := by
  have hall := hI.closedExited hcl
  have hd := hI.closedDone.mp hcl
  have hna : ¬ s.closer = .absent := by simp [hd]
  have hph : ¬ ((∃ i, s.main = .spawning i) ∨ (∃ r, s.main = .sending r) ∨ s.main = .forking) :=
    fun h => hna (hI.closerAbsent.mpr h)
  have hts : s.main.toSend xs = [] := by
    cases hm : s.main with
    | spawning i => exact absurd (Or.inl ⟨i, hm⟩) hph
    | sending r => exact absurd (Or.inr (Or.inl ⟨r, hm⟩)) hph
    | forking => rfl
    | collecting => rfl
    | done => rfl
  have hsp : s.main.toSpawn W.toNat = 0 := by
    cases hm : s.main with
    | spawning i => exact absurd (Or.inl ⟨i, hm⟩) hph
    | sending r => rfl
    | forking => rfl
    | collecting => rfl
    | done => rfl
  have hcount := hI.count
  rw [hsp] at hcount
  have hlenW : 1 ≤ s.workers.length := by omega
  have hw0 : s.workers[0]? = some (s.workers[0]) := List.getElem?_eq_getElem (by omega)
  have hmem := List.getElem?_mem hw0
  have he := hall _ hmem
  have hj := (hI.exitedClosed (he ▸ hmem)).2
  have hc := hI.conserve
  rw [inFlight_all_exited hall, hj, hts] at hc
  simpa using hc

theorem FInv_progress (W : Int) (xs : List Int) (s : State) (hI : FInv W xs s)
    (hf : s.main ≠ .done) : ∃ l s', step s l = some s' := by
  have hp := hI.alive
  have hlen := hI.conserve.length_eq
  simp only [List.length_append, List.length_map] at hlen
  cases hm : s.main with
  | done => exact absurd hm hf
  | spawning i =>
    by_cases hi : (i : Int) < s.numWorkers
    · exact ⟨.main, _, fan_step_complete (Step.spawn s i hp hm hi)⟩
    · exact ⟨.main, _, fan_step_complete (Step.spawned s i hp hm hi)⟩
  | sending rest =>
    have hjc : s.jobsClosed = false := by
      cases hc : s.jobsClosed with
      | false => rfl
      | true =>
        have := hI.jobsOpen.mp hc
        simp [hm] at this
    cases rest with
    | nil => exact ⟨.main, _, fan_step_complete (Step.closeJobs s hp hm hjc)⟩
    | cons n rest =>
      have : s.jobs.length < s.numbers.length := by
        rw [hI.nums]
        simp only [hm, Main.toSend, List.length_cons] at hlen
        omega
      exact ⟨.main, _, fan_step_complete (Step.sendJob s n rest hp hm hjc this)⟩
  | forking => exact ⟨.main, _, fan_step_complete (Step.fork s hp hm)⟩
  | collecting =>
    cases hr : s.results with
    | cons r q => exact ⟨.main, _, fan_step_complete (Step.collect s r q hp hm hr)⟩
    | nil =>
      cases hcl : s.resultsClosed with
      | true => exact ⟨.main, _, fan_step_complete (Step.finish s hp hm hr hcl)⟩
      | false =>
        have hjc : s.jobsClosed = true := hI.jobsOpen.mpr (Or.inr (Or.inl hm))
        by_cases hw : s.wg = 0
        · have hcw : s.closer = .waiting := by
            cases hc : s.closer with
            | waiting => rfl
            | absent =>
              have := hI.closerAbsent.mp hc
              simp [hm] at this
            | done =>
              have := hI.closedDone.mpr hc
              simp [hcl] at this
          exact ⟨.closer, _, fan_step_complete (Step.close s hp hcw hw hcl)⟩
        · rw [hI.wgLive] at hw
          obtain ⟨i, w, hi, hne⟩ := fan_exists_live_of_sum hw
          cases w with
          | exited => exact absurd rfl hne
          | ranging =>
            cases hj : s.jobs with
            | cons n q => exact ⟨.worker i, _, fan_step_complete (Step.recv s i n q hp hi hj)⟩
            | nil => exact ⟨.worker i, _, fan_step_complete (Step.leave s i hp hi hj hjc)⟩
          | sending v =>
            have h1 := inFlight_pos hi
            have : s.results.length < s.numbers.length := by
              rw [hI.nums]
              omega
            exact ⟨.worker i, _, fan_step_complete (Step.send s i v hp hi hcl this)⟩

theorem square_eq_of_small (x : Int) (h : x * x < 2 ^ 63) : square x = x * x := by
  unfold square mulInt
  apply wrap64_of_range _ _ h
  have := mul_self_nonneg x
  omega

theorem demoNumbers_squares :
    demoNumbers.map square = [1, 4, 9, 16, 25, 36, 49, 64, 81, 100] := by
  simp only [demoNumbers, List.map_cons, List.map_nil]
  repeat rw [square_eq_of_small _ (by norm_num)]
  norm_num

/-- C6. For every list `xs` and every worker count `W ≥ 1`, in every
interleaving of the fan-out/fan-in block: nothing panics; what has been
delivered on `results` is always part of the squares of `xs`; once `results` is
closed exactly the squares of `xs` (as Go computes `num * num`) have been
delivered on it, as a multiset; when the collecting loop has ended the stream
is closed and drained, `len(xs)` items were received, they are the squares of
`xs` as a multiset and `sum` is their (Go) sum; until then some goroutine can
step, and no schedule is longer than `2W + 4 len(xs) + 6`, so the loop ends in
every interleaving.  Where `x * x` fits in an `int` the items are the
mathematical squares.  For `xs = [1..10]` and `W = 3` the items are
`1, 4, ..., 100` and the sum is 385. -/
theorem C6_fan_out_delivers_squares :
    (∀ (W : Int) (xs : List Int), 1 ≤ W → ∀ (ls : List Label) (s : State),
      run (init W xs) ls = some s →
        s.panicked = false
        ∧ (s.collected ++ s.results).Subperm (xs.map square)
        ∧ (s.resultsClosed = true → (s.collected ++ s.results).Perm (xs.map square))
        ∧ (s.main = .done → s.resultsClosed = true ∧ s.results = []
            ∧ s.collected.length = xs.length ∧ s.collected.Perm (xs.map square)
            ∧ s.sum = wrap64 (xs.map square).sum)
        ∧ (s.main ≠ .done → ∃ l s', step s l = some s')
        ∧ ls.length ≤ 2 * W.toNat + 4 * xs.length + 6
        ∧ ((∀ x ∈ xs, x * x < 2 ^ 63) → xs.map square = xs.map (fun x => x * x)))
    ∧ (∀ (ls : List Label) (s : State), run (init 3 demoNumbers) ls = some s →
        s.main = .done →
          s.collected.Perm [1, 4, 9, 16, 25, 36, 49, 64, 81, 100]
          ∧ s.collected.length = 10 ∧ s.sum = 385) := by
  have key : ∀ (W : Int) (xs : List Int), 1 ≤ W → ∀ (ls : List Label) (s : State),
      run (init W xs) ls = some s → s.main = .done →
        s.resultsClosed = true ∧ s.results = []
          ∧ s.collected.length = xs.length ∧ s.collected.Perm (xs.map square)
          ∧ s.sum = wrap64 (xs.map square).sum := by
    intro W xs hW ls s hrun hd
    have hI := FInv_run W xs ls s hrun
    obtain ⟨hr, hcl⟩ := hI.doneEmpty hd
    have hperm := FInv_closed W hW xs s hI hcl
    rw [hr, List.append_nil] at hperm
    refine ⟨hcl, hr, by simpa using hperm.length_eq, hperm, ?_⟩
    rw [hI.sumOk, foldl_addInt_zero, hperm.sum_eq]
  refine ⟨?_, ?_⟩
  · intro W xs hW ls s hrun
    have hI := FInv_run W xs ls s hrun
    refine ⟨hI.alive, ?_, FInv_closed W hW xs s hI, key W xs hW ls s hrun,
      FInv_progress W xs s hI, ?_, ?_⟩
    · refine List.Subperm.trans (List.Sublist.subperm ?_) hI.conserve.subperm
      rw [List.append_assoc (s.collected ++ s.results)]
      exact List.sublist_append_left _ _
    · have := fan_potential_run _ s ls hrun
      have h0 : potential (init W xs) = 2 * W.toNat + 4 * xs.length + 6 := by
        simp only [potential, init, Main.cost, Closer.cost, List.length_nil, List.map_nil,
          List.sum_nil]
        simp only [Bool.false_eq_true, if_false]
        omega
      omega
    · intro hx
      apply List.map_congr_left
      intro x hm
      exact square_eq_of_small x (hx x hm)
  · intro ls s hrun hd
    obtain ⟨_, _, h3, h4, h5⟩ := key 3 demoNumbers (by decide) ls s hrun hd
    rw [demoNumbers_squares] at h4 h5
    refine ⟨h4, by simpa [demoNumbers] using h3, ?_⟩
    rw [h5]
    exact wrap64_of_range _ (by norm_num) (by norm_num)

set_option maxRecDepth 100000 in
theorem C6_fan_out_delivers_squares_witness :
    run (init 3 demoNumbers) demoSchedule = some demoFinal
    ∧ demoFinal.main = .done
    ∧ demoFinal.collected.Perm [1, 4, 9, 16, 25, 36, 49, 64, 81, 100]
    ∧ demoFinal.sum = 385
    ∧ demoFinal.collected.Perm (demoNumbers.map square) :=
  have hrun : run (init 3 demoNumbers) demoSchedule = some demoFinal := by decide
  have h := C6_fan_out_delivers_squares.2 demoSchedule demoFinal hrun rfl
  have g := (C6_fan_out_delivers_squares.1 3 demoNumbers (by decide) demoSchedule demoFinal
    hrun).2.2.2.1 rfl
  ⟨hrun, rfl, h.1, h.2.2, g.2.2.2.1⟩

theorem fan_sum_live_of_all_exited {ws : List Worker} (h : ∀ w ∈ ws, w = Worker.exited) :
    (ws.map Worker.live).sum = 0 := by
  induction ws with
  | nil => rfl
  | cons x xs ih =>
    have hx := h x (List.mem_cons_self _ _)
    subst hx
    simp only [List.map_cons, List.sum_cons, Worker.live, Nat.zero_add]
    exact ih (fun w hw => h w (List.mem_cons_of_mem _ hw))

end FanOut

namespace Download

theorem dl_all_exited_of_sum {ws : List Routine} (h : (ws.map Routine.live).sum = 0) :
    ∀ w ∈ ws, w = Routine.exited := by
  induction ws with
  | nil => simp
  | cons x xs ih =>
    simp only [List.map_cons, List.sum_cons, Nat.add_eq_zero_iff] at h
    intro w hw
    rcases List.mem_cons.mp hw with rfl | hw
    · cases w <;> simp_all [Routine.live]
    · exact ih h.2 w hw

theorem DInv_init (K : Int) (urls : List String) : DInv (init K urls) := by
  constructor
  · simp only [init]
    split <;> simp
  · simp [init]
  · simp [init]
  · simp [init]
  · simp [init]

theorem DInv_step (s s' : State) (l : Label) (hI : DInv s) (h : step s l = some s') :
    DInv s' := by
  obtain ⟨h1, h2, h3, h4, h5⟩ := hI
  have hnot : ∀ (i : Nat) (r : Routine), s.routines[i]? = some r → r ≠ Routine.exited →
      s.resultsClosed = false := by
    intro i r hr hne
    cases hc : s.resultsClosed with
    | false => rfl
    | true => exact absurd (h5 hc r (List.getElem?_mem hr)) hne
  unfold step at h
  split at h
  · simp at h
  · rename_i hp
    have hp' : s.panic = none := by simpa using hp
    cases l with
    | main =>
      simp only [mainStep] at h
      split at h
      · rename_i u rest hm
        simp only [Option.some.injEq] at h
        subst h
        have hab : s.closer = .absent := h3.mpr (Or.inl ⟨_, hm⟩)
        have hrc : s.resultsClosed = false := by
          cases hc : s.resultsClosed with
          | false => rfl
          | true =>
            have := h4.mp hc
            simp [hab] at this
        refine ⟨h1, by simp [h2, Routine.live], by simp [hab], by simpa using h4, ?_⟩
        intro hc
        simp [hrc] at hc
      · rename_i hm
        simp only [Option.some.injEq] at h
        subst h
        have hab : s.closer = .absent := h3.mpr (Or.inl ⟨_, hm⟩)
        exact ⟨h1, h2, by simp [hab], h4, h5⟩
      · rename_i hm
        simp only [Option.some.injEq] at h
        subst h
        have hab : s.closer = .absent := h3.mpr (Or.inr hm)
        have hrc : s.resultsClosed = false := by
          cases hc : s.resultsClosed with
          | false => rfl
          | true =>
            have := h4.mp hc
            simp [hab] at this
        exact ⟨h1, h2, by simp, by simp [hrc], h5⟩
      · simp at h
    | routine i =>
      simp only [routineStep] at h
      split at h
      · simp at h
      · simp at h
      · rename_i u hr
        have hrc := hnot i _ hr (by simp)
        split at h
        · simp only [Option.some.injEq] at h
          subst h
          have := sum_map_set Routine.live s.routines i _ (Routine.sending u) hr
          simp only [Routine.live] at this
          refine ⟨h1, ?_, h3, h4, ?_⟩
          · dsimp only
            omega
          · intro hc
            simp [hrc] at hc
        · simp at h
      · rename_i u hr
        have hrc := hnot i _ hr (by simp)
        split at h
        · rename_i hcl
          simp [hrc] at hcl
        · split at h
          · simp only [Option.some.injEq] at h
            subst h
            have := sum_map_set Routine.live s.routines i _ Routine.releasing hr
            simp only [Routine.live] at this
            refine ⟨h1, ?_, h3, h4, ?_⟩
            · dsimp only
              omega
            · intro hc
              simp [hrc] at hc
          · simp at h
      · rename_i hr
        have hrc := hnot i _ hr (by simp)
        split at h
        · simp only [Option.some.injEq] at h
          subst h
          have := sum_map_set Routine.live s.routines i _ Routine.finishing hr
          simp only [Routine.live] at this
          refine ⟨h1, ?_, h3, h4, ?_⟩
          · dsimp only
            omega
          · intro hc
            simp [hrc] at hc
        · simp at h
      · rename_i hr
        have hrc := hnot i _ hr (by simp)
        simp only [Option.some.injEq] at h
        subst h
        have := sum_map_set Routine.live s.routines i _ Routine.exited hr
        simp only [Routine.live] at this
        refine ⟨h1, ?_, h3, h4, ?_⟩
        · dsimp only
          omega
        · intro hc
          simp [hrc] at hc
    | closer =>
      simp only [closerStep] at h
      split at h
      · rename_i hc
        split at h
        · rename_i hw
          split at h
          · rename_i hcl
            have := h4.mp hcl
            simp [hc] at this
          · simp only [Option.some.injEq] at h
            subst h
            refine ⟨h1, h2, ?_, by simp, ?_⟩
            · have : ¬ s.closer = .absent := by simp [hc]
              simp only [reduceCtorEq, false_iff]
              exact fun h => this (h3.mpr h)
            · intro _
              rw [h2] at hw
              exact dl_all_exited_of_sum hw
        · simp at h
      · simp at h
    | receive =>
      simp only [receiveStep] at h
      split at h
      · simp only [Option.some.injEq] at h
        subst h
        exact ⟨h1, h2, h3, h4, h5⟩
      · simp at h

theorem DInv_run (K : Int) (urls : List String) (ls : List Label) (s : State)
    (h : run (init K urls) ls = some s) : DInv s :=
  runFrom_invariant step DInv (fun s l s' => DInv_step s s' l) ls _ s (DInv_init K urls) h

theorem dl_sum_live_of_all_exited {ws : List Routine} (h : ∀ w ∈ ws, w = Routine.exited) :
    (ws.map Routine.live).sum = 0 := by
  induction ws with
  | nil => rfl
  | cons x xs ih =>
    have hx := h x (List.mem_cons_self _ _)
    subst hx
    simp only [List.map_cons, List.sum_cons, Routine.live, Nat.zero_add]
    exact ih (fun w hw => h w (List.mem_cons_of_mem _ hw))

end Download

/-- C7. In the fan-out/fan-in block and in `DownloadAll`, in every reachable
state: if `results` is closed then the wait-group counter is zero and every
worker goroutine has exited; no worker stands at its send on `results` while
the channel is closed; and no send on a closed channel (nor a second close)
ever happens. -/
theorem C7_results_closed_only_after_workers_exit :
    (∀ (W : Int) (xs : List Int) (ls : List FanOut.Label) (s : FanOut.State),
      FanOut.run (FanOut.init W xs) ls = some s →
        (s.resultsClosed = true → s.wg = 0 ∧ ∀ w ∈ s.workers, w = FanOut.Worker.exited)
        ∧ (∀ (i : Nat) (v : Int), s.workers[i]? = some (FanOut.Worker.sending v) →
            s.resultsClosed = false)
        ∧ s.panicked = false)
    ∧ (∀ (K : Int) (urls : List String) (ls : List Download.Label) (s : Download.State),
      Download.run (Download.init K urls) ls = some s →
        (s.resultsClosed = true → s.wg = 0 ∧ ∀ r ∈ s.routines, r = Download.Routine.exited)
        ∧ (∀ (i : Nat) (u : String), s.routines[i]? = some (Download.Routine.sending u) →
            s.resultsClosed = false)
        ∧ s.panic ≠ some Download.Panic.sendOnClosed
        ∧ s.panic ≠ some Download.Panic.closeOfClosed) := by
  refine ⟨?_, ?_⟩
  · intro W xs ls s hrun
    have hI := FanOut.FInv_run W xs ls s hrun
    refine ⟨?_, ?_, hI.alive⟩
    · intro hcl
      have hall := hI.closedExited hcl
      exact ⟨by rw [hI.wgLive, FanOut.fan_sum_live_of_all_exited hall], hall⟩
    · intro i v hw
      exact FanOut.not_closed_of_worker hI hw (by simp)
  · intro K urls ls s hrun
    have hI := Download.DInv_run K urls ls s hrun
    refine ⟨?_, ?_, ?_, ?_⟩
    · intro hcl
      have hall := hI.closedExited hcl
      exact ⟨by rw [hI.wgLive, Download.dl_sum_live_of_all_exited hall], hall⟩
    · intro i u hw
      cases hc : s.resultsClosed with
      | false => rfl
      | true =>
        have := hI.closedExited hc _ (List.getElem?_mem hw)
        simp at this
    · rcases hI.noRace with h | h <;> simp [h]
    · rcases hI.noRace with h | h <;> simp [h]

set_option maxRecDepth 100000 in
theorem C7_results_closed_only_after_workers_exit_witness :
    FanOut.run (FanOut.init 3 FanOut.demoNumbers) FanOut.demoSchedule = some FanOut.demoFinal
    ∧ Download.run (Download.init 1 Download.demoUrls) Download.demoSchedule
        = some Download.demoFinal
    ∧ FanOut.demoFinal.resultsClosed = true ∧ FanOut.demoFinal.wg = 0
    ∧ Download.demoFinal.resultsClosed = true ∧ Download.demoFinal.wg = 0 :=
  have hrun : FanOut.run (FanOut.init 3 FanOut.demoNumbers) FanOut.demoSchedule
      = some FanOut.demoFinal := by decide
  have h1 := (C7_results_closed_only_after_workers_exit.1 3 FanOut.demoNumbers
    FanOut.demoSchedule FanOut.demoFinal hrun).1 rfl
  have h2 := (C7_results_closed_only_after_workers_exit.2 1 Download.demoUrls
    Download.demoSchedule Download.demoFinal rfl).1 rfl
  ⟨hrun, rfl, rfl, h1.1, rfl, h2.1⟩

namespace ParallelMap

set_option linter.unusedTactic false in
set_option linter.unreachableTactic false in
theorem pm_step_sound {fn : Int → Int} {s s' : State} {l : Label} (h : step fn s l = some s') :
    Step fn s l s' := by
  unfold step at h
  split at h
  · simp at h
  · rename_i hp
    simp only [Bool.not_eq_true] at hp
    cases l with
    | main =>
      simp only [mainStep] at h
      repeat' split at h
      all_goals first
        | (simp at h; done)
        | (simp only [Option.some.injEq] at h; subst h
           first
            | (apply Step.spawn <;> first | assumption | simp_all)
            | (apply Step.spawned <;> first | assumption | simp_all)
            | (apply Step.sendJobClosed <;> first | assumption | simp_all)
            | (apply Step.sendJob <;> first | assumption | simp_all)
            | (apply Step.closeJobsClosed <;> first | assumption | simp_all)
            | (apply Step.closeJobs <;> first | assumption | simp_all)
            | (apply Step.waited <;> first | assumption | simp_all))
    | worker i =>
      simp only [workerStep] at h
      repeat' split at h
      all_goals first
        | (simp at h; done)
        | (simp only [Option.some.injEq] at h; subst h
           first
            | (apply Step.recv <;> first | assumption | simp_all)
            | (apply Step.leave <;> first | assumption | simp_all)
            | (apply Step.write <;> first | assumption | simp_all)
            | (apply Step.writeOut <;> first | assumption | simp_all))

theorem pm_step_complete {fn : Int → Int} {s s' : State} {l : Label} (h : Step fn s l s') :
    step fn s l = some s' := by
  cases h <;> simp_all [step, mainStep, workerStep]

/-- What a step does to the jobs still to be written and to `results`: the
jobs are kept and `results` is untouched, or one job leaves and its value is
written at its index. -/
theorem pm_step_effect {fn : Int → Int} {s s' : State} {l : Label} (hst : Step fn s l s') :
    ((pending s').Perm (pending s) ∧ s'.results = s.results)
    ∨ (∃ j : Job, (pending s' ++ [j]).Perm (pending s) ∧ j.1 < s.results.length
        ∧ s'.results = s.results.set j.1 (fn j.2)) := by
  cases hst with
  | spawn i hp hm hi =>
    left
    refine ⟨?_, rfl⟩
    simp [pending, hm, Main.toSend, Worker.held]
  | spawned i hp hm hi =>
    left
    refine ⟨?_, rfl⟩
    simp [pending, hm, Main.toSend]
  | sendJobClosed j rest hp hm hcl => exact Or.inl ⟨List.Perm.refl _, rfl⟩
  | sendJob j rest hp hm hcl hlen =>
    left
    refine ⟨?_, rfl⟩
    simp [pending, hm, Main.toSend]
  | closeJobsClosed hp hm hcl => exact Or.inl ⟨List.Perm.refl _, rfl⟩
  | closeJobs hp hm hcl =>
    left
    refine ⟨?_, rfl⟩
    simp [pending, hm, Main.toSend]
  | waited hp hm hw =>
    left
    refine ⟨?_, rfl⟩
    simp [pending, hm, Main.toSend]
  | recv i j q hp hw hj =>
    left
    refine ⟨?_, rfl⟩
    have := flatMap_set_perm Worker.held s.workers i _ (Worker.writing j) hw
    simp only [Worker.held, List.append_nil] at this
    have e1 : j :: q = [j] ++ q := rfl
    simp only [pending, hj, e1]
    rw [← Multiset.coe_eq_coe] at this ⊢
    simp only [← Multiset.coe_add] at this ⊢
    rw [this]
    abel
  | leave i hp hw hj hcl =>
    left
    refine ⟨?_, rfl⟩
    have := flatMap_set_perm Worker.held s.workers i _ Worker.exited hw
    simp only [Worker.held, List.append_nil] at this
    simp only [pending]
    exact (this.append_right _).append_right _
  | write i j hp hw hlt =>
    right
    refine ⟨j, ?_, hlt, rfl⟩
    have := flatMap_set_perm Worker.held s.workers i _ Worker.ranging hw
    simp only [Worker.held, List.append_nil] at this
    simp only [pending]
    rw [← Multiset.coe_eq_coe] at this ⊢
    simp only [← Multiset.coe_add] at this ⊢
    rw [← this]
    abel
  | writeOut i j hp hw hlt => exact Or.inl ⟨List.Perm.refl _, rfl⟩

theorem pm_mem_pending_of_held {s : State} {i : Nat} {j : Job}
    (hw : s.workers[i]? = some (Worker.writing j)) : j ∈ pending s := by
  simp only [pending, List.mem_append, List.mem_flatMap]
  exact Or.inl (Or.inl ⟨Worker.writing j, List.getElem?_mem hw, by simp [Worker.held]⟩)

theorem pm_index_lt_of_pending {fn : Int → Int} {W : Int} {input : List Int} {s : State}
    (hI : PInv fn W input s) {j : Job} (hj : j ∈ pending s) : j.1 < s.results.length := by
  have h := hI.wellFormed j hj
  rw [hI.len]
  by_contra hlt
  rw [List.getElem?_eq_none (by omega)] at h
  simp at h

theorem PInv_init (fn : Int → Int) (W : Int) (input : List Int) :
    PInv fn W input (init W input) := by
  refine ⟨rfl, rfl, rfl, rfl, by simp [init], ?_, ?_, ?_, by simp [init], by simp [init],
    by simp [init, Main.toSpawn], by simp [init]⟩
  · intro j hj
    simp only [pending, init, List.flatMap_nil, List.nil_append, Main.toSend] at hj
    exact List.mem_enum_iff_getElem?.mp hj
  · intro k v hk
    right
    simp only [pending, init, List.flatMap_nil, List.nil_append, Main.toSend]
    exact List.mk_mem_enum_iff_getElem?.mpr hk
  · simp [pending, init, Main.toSend]

theorem pm_mem_set_exited {ws : List Worker} {i : Nat} {w : Worker}
    (h : Worker.exited ∈ ws.set i w) (hw : w ≠ Worker.exited) : Worker.exited ∈ ws := by
  rcases List.mem_or_eq_of_mem_set h with h | h
  · exact h
  · exact absurd h.symm hw

theorem PInv_step (fn : Int → Int) (W : Int) (input : List Int) (s s' : State) (l : Label)
    (hI : PInv fn W input s) (h : step fn s l = some s') : PInv fn W input s' := by
  have hst := pm_step_sound h
  have heff := pm_step_effect hst
  have hsub : ∀ j ∈ pending s', j ∈ pending s := by
    intro j hj
    rcases heff with ⟨hp, _⟩ | ⟨j', hp, _, _⟩
    · exact hp.mem_iff.mp hj
    · exact hp.mem_iff.mp (List.mem_append_left _ hj)
  have hlen : s'.results.length = s.results.length := by
    rcases heff with ⟨_, hr⟩ | ⟨j', _, _, hr⟩ <;> simp [hr]
  refine ⟨?_, ?_, ?_, ?_, by rw [hlen, hI.len], fun j hj => hI.wellFormed j (hsub j hj),
    ?_, ?_, ?_, ?_, ?_, ?_⟩
  · cases hst <;> exact hI.numW
  · cases hst <;> exact hI.inp
  · cases hst with
    | sendJobClosed j rest hp hm hcl =>
      have := hI.jobsOpen.mp hcl
      simp [hm] at this
    | closeJobsClosed hp hm hcl =>
      have := hI.jobsOpen.mp hcl
      simp [hm] at this
    | writeOut i j hp hw hlt =>
      exact absurd (pm_index_lt_of_pending hI (pm_mem_pending_of_held hw)) hlt
    | _ => exact hI.alive
  · have h2 := hI.wgLive
    cases hst with
    | spawn i hp hc hi => simp [h2, Worker.live]
    | recv i j q hp hw ht =>
      have := sum_map_set Worker.live s.workers i _ (Worker.writing j) hw
      simp only [Worker.live] at this ⊢
      omega
    | leave i hp hw ht hcl =>
      have := sum_map_set Worker.live s.workers i _ Worker.exited hw
      simp only [Worker.live] at this ⊢
      omega
    | write i j hp hw hlt =>
      have := sum_map_set Worker.live s.workers i _ Worker.ranging hw
      simp only [Worker.live] at this ⊢
      omega
    | _ => exact h2
  · intro k v hk
    rcases heff with ⟨hp, hr⟩ | ⟨j, hp, hlt, hr⟩
    · rcases hI.written k v hk with h1 | h1
      · exact Or.inl (hr ▸ h1)
      · exact Or.inr (hp.mem_iff.mpr h1)
    · have hwf := hI.wellFormed j (hp.mem_iff.mp (List.mem_append_right _ (by simp)))
      by_cases hkj : k = j.1
      · left
        subst hkj
        rw [hk] at hwf
        simp only [Option.some.injEq] at hwf
        rw [hr, hwf]
        simp [List.getElem?_set, hlt]
      · rcases hI.written k v hk with h1 | h1
        · left
          rw [hr, List.getElem?_set_ne (fun h => hkj h.symm)]
          exact h1
        · right
          rcases List.mem_append.mp (hp.mem_iff.mpr h1) with h2 | h2
          · exact h2
          · simp only [List.mem_singleton] at h2
            exact absurd (congrArg Prod.fst h2) hkj
  · have hb := hI.bounded
    rcases heff with ⟨hp, _⟩ | ⟨j, hp, _, _⟩
    · rw [hp.length_eq]; exact hb
    · have := hp.length_eq
      simp only [List.length_append, List.length_singleton] at this
      omega
  · have h3 := hI.exitedClosed
    cases hst with
    | spawn i hp hc hi =>
      intro hm
      apply h3
      simpa using hm
    | sendJob j rest hp hm hcl hlen =>
      intro hm
      have := (h3 hm).1
      simp [hcl] at this
    | closeJobs hp hm hcl =>
      intro hm
      have := (h3 hm).1
      simp [hcl] at this
    | recv i j q hp hw ht =>
      intro hm
      have := (h3 (pm_mem_set_exited hm (by simp))).2
      simp [ht] at this
    | leave i hp hw ht hcl => intro _; exact ⟨hcl, ht⟩
    | write i j hp hw hlt =>
      intro hm
      exact h3 (pm_mem_set_exited hm (by simp))
    | _ => exact h3
  · have h1 := hI.jobsOpen
    cases hst <;> simp_all
  · have h8 := hI.count
    have h1 := hI.numW
    cases hst with
    | spawn i hp hc hi =>
      rw [h1] at hi
      simp only [hc, Main.toSpawn, List.length_append, List.length_singleton] at h8 ⊢
      omega
    | spawned i hp hc hi =>
      rw [h1] at hi
      simp only [hc, Main.toSpawn] at h8 ⊢
      omega
    | sendJobClosed j rest hp hm hcl => exact h8
    | sendJob j rest hp hm hcl hlen => simpa [hm, Main.toSpawn] using h8
    | closeJobsClosed hp hm hcl => exact h8
    | closeJobs hp hm hcl => simpa [hm, Main.toSpawn] using h8
    | waited hp hm hw => simpa [hm, Main.toSpawn] using h8
    | recv i j q hp hw ht => simpa using h8
    | leave i hp hw ht hcl => simpa using h8
    | write i j hp hw hlt => simpa using h8
    | writeOut i j hp hw hlt => exact h8
  · have h1 := hI.returnedDone
    cases hst with
    | spawn i hp hc hi => intro h; cases h
    | spawned i hp hc hi => intro h; cases h
    | sendJob j rest hp hm hcl hlen => intro h; cases h
    | closeJobs hp hm hcl => intro h; cases h
    | waited hp hm hw => intro _; exact hw
    | leave i hp hw ht hcl =>
      intro h
      have := h1 h
      simp [this]
    | _ => exact h1

theorem PInv_run (fn : Int → Int) (W : Int) (input : List Int) (ls : List Label) (s : State)
    (h : run fn (init W input) ls = some s) : PInv fn W input s :=
  runFrom_invariant (step fn) (PInv fn W input) (fun s l s' => PInv_step fn W input s s' l)
    ls _ s (PInv_init fn W input) h

theorem pm_potential_step (fn : Int → Int) (s s' : State) (l : Label)
    (h : step fn s l = some s') : potential s' + 1 ≤ potential s := by
  have hst := pm_step_sound h
  cases hst with
  | spawn i hp hc hi =>
    simp only [potential, hp, hc, Main.cost, List.map_append, List.sum_append, List.map_cons,
      List.map_nil, List.sum_cons, List.sum_nil, Worker.cost]
    omega
  | spawned i hp hc hi =>
    simp only [potential, hp, hc, Main.cost, List.enum_length]
    omega
  | sendJobClosed j rest hp hm hcl =>
    simp only [potential, hp, hm, Main.cost]
    simp only [Bool.false_eq_true, if_false, if_true]
    omega
  | sendJob j rest hp hm hcl hlen =>
    simp only [potential, hp, hm, Main.cost, List.length_append, List.length_singleton,
      List.length_cons, List.length_nil]
    omega
  | closeJobsClosed hp hm hcl =>
    simp only [potential, hp, hm, Main.cost]
    simp only [Bool.false_eq_true, if_false, if_true]
    omega
  | closeJobs hp hm hcl =>
    simp only [potential, hp, hm, Main.cost, List.length_nil]
    omega
  | waited hp hm hw =>
    simp only [potential, hp, hm, Main.cost]
    omega
  | recv i j q hp hw ht =>
    have := sum_map_set Worker.cost s.workers i _ (Worker.writing j) hw
    simp only [Worker.cost] at this
    simp only [potential, hp, ht, List.length_cons]
    omega
  | leave i hp hw ht hcl =>
    have := sum_map_set Worker.cost s.workers i _ Worker.exited hw
    simp only [Worker.cost] at this
    simp only [potential, hp, ht]
    omega
  | write i j hp hw hlt =>
    have := sum_map_set Worker.cost s.workers i _ Worker.ranging hw
    simp only [Worker.cost] at this
    simp only [potential, hp]
    omega
  | writeOut i j hp hw hlt =>
    simp only [potential, hp]
    simp only [Bool.false_eq_true, if_false, if_true]
    omega

theorem pm_potential_run (fn : Int → Int) (s s' : State) (ls : List Label)
    (h : run fn s ls = some s') : ls.length + potential s' ≤ potential s :=
  runFrom_potential (step fn) potential (fun s l s' => pm_potential_step fn s s' l) ls s s' h

theorem pm_all_exited_of_sum {ws : List Worker} (h : (ws.map Worker.live).sum = 0) :
    ∀ w ∈ ws, w = Worker.exited := by
  induction ws with
  | nil => simp
  | cons x xs ih =>
    simp only [List.map_cons, List.sum_cons, Nat.add_eq_zero_iff] at h
    intro w hw
    rcases List.mem_cons.mp hw with rfl | hw
    · cases w <;> simp_all [Worker.live]
    · exact ih h.2 w hw

theorem pm_exists_live_of_sum {ws : List Worker} (h : (ws.map Worker.live).sum ≠ 0) :
    ∃ (i : Nat) (w : Worker), ws[i]? = some w ∧ w ≠ Worker.exited := by
  induction ws with
  | nil => simp at h
  | cons x xs ih =>
    by_cases hx : x = Worker.exited
    · subst hx
      simp only [List.map_cons, List.sum_cons, Worker.live, Nat.zero_add] at h
      obtain ⟨i, w, hi, hw⟩ := ih h
      exact ⟨i + 1, w, by simpa using hi, hw⟩
    · exact ⟨0, x, by simp, hx⟩

theorem pm_held_all_exited {ws : List Worker} (h : ∀ w ∈ ws, w = Worker.exited) :
    ws.flatMap Worker.held = [] := by
  induction ws with
  | nil => rfl
  | cons x xs ih =>
    have hx := h x (List.mem_cons_self _ _)
    subst hx
    simp only [List.flatMap_cons, Worker.held, List.nil_append]
    exact ih (fun w hw => h w (List.mem_cons_of_mem _ hw))

theorem PInv_returned (fn : Int → Int) (W : Int) (hW : 1 ≤ W) (input : List Int) (s : State)
    (hI : PInv fn W input s) (hr : s.main = .returned) : s.results = input.map fn := by
  have hw := hI.returnedDone hr
  rw [hI.wgLive] at hw
  have hall := pm_all_exited_of_sum hw
  have hcount := hI.count
  simp only [hr, Main.toSpawn, Nat.add_zero] at hcount
  have hlenW : 1 ≤ s.workers.length := by omega
  have hw0 : s.workers[0]? = some (s.workers[0]) := List.getElem?_eq_getElem (by omega)
  have hmem := List.getElem?_mem hw0
  have he := hall _ hmem
  have hj := (hI.exitedClosed (he ▸ hmem)).2
  have hpend : pending s = [] := by
    simp [pending, pm_held_all_exited hall, hj, hr, Main.toSend]
  apply List.ext_getElem?
  intro k
  by_cases hk : k < input.length
  · have hv : input[k]? = some input[k] := List.getElem?_eq_getElem hk
    rcases hI.written k _ hv with h1 | h1
    · rw [h1, List.getElem?_map, hv]
      rfl
    · rw [hpend] at h1
      simp at h1
  · rw [List.getElem?_eq_none (by rw [hI.len]; omega),
      List.getElem?_eq_none (by rw [List.length_map]; omega)]

theorem PInv_progress (fn : Int → Int) (W : Int) (input : List Int) (s : State)
    (hI : PInv fn W input s) (hf : s.main ≠ .returned) : ∃ l s', step fn s l = some s' := by
  have hp := hI.alive
  have hb := hI.bounded
  cases hm : s.main with
  | returned => exact absurd hm hf
  | spawning i =>
    by_cases hi : (i : Int) < s.workersN
    · exact ⟨.main, _, pm_step_complete (Step.spawn s i hp hm hi)⟩
    · exact ⟨.main, _, pm_step_complete (Step.spawned s i hp hm hi)⟩
  | sending rest =>
    have hjc : s.jobsClosed = false := by
      cases hc : s.jobsClosed with
      | false => rfl
      | true =>
        have := hI.jobsOpen.mp hc
        simp [hm] at this
    cases rest with
    | nil => exact ⟨.main, _, pm_step_complete (Step.closeJobs s hp hm hjc)⟩
    | cons j rest =>
      have : s.jobs.length < s.input.length := by
        rw [hI.inp]
        simp only [pending, hm, Main.toSend, List.length_append, List.length_cons] at hb
        omega
      exact ⟨.main, _, pm_step_complete (Step.sendJob s j rest hp hm hjc this)⟩
  | waiting =>
    have hjc : s.jobsClosed = true := hI.jobsOpen.mpr (Or.inl hm)
    by_cases hw : s.wg = 0
    · exact ⟨.main, _, pm_step_complete (Step.waited s hp hm hw)⟩
    · rw [hI.wgLive] at hw
      obtain ⟨i, w, hi, hne⟩ := pm_exists_live_of_sum hw
      cases w with
      | exited => exact absurd rfl hne
      | ranging =>
        cases hj : s.jobs with
        | cons j q => exact ⟨.worker i, _, pm_step_complete (Step.recv s i j q hp hi hj)⟩
        | nil => exact ⟨.worker i, _, pm_step_complete (Step.leave s i hp hi hj hjc)⟩
      | writing j =>
        have := pm_index_lt_of_pending hI (pm_mem_pending_of_held hi)
        exact ⟨.worker i, _, pm_step_complete (Step.write s i j hp hi this)⟩

end ParallelMap

namespace SyncMap

set_option linter.unusedTactic false in
set_option linter.unreachableTactic false in
theorem sm_step_sound {fn : Int → Int} {s s' : State} {l : Label} (h : step fn s l = some s') :
    Step fn s l s' := by
  unfold step at h
  split at h
  · simp at h
  · rename_i hp
    simp only [Bool.not_eq_true] at hp
    cases l with
    | main =>
      simp only [mainStep] at h
      repeat' split at h
      all_goals first
        | (simp at h; done)
        | (simp only [Option.some.injEq] at h; subst h
           first
            | (apply Step.spawn <;> first | assumption | simp_all)
            | (apply Step.spawned <;> first | assumption | simp_all)
            | (apply Step.waited <;> first | assumption | simp_all))
    | routine i =>
      simp only [routineStep] at h
      repeat' split at h
      all_goals first
        | (simp at h; done)
        | (simp only [Option.some.injEq] at h; subst h
           first
            | (apply Step.write <;> first | assumption | simp_all)
            | (apply Step.writeOut <;> first | assumption | simp_all)
            | (apply Step.finish <;> first | assumption | simp_all))

theorem sm_step_complete {fn : Int → Int} {s s' : State} {l : Label} (h : Step fn s l s') :
    step fn s l = some s' := by
  cases h <;> simp_all [step, mainStep, routineStep]

theorem sm_step_effect {fn : Int → Int} {s s' : State} {l : Label} (hst : Step fn s l s') :
    ((pending s').Perm (pending s) ∧ s'.results = s.results)
    ∨ (∃ j : Job, (pending s' ++ [j]).Perm (pending s) ∧ j.1 < s.results.length
        ∧ s'.results = s.results.set j.1 (fn j.2)) := by
  cases hst with
  | spawn j rest hp hm =>
    left
    refine ⟨?_, rfl⟩
    simp [pending, hm, Main.toSpawn, Routine.held]
  | spawned hp hm =>
    left
    refine ⟨?_, rfl⟩
    simp [pending, hm, Main.toSpawn]
  | waited hp hm hw =>
    left
    refine ⟨?_, rfl⟩
    simp [pending, hm, Main.toSpawn]
  | write i j hp hw hlt =>
    right
    refine ⟨j, ?_, hlt, rfl⟩
    have := flatMap_set_perm Routine.held s.routines i _ Routine.finishing hw
    simp only [Routine.held, List.append_nil] at this
    simp only [pending]
    rw [← Multiset.coe_eq_coe] at this ⊢
    simp only [← Multiset.coe_add] at this ⊢
    rw [← this]
    abel
  | writeOut i j hp hw hlt => exact Or.inl ⟨List.Perm.refl _, rfl⟩
  | finish i hp hw =>
    left
    refine ⟨?_, rfl⟩
    have := flatMap_set_perm Routine.held s.routines i _ Routine.exited hw
    simp only [Routine.held, List.append_nil] at this
    simp only [pending]
    exact this.append_right _

theorem sm_mem_pending_of_held {s : State} {i : Nat} {j : Job}
    (hw : s.routines[i]? = some (Routine.writing j)) : j ∈ pending s := by
  simp only [pending, List.mem_append, List.mem_flatMap]
  exact Or.inl ⟨Routine.writing j, List.getElem?_mem hw, by simp [Routine.held]⟩

theorem sm_index_lt_of_pending {fn : Int → Int} {nums : List Int} {s : State}
    (hI : SInv fn nums s) {j : Job} (hj : j ∈ pending s) : j.1 < s.results.length := by
  have h := hI.wellFormed j hj
  rw [hI.len]
  by_contra hlt
  rw [List.getElem?_eq_none (by omega)] at h
  simp at h

theorem SInv_init (fn : Int → Int) (nums : List Int) : SInv fn nums (init nums) := by
  refine ⟨rfl, rfl, by simp [init], ?_, ?_, by simp [init]⟩
  · intro j hj
    simp only [pending, init, List.flatMap_nil, List.nil_append, Main.toSpawn] at hj
    exact List.mem_enum_iff_getElem?.mp hj
  · intro k v hk
    right
    simp only [pending, init, List.flatMap_nil, List.nil_append, Main.toSpawn]
    exact List.mk_mem_enum_iff_getElem?.mpr hk

theorem SInv_step (fn : Int → Int) (nums : List Int) (s s' : State) (l : Label)
    (hI : SInv fn nums s) (h : step fn s l = some s') : SInv fn nums s' := by
  have hst := sm_step_sound h
  have heff := sm_step_effect hst
  have hsub : ∀ j ∈ pending s', j ∈ pending s := by
    intro j hj
    rcases heff with ⟨hp, _⟩ | ⟨j', hp, _, _⟩
    · exact hp.mem_iff.mp hj
    · exact hp.mem_iff.mp (List.mem_append_left _ hj)
  have hlen : s'.results.length = s.results.length := by
    rcases heff with ⟨_, hr⟩ | ⟨j', _, _, hr⟩ <;> simp [hr]
  refine ⟨?_, ?_, by rw [hlen, hI.len], fun j hj => hI.wellFormed j (hsub j hj), ?_, ?_⟩
  · cases hst with
    | writeOut i j hp hw hlt =>
      exact absurd (sm_index_lt_of_pending hI (sm_mem_pending_of_held hw)) hlt
    | _ => exact hI.alive
  · have h2 := hI.wgLive
    cases hst with
    | spawn j rest hp hm => simp [h2, Routine.live]
    | write i j hp hw hlt =>
      have := sum_map_set Routine.live s.routines i _ Routine.finishing hw
      simp only [Routine.live] at this ⊢
      omega
    | finish i hp hw =>
      have := sum_map_set Routine.live s.routines i _ Routine.exited hw
      simp only [Routine.live] at this ⊢
      omega
    | _ => exact h2
  · intro k v hk
    rcases heff with ⟨hp, hr⟩ | ⟨j, hp, hlt, hr⟩
    · rcases hI.written k v hk with h1 | h1
      · exact Or.inl (hr ▸ h1)
      · exact Or.inr (hp.mem_iff.mpr h1)
    · have hwf := hI.wellFormed j (hp.mem_iff.mp (List.mem_append_right _ (by simp)))
      by_cases hkj : k = j.1
      · left
        subst hkj
        rw [hk] at hwf
        simp only [Option.some.injEq] at hwf
        rw [hr, hwf]
        simp [List.getElem?_set, hlt]
      · rcases hI.written k v hk with h1 | h1
        · left
          rw [hr, List.getElem?_set_ne (fun h => hkj h.symm)]
          exact h1
        · right
          rcases List.mem_append.mp (hp.mem_iff.mpr h1) with h2 | h2
          · exact h2
          · simp only [List.mem_singleton] at h2
            exact absurd (congrArg Prod.fst h2) hkj
  · have h1 := hI.returnedDone
    cases hst with
    | spawn j rest hp hm => intro h; cases h
    | spawned hp hm => intro h; cases h
    | waited hp hm hw => intro _; exact hw
    | finish i hp hw =>
      intro h
      have := h1 h
      simp [this]
    | _ => exact h1

theorem SInv_run (fn : Int → Int) (nums : List Int) (ls : List Label) (s : State)
    (h : run fn (init nums) ls = some s) : SInv fn nums s :=
  runFrom_invariant (step fn) (SInv fn nums) (fun s l s' => SInv_step fn nums s s' l)
    ls _ s (SInv_init fn nums) h

theorem sm_potential_step (fn : Int → Int) (s s' : State) (l : Label)
    (h : step fn s l = some s') : potential s' + 1 ≤ potential s := by
  have hst := sm_step_sound h
  cases hst with
  | spawn j rest hp hm =>
    simp only [potential, hp, hm, Main.cost, List.map_append, List.sum_append, List.map_cons,
      List.map_nil, List.sum_cons, List.sum_nil, Routine.cost, List.length_cons]
    omega
  | spawned hp hm =>
    simp only [potential, hp, hm, Main.cost, List.length_nil]
    omega
  | waited hp hm hw =>
    simp only [potential, hp, hm, Main.cost]
    omega
  | write i j hp hw hlt =>
    have := sum_map_set Routine.cost s.routines i _ Routine.finishing hw
    simp only [Routine.cost] at this
    simp only [potential, hp]
    omega
  | writeOut i j hp hw hlt =>
    simp only [potential, hp]
    simp only [Bool.false_eq_true, if_false, if_true]
    omega
  | finish i hp hw =>
    have := sum_map_set Routine.cost s.routines i _ Routine.exited hw
    simp only [Routine.cost] at this
    simp only [potential, hp]
    omega

theorem sm_potential_run (fn : Int → Int) (s s' : State) (ls : List Label)
    (h : run fn s ls = some s') : ls.length + potential s' ≤ potential s :=
  runFrom_potential (step fn) potential (fun s l s' => sm_potential_step fn s s' l) ls s s' h

theorem sm_all_exited_of_sum {ws : List Routine} (h : (ws.map Routine.live).sum = 0) :
    ∀ w ∈ ws, w = Routine.exited := by
  induction ws with
  | nil => simp
  | cons x xs ih =>
    simp only [List.map_cons, List.sum_cons, Nat.add_eq_zero_iff] at h
    intro w hw
    rcases List.mem_cons.mp hw with rfl | hw
    · cases w <;> simp_all [Routine.live]
    · exact ih h.2 w hw

theorem sm_exists_live_of_sum {ws : List Routine} (h : (ws.map Routine.live).sum ≠ 0) :
    ∃ (i : Nat) (w : Routine), ws[i]? = some w ∧ w ≠ Routine.exited := by
  induction ws with
  | nil => simp at h
  | cons x xs ih =>
    by_cases hx : x = Routine.exited
    · subst hx
      simp only [List.map_cons, List.sum_cons, Routine.live, Nat.zero_add] at h
      obtain ⟨i, w, hi, hw⟩ := ih h
      exact ⟨i + 1, w, by simpa using hi, hw⟩
    · exact ⟨0, x, by simp, hx⟩

theorem sm_held_all_exited {ws : List Routine} (h : ∀ w ∈ ws, w = Routine.exited) :
    ws.flatMap Routine.held = [] := by
  induction ws with
  | nil => rfl
  | cons x xs ih =>
    have hx := h x (List.mem_cons_self _ _)
    subst hx
    simp only [List.flatMap_cons, Routine.held, List.nil_append]
    exact ih (fun w hw => h w (List.mem_cons_of_mem _ hw))

theorem SInv_returned (fn : Int → Int) (nums : List Int) (s : State)
    (hI : SInv fn nums s) (hr : s.main = .returned) : s.results = nums.map fn := by
  have hw := hI.returnedDone hr
  rw [hI.wgLive] at hw
  have hall := sm_all_exited_of_sum hw
  have hpend : pending s = [] := by
    simp [pending, sm_held_all_exited hall, hr, Main.toSpawn]
  apply List.ext_getElem?
  intro k
  by_cases hk : k < nums.length
  · have hv : nums[k]? = some nums[k] := List.getElem?_eq_getElem hk
    rcases hI.written k _ hv with h1 | h1
    · rw [h1, List.getElem?_map, hv]
      rfl
    · rw [hpend] at h1
      simp at h1
  · rw [List.getElem?_eq_none (by rw [hI.len]; omega),
      List.getElem?_eq_none (by rw [List.length_map]; omega)]

theorem SInv_progress (fn : Int → Int) (nums : List Int) (s : State)
    (hI : SInv fn nums s) (hf : s.main ≠ .returned) : ∃ l s', step fn s l = some s' := by
  have hp := hI.alive
  cases hm : s.main with
  | returned => exact absurd hm hf
  | spawning rest =>
    cases rest with
    | nil => exact ⟨.main, _, sm_step_complete (Step.spawned s hp hm)⟩
    | cons j rest => exact ⟨.main, _, sm_step_complete (Step.spawn s j rest hp hm)⟩
  | waiting =>
    by_cases hw : s.wg = 0
    · exact ⟨.main, _, sm_step_complete (Step.waited s hp hm hw)⟩
    · rw [hI.wgLive] at hw
      obtain ⟨i, w, hi, hne⟩ := sm_exists_live_of_sum hw
      cases w with
      | exited => exact absurd rfl hne
      | finishing => exact ⟨.routine i, _, sm_step_complete (Step.finish s i hp hi)⟩
      | writing j =>
        have := sm_index_lt_of_pending hI (sm_mem_pending_of_held hi)
        exact ⟨.routine i, _, sm_step_complete (Step.write s i j hp hi this)⟩

end SyncMap

/-- C8. For every input slice, every function `fn` and every `workers ≥ 1`, in
every interleaving `ParallelMap(input, fn, workers)` returns, and the slice it
returns has the length of `input` and holds `fn(input[i])` at every index `i`:
it is the sequential map of `fn` over `input`, whatever the schedule and the
number of workers.  `parallelMap(input, fn)` of `03_sync.go` returns the same
slice in every interleaving. -/
theorem C8_parallel_map_is_sequential_map :
    (∀ (input : List Int) (fn : Int → Int) (W : Int), 1 ≤ W →
      ∀ (ls : List ParallelMap.Label) (s : ParallelMap.State),
        ParallelMap.run fn (ParallelMap.init W input) ls = some s →
          s.panicked = false ∧ s.results.length = input.length
          ∧ (s.main = .returned → s.results = input.map fn
              ∧ ∀ (i : Nat) (h : i < input.length), s.results[i]? = some (fn input[i]))
          ∧ (s.main ≠ .returned → ∃ l s', ParallelMap.step fn s l = some s')
          ∧ ls.length ≤ 2 * W.toNat + 3 * input.length + 4)
    ∧ (∀ (nums : List Int) (fn : Int → Int) (ls : List SyncMap.Label) (s : SyncMap.State),
        SyncMap.run fn (SyncMap.init nums) ls = some s →
          s.panicked = false
          ∧ (s.main = .returned → s.results = nums.map fn)
          ∧ (s.main ≠ .returned → ∃ l s', SyncMap.step fn s l = some s')
          ∧ ls.length ≤ 3 * nums.length + 3)
    ∧ (∀ (input : List Int) (fn : Int → Int) (W : Int), 1 ≤ W →
      ∀ (ls : List ParallelMap.Label) (s : ParallelMap.State)
        (ms : List SyncMap.Label) (t : SyncMap.State),
        ParallelMap.run fn (ParallelMap.init W input) ls = some s → s.main = .returned →
        SyncMap.run fn (SyncMap.init input) ms = some t → t.main = .returned →
          s.results = t.results) := by
  refine ⟨?_, ?_, ?_⟩
  · intro input fn W hW ls s hrun
    have hI := ParallelMap.PInv_run fn W input ls s hrun
    refine ⟨hI.alive, hI.len, ?_, ParallelMap.PInv_progress fn W input s hI, ?_⟩
    · intro hr
      have hres := ParallelMap.PInv_returned fn W hW input s hI hr
      refine ⟨hres, ?_⟩
      intro i h
      rw [hres, List.getElem?_map, List.getElem?_eq_getElem h]
      rfl
    · have := ParallelMap.pm_potential_run fn _ s ls hrun
      have h0 : ParallelMap.potential (ParallelMap.init W input)
          = 2 * W.toNat + 3 * input.length + 4 := by
        simp only [ParallelMap.potential, ParallelMap.init, ParallelMap.Main.cost,
          List.length_nil, List.map_nil, List.sum_nil]
        simp only [Bool.false_eq_true, if_false]
        omega
      omega
  · intro nums fn ls s hrun
    have hI := SyncMap.SInv_run fn nums ls s hrun
    refine ⟨hI.alive, SyncMap.SInv_returned fn nums s hI, SyncMap.SInv_progress fn nums s hI, ?_⟩
    have := SyncMap.sm_potential_run fn _ s ls hrun
    have h0 : SyncMap.potential (SyncMap.init nums) = 3 * nums.length + 3 := by
      simp only [SyncMap.potential, SyncMap.init, SyncMap.Main.cost, List.enum_length,
        List.map_nil, List.sum_nil]
      simp only [Bool.false_eq_true, if_false]
      omega
    omega
  · intro input fn W hW ls s ms t hs hsr ht htr
    rw [ParallelMap.PInv_returned fn W hW input s (ParallelMap.PInv_run fn W input ls s hs) hsr,
      SyncMap.SInv_returned fn input t (SyncMap.SInv_run fn input ms t ht) htr]

set_option maxRecDepth 100000 in
theorem C8_parallel_map_is_sequential_map_witness :
    ParallelMap.run ParallelMap.demoFn (ParallelMap.init 3 ParallelMap.demoInput)
        ParallelMap.demoSchedule = some ParallelMap.demoFinal
    ∧ SyncMap.run ParallelMap.demoFn (SyncMap.init [1, 2, 3]) SyncMap.demoSchedule
        = some SyncMap.demoFinal
    ∧ ParallelMap.demoFinal.results = ParallelMap.demoInput.map ParallelMap.demoFn
    ∧ SyncMap.demoFinal.results = [1, 2, 3].map ParallelMap.demoFn :=
  have h1 : ParallelMap.run ParallelMap.demoFn (ParallelMap.init 3 ParallelMap.demoInput)
      ParallelMap.demoSchedule = some ParallelMap.demoFinal := by decide
  have h2 : SyncMap.run ParallelMap.demoFn (SyncMap.init [1, 2, 3]) SyncMap.demoSchedule
      = some SyncMap.demoFinal := by decide
  ⟨h1, h2,
    ((C8_parallel_map_is_sequential_map.1 ParallelMap.demoInput ParallelMap.demoFn 3
      (by decide) ParallelMap.demoSchedule ParallelMap.demoFinal h1).2.2.1 rfl).1,
    (C8_parallel_map_is_sequential_map.2.1 [1, 2, 3] ParallelMap.demoFn SyncMap.demoSchedule
      SyncMap.demoFinal h2).2.1 rfl⟩

namespace Pipeline

theorem generatorLoop_eq (nums out : List Int) : generatorLoop nums out = out ++ nums := by
  induction nums generalizing out with
  | nil => simp [generatorLoop]
  | cons n nums ih => simp [generatorLoop, ih]

theorem doublerLoop_eq (xs out : List Int) :
    doublerLoop xs out = out ++ xs.map (fun n => mulInt n 2) := by
  induction xs generalizing out with
  | nil => simp [doublerLoop]
  | cons n xs ih => simp [doublerLoop, ih]

theorem filterLoop_eq (p : Int → Bool) (xs out : List Int) :
    filterLoop p xs out = out ++ xs.filter p := by
  induction xs generalizing out with
  | nil => simp [filterLoop]
  | cons n xs ih =>
    by_cases hp : p n = true
    · simp [filterLoop, ih, hp]
    · simp [filterLoop, ih, hp]

theorem mulInt_two_of_range (x : Int) (h1 : -(2 ^ 62) ≤ x) (h2 : x < 2 ^ 62) :
    mulInt x 2 = 2 * x := by
  unfold mulInt
  rw [wrap64_of_range _ (by omega) (by omega)]
  ring

/-- C9. With a stream modelled as the sequence of items it carries and its
closed flag: `generator(xs...)` emits `xs` in order and closes; `doubler` emits
`n * 2` (Go `int` arithmetic, equal to `2 * x` where that fits) for each input
item, in input order, and closes its output when its input is closed;
`filter(in, p)` emits the items of `in` that satisfy `p`, in input order, and
closes its output when its input is closed; so
`filter(doubler(generator(xs...)), p)` carries `filter p (map (2 *) xs)` and
is closed, which for `xs = 1..5` and `p = (n >= 10)` is `[10]`. -/
theorem C9_pipeline_stages_map_and_filter :
    (∀ xs : List Int, generator xs = { items := xs, closed := true })
    ∧ (∀ c : Chan, doubler c = { items := c.items.map (fun n => mulInt n 2), closed := c.closed })
    ∧ (∀ (c : Chan) (p : Int → Bool),
        filter c p = { items := c.items.filter p, closed := c.closed })
    ∧ (∀ (xs : List Int) (p : Int → Bool),
        filter (doubler (generator xs)) p
          = { items := (xs.map (fun n => mulInt n 2)).filter p, closed := true })
    ∧ (∀ xs : List Int, (∀ x ∈ xs, -(2 ^ 62) ≤ x ∧ x < 2 ^ 62) →
        xs.map (fun n => mulInt n 2) = xs.map (fun n => 2 * n))
    ∧ filter (doubler (generator [1, 2, 3, 4, 5])) atLeastTen
        = { items := [10], closed := true } := by
  have hg : ∀ xs : List Int, generator xs = { items := xs, closed := true } := by
    intro xs
    simp [generator, generatorLoop_eq]
  have hd : ∀ c : Chan,
      doubler c = { items := c.items.map (fun n => mulInt n 2), closed := c.closed } := by
    intro c
    simp [doubler, doublerLoop_eq]
  have hf : ∀ (c : Chan) (p : Int → Bool),
      filter c p = { items := c.items.filter p, closed := c.closed } := by
    intro c p
    simp [filter, filterLoop_eq]
  refine ⟨hg, hd, hf, ?_, ?_, ?_⟩
  · intro xs p
    rw [hg, hd, hf]
  · intro xs hx
    apply List.map_congr_left
    intro x hm
    exact mulInt_two_of_range x (hx x hm).1 (hx x hm).2
  · decide

theorem C9_pipeline_stages_map_and_filter_witness :
    [1, 2, 3, 4, 5].map (fun n => mulInt n 2) = [1, 2, 3, 4, 5].map (fun n => 2 * n)
    ∧ doubler (generator [1, 2, 3, 4, 5]) = { items := [2, 4, 6, 8, 10], closed := true } :=
  ⟨C9_pipeline_stages_map_and_filter.2.2.2.2.1 [1, 2, 3, 4, 5] (by decide), by decide⟩

end Pipeline

namespace Cancellable

theorem MulInv_init (factor : Int) (input : List Int) (inClosed : Bool) :
    MulInv factor input (mulInit factor input inClosed) := by
  refine ⟨rfl, ⟨input.map (fun n => mulInt n factor), by simp [mulInit]⟩, ?_, by simp [mulInit]⟩
  intro _
  simp [mulInit, MulPc.held]

theorem MulInv_step (factor : Int) (input : List Int) (s s' : MulState) (l : MulLabel)
    (hI : MulInv factor input s) (h : mulStep s l = some s') : MulInv factor input s' := by
  obtain ⟨h1, h2, h3, h4⟩ := hI
  cases l with
  | cancel =>
    simp only [mulStep, Option.some.injEq] at h
    subst h
    exact ⟨h1, h2, h3, h4⟩
  | receive =>
    simp only [mulStep] at h
    split at h
    · rename_i n rest hpc hin
      simp only [Option.some.injEq] at h
      subst h
      refine ⟨h1, h2, ?_, by simpa [hpc] using h4⟩
      intro _
      have := h3 (by simp [hpc])
      simpa [hpc, hin, MulPc.held] using this
    · rename_i hpc hin
      split at h
      · simp only [Option.some.injEq] at h
        subst h
        exact ⟨h1, h2, by simp, by simp⟩
      · simp at h
    · simp at h
  | caseDone =>
    simp only [mulStep] at h
    split at h
    · split at h
      · simp only [Option.some.injEq] at h
        subst h
        exact ⟨h1, h2, by simp, by simp⟩
      · simp at h
    · simp at h
  | caseSend =>
    simp only [mulStep] at h
    split at h
    · rename_i n hpc
      simp only [Option.some.injEq] at h
      subst h
      have h3' := h3 (by simp [hpc])
      simp only [hpc, MulPc.held, List.singleton_append, List.map_cons] at h3'
      refine ⟨h1, ⟨s.input.map (fun n => mulInt n factor), ?_⟩, ?_, by simpa [hpc] using h4⟩
      · rw [h3', h1]
        simp
      · intro _
        rw [h3', h1]
        simp [MulPc.held]
    · simp at h

theorem MulInv_run (factor : Int) (input : List Int) (inClosed : Bool) (ls : List MulLabel)
    (s : MulState) (h : mulRun (mulInit factor input inClosed) ls = some s) :
    MulInv factor input s :=
  runFrom_invariant mulStep (MulInv factor input)
    (fun s l s' => MulInv_step factor input s s' l) ls _ s (MulInv_init factor input inClosed) h

theorem GenInv_init (nums : List Int) : GenInv nums (genInit nums) := by
  refine ⟨⟨nums, by simp [genInit]⟩, ?_, by simp [genInit]⟩
  intro _
  simp [genInit, GenPc.rest]

theorem GenInv_step (nums : List Int) (s s' : GenState) (l : GenLabel)
    (hI : GenInv nums s) (h : genStep s l = some s') : GenInv nums s' := by
  obtain ⟨h2, h3, h4⟩ := hI
  cases l with
  | cancel =>
    simp only [genStep, Option.some.injEq] at h
    subst h
    exact ⟨h2, h3, h4⟩
  | caseDone =>
    simp only [genStep] at h
    split at h
    · split at h
      · simp only [Option.some.injEq] at h
        subst h
        exact ⟨h2, by simp, by simp⟩
      · simp at h
    · simp at h
  | caseSend =>
    simp only [genStep] at h
    split at h
    · rename_i n rest hpc
      simp only [Option.some.injEq] at h
      subst h
      have h3' := h3 (by simp [hpc])
      simp only [hpc, GenPc.rest] at h3'
      refine ⟨⟨rest, ?_⟩, ?_, by simpa [hpc] using h4⟩
      · rw [h3']
        simp
      · intro _
        rw [h3']
        simp [GenPc.rest]
    · simp at h
  | finish =>
    simp only [genStep] at h
    split at h
    · simp only [Option.some.injEq] at h
      subst h
      exact ⟨h2, by simp, by simp⟩
    · simp at h

theorem GenInv_run (nums : List Int) (ls : List GenLabel) (s : GenState)
    (h : genRun (genInit nums) ls = some s) : GenInv nums s :=
  runFrom_invariant genStep (GenInv nums) (fun s l s' => GenInv_step nums s s' l) ls _ s
    (GenInv_init nums) h

/-- C10. For every input sequence, every factor and every moment at which the
context is cancelled, in every state of `multiply(ctx, in, factor)` the
sequence sent on `out` is a prefix of `[n * factor for n in input]` (Go `int`
arithmetic), and `out` is closed exactly when the goroutine has exited, whether
through the end of its input or through `ctx.Done()`; in the same way
`generate(ctx, nums...)` has sent a prefix of `nums` and `out` is closed
exactly when it has exited. -/
theorem C10_cancellable_stages_emit_prefix_and_close :
    (∀ (factor : Int) (input : List Int) (inClosed : Bool) (ls : List MulLabel) (s : MulState),
      mulRun (mulInit factor input inClosed) ls = some s →
        s.out <+: input.map (fun n => mulInt n factor)
        ∧ (s.pc = .exited → s.outClosed = true)
        ∧ (s.outClosed = true → s.pc = .exited))
    ∧ (∀ (nums : List Int) (ls : List GenLabel) (s : GenState),
      genRun (genInit nums) ls = some s →
        s.out <+: nums
        ∧ (s.pc = .exited → s.outClosed = true)
        ∧ (s.outClosed = true → s.pc = .exited)) := by
  refine ⟨?_, ?_⟩
  · intro factor input inClosed ls s hrun
    have hI := MulInv_run factor input inClosed ls s hrun
    obtain ⟨tail, ht⟩ := hI.sent
    exact ⟨⟨tail, ht.symm⟩, hI.closedIff.mpr, hI.closedIff.mp⟩
  · intro nums ls s hrun
    have hI := GenInv_run nums ls s hrun
    obtain ⟨tail, ht⟩ := hI.sent
    exact ⟨⟨tail, ht.symm⟩, hI.closedIff.mpr, hI.closedIff.mp⟩

theorem C10_cancellable_stages_emit_prefix_and_close_witness :
    mulRun (mulInit 2 [1, 2, 3] true)
        [.receive, .caseSend, .receive, .cancel, .caseDone]
      = some { factor := 2, input := [3], inClosed := true, ctxDone := true, pc := .exited,
               out := [2], outClosed := true }
    ∧ mulRun (mulInit 2 [1, 2, 3] true)
        [.receive, .caseSend, .receive, .caseSend, .receive, .caseSend, .receive]
      = some { factor := 2, input := [], inClosed := true, ctxDone := false, pc := .exited,
               out := [2, 4, 6], outClosed := true }
    ∧ genRun (genInit [1, 2, 3]) [.caseSend, .cancel, .caseDone]
      = some { ctxDone := true, pc := .exited, out := [1], outClosed := true }
    ∧ [2] <+: [1, 2, 3].map (fun n => mulInt n 2)
    ∧ ([1] : List Int) <+: [1, 2, 3] :=
  ⟨rfl, rfl, rfl,
    (C10_cancellable_stages_emit_prefix_and_close.1 2 [1, 2, 3] true
      [.receive, .caseSend, .receive, .cancel, .caseDone]
      { factor := 2, input := [3], inClosed := true, ctxDone := true, pc := .exited,
        out := [2], outClosed := true } rfl).1,
    (C10_cancellable_stages_emit_prefix_and_close.2 [1, 2, 3]
      [.caseSend, .cancel, .caseDone]
      { ctxDone := true, pc := .exited, out := [1], outClosed := true } rfl).1⟩

end Cancellable

namespace Cancellable

/-- C11 fails as stated: with the context done and `in` open and empty,
`multiply` stands at `for n := range in`; neither case of its `select` nor the
receive is enabled, and `out` stays open. -/
theorem C11_multiply_blocked_on_input_counterexample :
    (mulRun (mulInit 2 [] false) [.cancel]).map
        (fun s => (s.ctxDone, s.pc, s.input, s.inClosed, s.outClosed,
          (mulStep s .receive).isNone, (mulStep s .caseDone).isNone,
          (mulStep s .caseSend).isNone, (mulStep s .cancel).map (fun t => t.outClosed)))
      = some (true, MulPc.ranging, [], false, false, true, true, true, some false) := by
  rfl

/-- C11 (amended). `multiply` watches `ctx.Done()` only at its `select`, that
is while it holds an input item: in every state in which the context is done
and the stage is at the `select`, the step that closes `out` and exits is
enabled.  At `for n := range in` it does not watch the context, cancelled or
not: it exits and closes `out` when `in` is closed and drained, it takes the
next item when there is one, and while `in` is open and empty no step of the
stage is enabled (the only step possible is the cancellation of the context,
which leaves the stage where it is with `out` open). -/
theorem C11_multiply_observes_cancel_at_select_only (s : MulState) :
    (∀ n, s.ctxDone = true → s.pc = .selecting n →
      ∃ s', mulStep s .caseDone = some s' ∧ s'.pc = .exited ∧ s'.outClosed = true
        ∧ s'.out = s.out)
    ∧ (s.pc = .ranging → s.input = [] → s.inClosed = false →
        ∀ l s', mulStep s l = some s' → l = .cancel ∧ s' = { s with ctxDone := true })
    ∧ (s.pc = .ranging → s.input = [] → s.inClosed = true →
        ∃ s', mulStep s .receive = some s' ∧ s'.pc = .exited ∧ s'.outClosed = true
          ∧ s'.out = s.out)
    ∧ (s.pc = .ranging → ∀ n rest, s.input = n :: rest →
        ∃ s', mulStep s .receive = some s' ∧ s'.pc = .selecting n ∧ s'.input = rest
          ∧ s'.out = s.out ∧ s'.outClosed = s.outClosed) := by
  refine ⟨?_, ?_, ?_, ?_⟩
  · intro n hdone hpc
    exact ⟨{ s with pc := .exited, outClosed := true },
      by simp [mulStep, hpc, hdone], rfl, rfl, rfl⟩
  · intro hpc hin hcl l s' h
    cases l with
    | cancel =>
      simp only [mulStep, Option.some.injEq] at h
      exact ⟨rfl, h.symm⟩
    | receive => simp [mulStep, hpc, hin, hcl] at h
    | caseDone => simp [mulStep, hpc] at h
    | caseSend => simp [mulStep, hpc] at h
  · intro hpc hin hcl
    exact ⟨{ s with pc := .exited, outClosed := true },
      by simp [mulStep, hpc, hin, hcl], rfl, rfl, rfl⟩
  · intro hpc n rest hin
    exact ⟨{ s with input := rest, pc := .selecting n },
      by simp [mulStep, hpc, hin], rfl, rfl, rfl, rfl⟩

theorem C11_multiply_observes_cancel_at_select_only_witness :
    (∃ s', mulStep { factor := 2, input := [3], inClosed := false, ctxDone := true,
                      pc := .selecting 2, out := [2], outClosed := false } .caseDone = some s'
          ∧ s'.pc = .exited ∧ s'.outClosed = true ∧ s'.out = [2])
    ∧ (∀ l s', mulStep { factor := 2, input := [], inClosed := false, ctxDone := false,
                          pc := .ranging, out := [2], outClosed := false } l = some s' →
        l = .cancel
        ∧ s' = { factor := 2, input := [], inClosed := false, ctxDone := true,
                 pc := .ranging, out := [2], outClosed := false }) :=
  ⟨(C11_multiply_observes_cancel_at_select_only
      { factor := 2, input := [3], inClosed := false, ctxDone := true,
        pc := .selecting 2, out := [2], outClosed := false }).1 2 rfl rfl,
   (C11_multiply_observes_cancel_at_select_only
      { factor := 2, input := [], inClosed := false, ctxDone := false,
        pc := .ranging, out := [2], outClosed := false }).2.1 rfl rfl rfl⟩

end Cancellable

/-! ## The counting semaphore -/

namespace Semaphore

theorem sem_holders_step (s s' : State) (l : Label)
    (hI : holders s = s.sem ∧ (0 < s.sem → (s.sem : Int) ≤ s.maxConcurrent))
    (h : step s l = some s') :
    (holders s' = s'.sem ∧ (0 < s'.sem → (s'.sem : Int) ≤ s'.maxConcurrent))
      ∧ s'.maxConcurrent = s.maxConcurrent := by
  obtain ⟨h1, h2⟩ := hI
  unfold holders at h1 ⊢
  unfold step at h
  split at h
  · simp at h
  · cases l with
    | main =>
      simp only [mainStep] at h
      split at h
      · split at h
        · simp only [Option.some.injEq] at h
          subst h
          exact ⟨⟨by simp [h1, Routine.holding], h2⟩, rfl⟩
        · simp only [Option.some.injEq] at h
          subst h
          exact ⟨⟨h1, h2⟩, rfl⟩
      · split at h
        · simp only [Option.some.injEq] at h
          subst h
          exact ⟨⟨h1, h2⟩, rfl⟩
        · simp at h
      · simp at h
    | routine i =>
      simp only [routineStep] at h
      split at h
      · simp at h
      · simp at h
      · rename_i hr
        split at h
        · rename_i hlt
          simp only [Option.some.injEq] at h
          subst h
          have := sum_map_set Routine.holding s.routines i _ Routine.working hr
          simp only [Routine.holding] at this
          refine ⟨⟨?_, ?_⟩, rfl⟩
          · show ((s.routines.set i Routine.working).map Routine.holding).sum = s.sem + 1
            omega
          · intro _
            show ((s.sem + 1 : Nat) : Int) ≤ s.maxConcurrent
            omega
        · simp at h
      · rename_i hr
        simp only [Option.some.injEq] at h
        subst h
        have := sum_map_set Routine.holding s.routines i _ Routine.releasing hr
        simp only [Routine.holding] at this
        refine ⟨⟨?_, h2⟩, rfl⟩
        show ((s.routines.set i Routine.releasing).map Routine.holding).sum = s.sem
        omega
      · rename_i hr
        split at h
        · rename_i hpos
          simp only [Option.some.injEq] at h
          subst h
          have := sum_map_set Routine.holding s.routines i _ Routine.finishing hr
          simp only [Routine.holding] at this
          have h2' := h2 hpos
          refine ⟨⟨?_, ?_⟩, rfl⟩
          · show ((s.routines.set i Routine.finishing).map Routine.holding).sum = s.sem - 1
            omega
          · intro _
            show ((s.sem - 1 : Nat) : Int) ≤ s.maxConcurrent
            omega
        · simp at h
      · rename_i hr
        simp only [Option.some.injEq] at h
        subst h
        have := sum_map_set Routine.holding s.routines i _ Routine.exited hr
        simp only [Routine.holding] at this
        refine ⟨⟨?_, h2⟩, rfl⟩
        show ((s.routines.set i Routine.exited).map Routine.holding).sum = s.sem
        omega

/-- In every state of the block the holders are the tokens in `sem`, and there
are at most `maxConcurrent` of them as soon as there is one. -/
theorem sem_holders_run (K : Int) (n : Nat) (sched : List Label) (s : State)
    (h : run (init K n) sched = some s) :
    (holders s = s.sem ∧ (0 < s.sem → (s.sem : Int) ≤ s.maxConcurrent))
      ∧ s.maxConcurrent = K := by
  refine runFrom_invariant step
    (fun s => (holders s = s.sem ∧ (0 < s.sem → (s.sem : Int) ≤ s.maxConcurrent))
      ∧ s.maxConcurrent = K) ?_ sched (init K n) s ?_ h
  · intro s l s' hI hs
    have := sem_holders_step s s' l hI.1 hs
    exact ⟨this.1, this.2.trans hI.2⟩
  · exact ⟨⟨rfl, fun h => absurd h (by simp [init])⟩, rfl⟩

/-- A goroutine at `<-sem` is never blocked: the release guard holds in every
reachable state. -/
theorem sem_release_enabled (K : Int) (n : Nat) (sched : List Label) (s : State)
    (h : run (init K n) sched = some s) (i : Nat)
    (hr : s.routines[i]? = some Routine.releasing) : 0 < s.sem := by
  have hI := (sem_holders_run K n sched s h).1.1
  have hmem := List.getElem?_mem hr
  have : Routine.holding Routine.releasing ≤ (s.routines.map Routine.holding).sum :=
    List.single_le_sum (by simp) _ (List.mem_map_of_mem _ hmem)
  simp only [Routine.holding] at this
  unfold holders at hI
  omega

end Semaphore

namespace Download

theorem dl_holders_step (s s' : State) (l : Label)
    (hI : holders s = s.sem ∧ (0 < s.sem → (s.sem : Int) ≤ s.maxConcurrent))
    (h : step s l = some s') :
    (holders s' = s'.sem ∧ (0 < s'.sem → (s'.sem : Int) ≤ s'.maxConcurrent))
      ∧ s'.maxConcurrent = s.maxConcurrent := by
  obtain ⟨h1, h2⟩ := hI
  unfold holders at h1 ⊢
  unfold step at h
  split at h
  · simp at h
  · cases l with
    | main =>
      simp only [mainStep] at h
      split at h
      · simp only [Option.some.injEq] at h
        subst h
        exact ⟨⟨by simp [h1, Routine.holding], h2⟩, rfl⟩
      · simp only [Option.some.injEq] at h
        subst h
        exact ⟨⟨h1, h2⟩, rfl⟩
      · simp only [Option.some.injEq] at h
        subst h
        exact ⟨⟨h1, h2⟩, rfl⟩
      · simp at h
    | routine i =>
      simp only [routineStep] at h
      split at h
      · simp at h
      · simp at h
      · rename_i u hr
        split at h
        · rename_i hlt
          simp only [Option.some.injEq] at h
          subst h
          have := sum_map_set Routine.holding s.routines i _ (Routine.sending u) hr
          simp only [Routine.holding] at this
          refine ⟨⟨?_, ?_⟩, rfl⟩
          · show ((s.routines.set i (Routine.sending u)).map Routine.holding).sum = s.sem + 1
            omega
          · intro _
            show ((s.sem + 1 : Nat) : Int) ≤ s.maxConcurrent
            omega
        · simp at h
      · rename_i u hr
        split at h
        · simp only [Option.some.injEq] at h
          subst h
          exact ⟨⟨h1, h2⟩, rfl⟩
        · split at h
          · simp only [Option.some.injEq] at h
            subst h
            have := sum_map_set Routine.holding s.routines i _ Routine.releasing hr
            simp only [Routine.holding] at this
            refine ⟨⟨?_, h2⟩, rfl⟩
            show ((s.routines.set i Routine.releasing).map Routine.holding).sum = s.sem
            omega
          · simp at h
      · rename_i hr
        split at h
        · rename_i hpos
          simp only [Option.some.injEq] at h
          subst h
          have := sum_map_set Routine.holding s.routines i _ Routine.finishing hr
          simp only [Routine.holding] at this
          have h2' := h2 hpos
          refine ⟨⟨?_, ?_⟩, rfl⟩
          · show ((s.routines.set i Routine.finishing).map Routine.holding).sum = s.sem - 1
            omega
          · intro _
            show ((s.sem - 1 : Nat) : Int) ≤ s.maxConcurrent
            omega
        · simp at h
      · rename_i hr
        simp only [Option.some.injEq] at h
        subst h
        have := sum_map_set Routine.holding s.routines i _ Routine.exited hr
        simp only [Routine.holding] at this
        refine ⟨⟨?_, h2⟩, rfl⟩
        show ((s.routines.set i Routine.exited).map Routine.holding).sum = s.sem
        omega
    | closer =>
      simp only [closerStep] at h
      split at h
      · split at h
        · split at h
          · simp only [Option.some.injEq] at h
            subst h
            exact ⟨⟨h1, h2⟩, rfl⟩
          · simp only [Option.some.injEq] at h
            subst h
            exact ⟨⟨h1, h2⟩, rfl⟩
        · simp at h
      · simp at h
    | receive =>
      simp only [receiveStep] at h
      split at h
      · simp only [Option.some.injEq] at h
        subst h
        exact ⟨⟨h1, h2⟩, rfl⟩
      · simp at h

/-- In every state of `DownloadAll` the holders are the tokens in `sem`, and
there are at most `maxConcurrent` of them as soon as there is one. -/
theorem dl_holders_run (K : Int) (urls : List String) (sched : List Label) (s : State)
    (h : run (init K urls) sched = some s) :
    (holders s = s.sem ∧ (0 < s.sem → (s.sem : Int) ≤ s.maxConcurrent))
      ∧ s.maxConcurrent = K := by
  refine runFrom_invariant step
    (fun s => (holders s = s.sem ∧ (0 < s.sem → (s.sem : Int) ≤ s.maxConcurrent))
      ∧ s.maxConcurrent = K) ?_ sched (init K urls) s ?_ h
  · intro s l s' hI hs
    have := dl_holders_step s s' l hI.1 hs
    exact ⟨this.1, this.2.trans hI.2⟩
  · exact ⟨⟨rfl, fun h => absurd h (by simp [init])⟩, rfl⟩

end Download

/-- C12. With a semaphore of capacity `K ≥ 1`, in every reachable state of the
semaphore block of `main` (for any number of tasks) and of `DownloadAll` (for
any list of urls), the goroutines between their acquire and their release are
exactly the tokens in `sem`, and there are at most `K` of them. -/
theorem C12_semaphore_holders_at_most_K (K : Int) (hK : 1 ≤ K) :
    (∀ (n : Nat) (sched : List Semaphore.Label) (s : Semaphore.State),
      Semaphore.run (Semaphore.init K n) sched = some s →
        Semaphore.holders s = s.sem ∧ (Semaphore.holders s : Int) ≤ K)
    ∧ (∀ (urls : List String) (sched : List Download.Label) (s : Download.State),
      Download.run (Download.init K urls) sched = some s →
        Download.holders s = s.sem ∧ (Download.holders s : Int) ≤ K) := by
  constructor
  · intro n sched s h
    obtain ⟨⟨h1, h2⟩, h3⟩ := Semaphore.sem_holders_run K n sched s h
    refine ⟨h1, ?_⟩
    rw [h1]
    by_cases hp : 0 < s.sem
    · exact h3 ▸ h2 hp
    · omega
  · intro urls sched s h
    obtain ⟨⟨h1, h2⟩, h3⟩ := Download.dl_holders_run K urls sched s h
    refine ⟨h1, ?_⟩
    rw [h1]
    by_cases hp : 0 < s.sem
    · exact h3 ▸ h2 hp
    · omega

theorem C12_semaphore_holders_at_most_K_witness :
    ((1 : Int) ≤ 2
      ∧ Semaphore.run Semaphore.mainInit Semaphore.demoSchedule = some Semaphore.demoHolding
      ∧ Semaphore.holders Semaphore.demoHolding = 2
      ∧ Semaphore.step Semaphore.demoHolding (.routine 2) = none
      ∧ (Semaphore.holders Semaphore.demoHolding = Semaphore.demoHolding.sem
          ∧ (Semaphore.holders Semaphore.demoHolding : Int) ≤ 2))
    ∧ ((1 : Int) ≤ 1
      ∧ Download.run (Download.init 1 Download.demoUrls) Download.holdSchedule
          = some Download.holdState
      ∧ Download.holders Download.holdState = 1
      ∧ Download.step Download.holdState (.routine 1) = none
      ∧ (Download.holders Download.holdState = Download.holdState.sem
          ∧ (Download.holders Download.holdState : Int) ≤ 1)) :=
  ⟨⟨by decide, by decide, by decide, by decide,
      (C12_semaphore_holders_at_most_K 2 (by decide)).1 5 Semaphore.demoSchedule
        Semaphore.demoHolding (by decide)⟩,
   ⟨by decide, by decide, by decide, by decide,
      (C12_semaphore_holders_at_most_K 1 (by decide)).2 Download.demoUrls
        Download.holdSchedule Download.holdState (by decide)⟩⟩

/-! ## `sync.Once` -/

/-- When the element at `j` carries the whole sum, every other element of the
list weighs nothing. -/
theorem sum_map_holder_unique {α : Type} (f : α → Nat) :
    ∀ (l : List α) (j : Nat) (a b : α), l[j]? = some a → (l.map f).sum ≤ f a →
      ∀ c ∈ l.set j b, c = b ∨ f c = 0 := by
  intro l
  induction l with
  | nil => intro j a b h; simp at h
  | cons x xs ih =>
    intro j a b h hs c hc
    cases j with
    | zero =>
      simp only [List.getElem?_cons_zero, Option.some.injEq] at h
      subst h
      simp only [List.map_cons, List.sum_cons] at hs
      simp only [List.set_cons_zero, List.mem_cons] at hc
      rcases hc with hc | hc
      · exact Or.inl hc
      · right
        have h0 : (xs.map f).sum = 0 := by omega
        exact List.sum_eq_zero_iff.mp h0 _ (List.mem_map_of_mem f hc)
    | succ j =>
      simp only [List.getElem?_cons_succ] at h
      simp only [List.map_cons, List.sum_cons] at hs
      have hle : f a ≤ (xs.map f).sum :=
        List.single_le_sum (by simp) _ (List.mem_map_of_mem f (List.getElem?_mem h))
      simp only [List.set_cons_succ, List.mem_cons] at hc
      rcases hc with hc | hc
      · right
        subst hc
        omega
      · exact ih j a b h (by omega) c hc

theorem mem_set_of_mem_ne {α : Type} :
    ∀ (l : List α) (j : Nat) (a b c : α), l[j]? = some a → c ∈ l → c ≠ a →
      c ∈ l.set j b := by
  intro l
  induction l with
  | nil => intro j a b c h; simp at h
  | cons x xs ih =>
    intro j a b c h hc hne
    cases j with
    | zero =>
      simp only [List.getElem?_cons_zero, Option.some.injEq] at h
      subst h
      simp only [List.mem_cons] at hc
      rcases hc with hc | hc
      · exact absurd hc hne
      · simp [hc]
    | succ j =>
      simp only [List.getElem?_cons_succ] at h
      simp only [List.mem_cons] at hc
      simp only [List.set_cons_succ, List.mem_cons]
      rcases hc with hc | hc
      · exact Or.inl hc
      · exact Or.inr (ih j a b c h hc hne)

theorem map_set_of_eq {α β : Type} (g : α → β) :
    ∀ (l : List α) (j : Nat) (a b : α), l[j]? = some a → g b = g a →
      (l.set j b).map g = l.map g := by
  intro l
  induction l with
  | nil => intro j a b h; simp at h
  | cons x xs ih =>
    intro j a b h hg
    cases j with
    | zero =>
      simp only [List.getElem?_cons_zero, Option.some.injEq] at h
      subst h
      simp [hg]
    | succ j =>
      simp only [List.getElem?_cons_succ] at h
      simp [ih j a b h hg]

theorem exists_pos_of_sum_map_pos {α : Type} (f : α → Nat) :
    ∀ (l : List α), 0 < (l.map f).sum → ∃ c ∈ l, 0 < f c := by
  intro l
  induction l with
  | nil => intro h; simp at h
  | cons x xs ih =>
    intro h
    simp only [List.map_cons, List.sum_cons] at h
    by_cases hx : 0 < f x
    · exact ⟨x, by simp, hx⟩
    · obtain ⟨c, hc, hpos⟩ := ih (by omega)
      exact ⟨c, by simp [hc], hpos⟩

theorem mem_set_self_of_getElem? {α : Type} :
    ∀ (l : List α) (j : Nat) (a b : α), l[j]? = some a → b ∈ l.set j b := by
  intro l
  induction l with
  | nil => intro j a b h; simp at h
  | cons x xs ih =>
    intro j a b h
    cases j with
    | zero => simp
    | succ j =>
      simp only [List.getElem?_cons_succ] at h
      simp [ih j a b h]

namespace OnceInit

theorem OInv_init (ids : List Int) : OInv ids (init ids) where
  idsEq := by simp [init, Function.comp_def]
  hold := by
    simp only [init, List.map_map, Bool.false_eq_true, if_false]
    induction ids with
    | nil => rfl
    | cons x xs ih => simpa [holds] using ih
  fresh := fun _ => ⟨rfl, rfl⟩
  one := by simp [init]
  mem := by simp [init]
  running := by
    intro c hc hr
    simp only [init, List.mem_map] at hc
    obtain ⟨k, _, rfl⟩ := hc
    simp at hr
  storing := by
    intro c hc hr
    simp only [init, List.mem_map] at hc
    obtain ⟨k, _, rfl⟩ := hc
    simp at hr
  dn := by simp [init]
  ret := by
    intro c hc hr
    simp only [init, List.mem_map] at hc
    obtain ⟨k, _, rfl⟩ := hc
    simp at hr
  started := by simp [init]

theorem once_holds_le_one (ids : List Int) (s : State) (hI : OInv ids s) :
    (s.calls.map holds).sum ≤ 1 := by
  rw [hI.hold]
  split <;> omega

theorem OInv_step (ids : List Int) (s s' : State) (l : Label) (hI : OInv ids s)
    (h : step s l = some s') : OInv ids s' := by
  cases l with
  | call j =>
    have hle := once_holds_le_one ids s hI
    simp only [step] at h
    split at h
    · simp at h
    · rename_i id hj
      have hs := fun b => sum_map_set holds s.calls j _ b hj
      split at h
      · rename_i hd
        simp only [Option.some.injEq] at h
        subst h
        have hs := hs (id, Pc.returned)
        simp only [holds] at hs
        exact {
          idsEq := by rw [← hI.idsEq]; exact map_set_of_eq Prod.fst _ _ _ _ hj rfl
          hold := by
            show ((s.calls.set j (id, Pc.returned)).map holds).sum = _
            rw [← hI.hold]; omega
          fresh := hI.fresh
          one := hI.one
          mem := hI.mem
          running := fun c hc hr => by
            rcases List.mem_or_eq_of_mem_set hc with hc | hc
            · exact hI.running c hc hr
            · subst hc; simp at hr
          storing := fun c hc hr => by
            rcases List.mem_or_eq_of_mem_set hc with hc | hc
            · exact hI.storing c hc hr
            · subst hc; simp at hr
          dn := hI.dn
          ret := fun _ _ _ => hd
          started := fun hp => by
            rcases hI.started hp with hd | ⟨c, hc, hcr⟩
            · exact Or.inl hd
            · refine Or.inr ⟨c, mem_set_of_mem_ne _ _ _ _ c hj hc ?_, hcr⟩
              rintro rfl
              simp at hcr }
      · simp only [Option.some.injEq] at h
        subst h
        have hs := hs (id, Pc.locking)
        simp only [holds] at hs
        exact {
          idsEq := by rw [← hI.idsEq]; exact map_set_of_eq Prod.fst _ _ _ _ hj rfl
          hold := by
            show ((s.calls.set j (id, Pc.locking)).map holds).sum = _
            rw [← hI.hold]; omega
          fresh := hI.fresh
          one := hI.one
          mem := hI.mem
          running := fun c hc hr => by
            rcases List.mem_or_eq_of_mem_set hc with hc | hc
            · exact hI.running c hc hr
            · subst hc; simp at hr
          storing := fun c hc hr => by
            rcases List.mem_or_eq_of_mem_set hc with hc | hc
            · exact hI.storing c hc hr
            · subst hc; simp at hr
          dn := hI.dn
          ret := fun c hc hr => by
            rcases List.mem_or_eq_of_mem_set hc with hc | hc
            · exact hI.ret c hc hr
            · subst hc; simp at hr
          started := fun hp => by
            rcases hI.started hp with hd | ⟨c, hc, hcr⟩
            · exact Or.inl hd
            · refine Or.inr ⟨c, mem_set_of_mem_ne _ _ _ _ c hj hc ?_, hcr⟩
              rintro rfl
              simp at hcr }
    · rename_i id hj
      have hs := fun b => sum_map_set holds s.calls j _ b hj
      split at h
      · simp at h
      · rename_i hl
        simp only [Option.some.injEq] at h
        subst h
        have hs := hs (id, Pc.checking)
        simp only [holds] at hs
        have hold := hI.hold
        rw [if_neg hl] at hold
        exact {
          idsEq := by rw [← hI.idsEq]; exact map_set_of_eq Prod.fst _ _ _ _ hj rfl
          hold := by
            show ((s.calls.set j (id, Pc.checking)).map holds).sum = 1
            omega
          fresh := hI.fresh
          one := hI.one
          mem := hI.mem
          running := fun c hc hr => by
            rcases List.mem_or_eq_of_mem_set hc with hc | hc
            · exact hI.running c hc hr
            · subst hc; simp at hr
          storing := fun c hc hr => by
            rcases List.mem_or_eq_of_mem_set hc with hc | hc
            · exact hI.storing c hc hr
            · subst hc; simp at hr
          dn := hI.dn
          ret := fun c hc hr => by
            rcases List.mem_or_eq_of_mem_set hc with hc | hc
            · exact hI.ret c hc hr
            · subst hc; simp at hr
          started := fun hp => by
            rcases hI.started hp with hd | ⟨c, hc, hcr⟩
            · exact Or.inl hd
            · refine Or.inr ⟨c, mem_set_of_mem_ne _ _ _ _ c hj hc ?_, hcr⟩
              rintro rfl
              simp at hcr }
    · rename_i id hj
      have hs := fun b => sum_map_set holds s.calls j _ b hj
      have hu := fun b => sum_map_holder_unique holds s.calls j _ b hj
        (by simpa [holds] using hle)
      split at h
      · rename_i hd
        simp only [Option.some.injEq] at h
        subst h
        have hs := hs (id, Pc.unlocking)
        simp only [holds] at hs
        exact {
          idsEq := by rw [← hI.idsEq]; exact map_set_of_eq Prod.fst _ _ _ _ hj rfl
          hold := by
            show ((s.calls.set j (id, Pc.unlocking)).map holds).sum = _
            rw [← hI.hold]; omega
          fresh := hI.fresh
          one := hI.one
          mem := hI.mem
          running := fun c hc hr => by
            rcases List.mem_or_eq_of_mem_set hc with hc | hc
            · exact hI.running c hc hr
            · subst hc; simp at hr
          storing := fun c hc hr => by
            rcases List.mem_or_eq_of_mem_set hc with hc | hc
            · exact hI.storing c hc hr
            · subst hc; simp at hr
          dn := hI.dn
          ret := fun _ _ _ => hd
          started := fun hp => by
            rcases hI.started hp with hd | ⟨c, hc, hcr⟩
            · exact Or.inl hd
            · refine Or.inr ⟨c, mem_set_of_mem_ne _ _ _ _ c hj hc ?_, hcr⟩
              rintro rfl
              simp at hcr }
      · rename_i hd
        simp only [Option.some.injEq] at h
        subst h
        have hs := hs (id, Pc.running)
        simp only [holds] at hs
        have hd' : s.done = false := by simpa using hd
        have hnil : s.printed = [] := by
          by_contra hp
          rcases hI.started hp with hd1 | ⟨c, hc, hcr⟩
          · exact hd hd1
          · have hne : c ≠ (id, Pc.checking) := by
              rintro rfl
              simp at hcr
            rcases hu (id, Pc.checking) c
              (mem_set_of_mem_ne _ _ _ _ c hj hc hne) with h1 | h1
            · exact hne h1
            · obtain ⟨k, pc⟩ := c
              simp only at hcr
              rcases hcr with rfl | rfl <;> simp [holds] at h1
        have hf := hI.fresh hnil
        have hidm : id ∈ ids := by
          rw [← hI.idsEq]
          exact List.mem_map_of_mem Prod.fst (List.getElem?_mem hj)
        exact {
          idsEq := by rw [← hI.idsEq]; exact map_set_of_eq Prod.fst _ _ _ _ hj rfl
          hold := by
            show ((s.calls.set j (id, Pc.running)).map holds).sum = _
            rw [← hI.hold]; omega
          fresh := fun hp => by simp at hp
          one := by simp [hnil]
          mem := by simp [hnil, hidm]
          running := fun c hc hr => by
            rcases List.mem_or_eq_of_mem_set hc with hc | hc
            · have := (hI.running c hc hr).1
              rw [hnil] at this
              simp at this
            · subst hc
              exact ⟨by simp [hnil], hf.2, hd'⟩
          storing := fun c hc hr => by
            rcases List.mem_or_eq_of_mem_set hc with hc | hc
            · have := (hI.storing c hc hr).1
              rw [hnil] at this
              simp at this
            · subst hc; simp at hr
          dn := fun hdn => absurd hdn hd
          ret := fun c hc hr => by
            rcases List.mem_or_eq_of_mem_set hc with hc | hc
            · exact hI.ret c hc hr
            · subst hc; simp at hr
          started := fun _ =>
            Or.inr ⟨(id, Pc.running), mem_set_self_of_getElem? _ _ _ _ hj, Or.inl rfl⟩ }
    · rename_i id hj
      have hs := fun b => sum_map_set holds s.calls j _ b hj
      have hu := fun b => sum_map_holder_unique holds s.calls j _ b hj
        (by simpa [holds] using hle)
      obtain ⟨hpr, hval, hdn⟩ := hI.running _ (List.getElem?_mem hj) rfl
      simp only [Option.some.injEq] at h
      subst h
      have hs := hs (id, Pc.storing)
      simp only [holds] at hs
      have hpr' : s.printed = [id] := hpr
      exact {
        idsEq := by rw [← hI.idsEq]; exact map_set_of_eq Prod.fst _ _ _ _ hj rfl
        hold := by
          show ((s.calls.set j (id, Pc.storing)).map holds).sum = _
          rw [← hI.hold]; omega
        fresh := fun hp => by
          have hp' : s.printed = [] := hp
          rw [hpr'] at hp'
          simp at hp'
        one := hI.one
        mem := hI.mem
        running := fun c hc hr => by
          rcases hu (id, Pc.storing) c hc with h1 | h1
          · subst h1; simp at hr
          · obtain ⟨k, pc⟩ := c
            simp only at hr
            subst hr
            simp [holds] at h1
        storing := fun c hc hr => by
          rcases hu (id, Pc.storing) c hc with h1 | h1
          · subst h1
            exact ⟨hpr', rfl, hdn⟩
          · obtain ⟨k, pc⟩ := c
            simp only at hr
            subst hr
            simp [holds] at h1
        dn := fun hd => by
          have hd' : s.done = true := hd
          rw [hdn] at hd'
          simp at hd'
        ret := fun c hc hr => by
          rcases List.mem_or_eq_of_mem_set hc with hc | hc
          · exact hI.ret c hc hr
          · subst hc; simp at hr
        started := fun _ =>
          Or.inr ⟨(id, Pc.storing), mem_set_self_of_getElem? _ _ _ _ hj, Or.inr rfl⟩ }
    · rename_i id hj
      have hs := fun b => sum_map_set holds s.calls j _ b hj
      have hu := fun b => sum_map_holder_unique holds s.calls j _ b hj
        (by simpa [holds] using hle)
      obtain ⟨hpr, hval, hdn⟩ := hI.storing _ (List.getElem?_mem hj) rfl
      simp only [Option.some.injEq] at h
      subst h
      have hs := hs (id, Pc.unlocking)
      simp only [holds] at hs
      have hpr' : s.printed = [id] := hpr
      exact {
        idsEq := by rw [← hI.idsEq]; exact map_set_of_eq Prod.fst _ _ _ _ hj rfl
        hold := by
          show ((s.calls.set j (id, Pc.unlocking)).map holds).sum = _
          rw [← hI.hold]; omega
        fresh := fun hp => by
          have hp' : s.printed = [] := hp
          rw [hpr'] at hp'
          simp at hp'
        one := hI.one
        mem := hI.mem
        running := fun c hc hr => by
          rcases hu (id, Pc.unlocking) c hc with h1 | h1
          · subst h1; simp at hr
          · obtain ⟨k, pc⟩ := c
            simp only at hr
            subst hr
            simp [holds] at h1
        storing := fun c hc hr => by
          rcases hu (id, Pc.unlocking) c hc with h1 | h1
          · subst h1; simp at hr
          · obtain ⟨k, pc⟩ := c
            simp only at hr
            subst hr
            simp [holds] at h1
        dn := fun _ => ⟨id, hpr', hval⟩
        ret := fun _ _ _ => rfl
        started := fun _ => Or.inl rfl }
    · rename_i id hj
      have hs := fun b => sum_map_set holds s.calls j _ b hj
      have hdone := hI.ret _ (List.getElem?_mem hj) (Or.inl rfl)
      split at h
      · rename_i hl
        simp only [Option.some.injEq] at h
        subst h
        have hs := hs (id, Pc.returned)
        simp only [holds] at hs
        have hold := hI.hold
        rw [if_pos hl] at hold
        exact {
          idsEq := by rw [← hI.idsEq]; exact map_set_of_eq Prod.fst _ _ _ _ hj rfl
          hold := by
            show ((s.calls.set j (id, Pc.returned)).map holds).sum = 0
            omega
          fresh := hI.fresh
          one := hI.one
          mem := hI.mem
          running := fun c hc hr => by
            rcases List.mem_or_eq_of_mem_set hc with hc | hc
            · exact hI.running c hc hr
            · subst hc; simp at hr
          storing := fun c hc hr => by
            rcases List.mem_or_eq_of_mem_set hc with hc | hc
            · exact hI.storing c hc hr
            · subst hc; simp at hr
          dn := hI.dn
          ret := fun _ _ _ => hdone
          started := fun hp => by
            rcases hI.started hp with hd | ⟨c, hc, hcr⟩
            · exact Or.inl hd
            · refine Or.inr ⟨c, mem_set_of_mem_ne _ _ _ _ c hj hc ?_, hcr⟩
              rintro rfl
              simp at hcr }
      · simp at h
    · simp at h

/-- The invariant holds in every state the calls can reach. -/
theorem OInv_run (ids : List Int) (ls : List Label) (s : State)
    (h : run (init ids) ls = some s) : OInv ids s :=
  runFrom_invariant step (OInv ids) (fun s l s' hI hs => OInv_step ids s s' l hI hs)
    ls (init ids) s (OInv_init ids) h

end OnceInit

namespace OnceInit

set_option linter.unusedTactic false in
set_option linter.unreachableTactic false in
theorem once_potential_step (s s' : State) (l : Label) (h : step s l = some s') :
    potential s' + 1 ≤ potential s := by
  cases l with
  | call j =>
    unfold potential
    simp only [step] at h
    split at h
    · simp at h
    all_goals
      rename_i id hj
      have hs := fun b => sum_map_set cost s.calls j _ b hj
      repeat' split at h
      all_goals first
        | (simp at h; done)
        | (simp only [Option.some.injEq] at h
           subst h
           first
           | (have hs1 := hs (id, Pc.returned); simp only [cost] at hs1; dsimp only; omega)
           | (have hs1 := hs (id, Pc.locking); simp only [cost] at hs1; dsimp only; omega)
           | (have hs1 := hs (id, Pc.checking); simp only [cost] at hs1; dsimp only; omega)
           | (have hs1 := hs (id, Pc.unlocking); simp only [cost] at hs1; dsimp only; omega)
           | (have hs1 := hs (id, Pc.running); simp only [cost] at hs1; dsimp only; omega)
           | (have hs1 := hs (id, Pc.storing); simp only [cost] at hs1; dsimp only; omega))

theorem once_potential_init (ids : List Int) : potential (init ids) = 6 * ids.length := by
  unfold potential init
  induction ids with
  | nil => rfl
  | cons x xs ih =>
    simp only [List.map_cons, List.sum_cons, List.length_cons, cost] at ih ⊢
    omega

theorem once_holder_enabled (ids : List Int) (s : State) (hI : OInv ids s) (j : Nat)
    (c : Int × Pc) (hj : s.calls[j]? = some c) (hc : 0 < holds c) :
    (step s (.call j)).isSome = true := by
  have hle : holds c ≤ (s.calls.map holds).sum :=
    List.single_le_sum (by simp) _ (List.mem_map_of_mem holds (List.getElem?_mem hj))
  have hl : s.locked = true := by
    have := hI.hold
    by_contra hn
    rw [if_neg hn] at this
    omega
  obtain ⟨id, pc⟩ := c
  cases pc <;> simp [holds] at hc <;> simp only [step, hj]
  · split <;> rfl
  · rfl
  · rfl
  · simp [hl]

/-- While a call has not returned, some call can take a step. -/
theorem once_progress (ids : List Int) (s : State) (hI : OInv ids s)
    (hf : finished s = false) : ∃ l s', step s l = some s' := by
  have hex : ∃ c ∈ s.calls, c.2 ≠ Pc.returned := by
    by_contra hcon
    push_neg at hcon
    have : finished s = true := by
      simp only [finished, List.all_eq_true, decide_eq_true_eq]
      exact hcon
    rw [this] at hf
    simp at hf
  obtain ⟨c, hc, hne⟩ := hex
  obtain ⟨j, hj⟩ := List.mem_iff_getElem?.mp hc
  have key : ∃ j, (step s (.call j)).isSome = true := by
    obtain ⟨id, pc⟩ := c
    cases pc with
    | returned => exact absurd rfl hne
    | entering =>
      refine ⟨j, ?_⟩
      simp only [step, hj]
      split <;> rfl
    | locking =>
      by_cases hl : s.locked = true
      · have hsum := hI.hold
        rw [if_pos hl] at hsum
        obtain ⟨c', hc', hpos⟩ := exists_pos_of_sum_map_pos holds s.calls (by omega)
        obtain ⟨j', hj'⟩ := List.mem_iff_getElem?.mp hc'
        exact ⟨j', once_holder_enabled ids s hI j' c' hj' hpos⟩
      · refine ⟨j, ?_⟩
        simp [step, hj, hl]
    | checking => exact ⟨j, once_holder_enabled ids s hI j _ hj (by simp [holds])⟩
    | running => exact ⟨j, once_holder_enabled ids s hI j _ hj (by simp [holds])⟩
    | storing => exact ⟨j, once_holder_enabled ids s hI j _ hj (by simp [holds])⟩
    | unlocking => exact ⟨j, once_holder_enabled ids s hI j _ hj (by simp [holds])⟩
  obtain ⟨j, hj⟩ := key
  obtain ⟨s', hs'⟩ := Option.isSome_iff_exists.mp hj
  exact ⟨_, s', hs'⟩

/-- When every call has returned the action has run for exactly one id. -/
theorem once_finished (ids : List Int) (hne : ids ≠ []) (s : State) (hI : OInv ids s)
    (hf : finished s = true) : ∃ k ∈ ids, s.printed = [k] ∧ s.value = Sprintf k := by
  simp only [finished, List.all_eq_true, decide_eq_true_eq] at hf
  have hcalls : s.calls ≠ [] := by
    intro h0
    have := hI.idsEq
    rw [h0] at this
    exact hne this.symm
  obtain ⟨c, hc⟩ := List.exists_mem_of_ne_nil _ hcalls
  have hd := hI.ret c hc (Or.inr (hf c hc))
  obtain ⟨k, hk, hv⟩ := hI.dn hd
  exact ⟨k, hI.mem k (by simp [hk]), hk, hv⟩

/-- Only the call that is inside the action changes `value`. -/
theorem once_value_step (ids : List Int) (s s' : State) (j : Nat) (hI : OInv ids s)
    (h : step s (.call j) = some s') (hv : s'.value ≠ s.value) :
    ∃ id, s.calls[j]? = some (id, Pc.running) ∧ s.printed = [id]
      ∧ s.value = "" ∧ s'.value = Sprintf id := by
  simp only [step] at h
  split at h
  · simp at h
  all_goals
    rename_i id hj
    repeat' split at h
    all_goals first
      | (simp at h; done)
      | (simp only [Option.some.injEq] at h
         subst h
         first
           | exact absurd rfl hv
           | skip)
  obtain ⟨hpr, hval, _⟩ := hI.running _ (List.getElem?_mem hj) rfl
  exact ⟨id, hj, hpr, hval, rfl⟩

theorem once_done_step (ids : List Int) (s s' : State) (l : Label) (hI : OInv ids s)
    (h : step s l = some s') (hd : s.done = true) :
    s'.done = true ∧ s'.value = s.value ∧ s'.printed = s.printed := by
  cases l with
  | call j =>
    simp only [step] at h
    split at h
    · simp at h
    all_goals
      rename_i id hj
      repeat' split at h
      all_goals first
        | (simp at h; done)
        | (simp only [Option.some.injEq] at h
           subst h
           first
             | exact ⟨hd, rfl, rfl⟩
             | exact ⟨rfl, rfl, rfl⟩
             | contradiction
             | skip)
    · have := (hI.running _ (List.getElem?_mem hj) rfl).2.2
      rw [hd] at this
      simp at this

/-- Once `done` is set, no later step of any call changes `value`. -/
theorem once_done_run (ids : List Int) :
    ∀ (ls : List Label) (s s' : State), OInv ids s → s.done = true →
      run s ls = some s' → s'.value = s.value ∧ s'.printed = s.printed := by
  intro ls
  induction ls with
  | nil =>
    intro s s' _ _ h
    simp only [run, runFrom, Option.some.injEq] at h
    subst h
    exact ⟨rfl, rfl⟩
  | cons l ls ih =>
    intro s s' hI hd h
    simp only [run, runFrom] at h
    cases hl : step s l with
    | none => simp [hl] at h
    | some t =>
      simp only [hl] at h
      have h1 := once_done_step ids s t l hI hl hd
      have h2 := ih t s' (OInv_step ids s t l hI hl) h1.1 h
      exact ⟨h2.1.trans h1.2.1, h2.2.trans h1.2.2⟩

end OnceInit

namespace OnceInit

/-- C13. For every non-empty collection of calls `Initialize(ids)` on one
`Config`, in every interleaving: the guarded action is entered at most once;
when every call has returned it has run exactly once and the value is
"initialized by k" for the one id `k` whose call entered it; `value` is written
only by that call, inside the action, and once `done` is set no step of any
call changes it; until every call has returned some call can take a step, and
no schedule is longer than six steps per call, so every call returns; and a
call returns only after the action has completed and set the value. -/
theorem C13_initialize_runs_action_exactly_once (ids : List Int) (hne : ids ≠ [])
    (ls : List Label) (s : State) (hrun : run (init ids) ls = some s) :
    s.printed.length ≤ 1
    ∧ (finished s = true → ∃ k ∈ ids, s.printed = [k] ∧ s.value = Sprintf k)
    ∧ (∀ j s', step s (.call j) = some s' → s'.value ≠ s.value →
        ∃ id, s.calls[j]? = some (id, Pc.running) ∧ s.printed = [id]
          ∧ s.value = "" ∧ s'.value = Sprintf id)
    ∧ (s.done = true → ∀ ls' s', run s ls' = some s' →
        s'.value = s.value ∧ s'.printed = s.printed)
    ∧ (finished s = false → ∃ l s', step s l = some s')
    ∧ ls.length ≤ 6 * ids.length
    ∧ (∀ c ∈ s.calls, c.2 = Pc.returned →
        ∃ k ∈ ids, s.printed = [k] ∧ s.value = Sprintf k) := by
  have hI := OInv_run ids ls s hrun
  refine ⟨hI.one, once_finished ids hne s hI, ?_, ?_, once_progress ids s hI, ?_, ?_⟩
  · intro j s' h hv
    exact once_value_step ids s s' j hI h hv
  · intro hd ls' s' h
    exact once_done_run ids ls' s s' hI hd h
  · have := runFrom_potential step potential
      (fun s l s' h => once_potential_step s s' l h) ls (init ids) s hrun
    rw [once_potential_init] at this
    omega
  · intro c hc hr
    obtain ⟨k, hk, hv⟩ := hI.dn (hI.ret c hc (Or.inr hr))
    exact ⟨k, hI.mem k (by simp [hk]), hk, hv⟩

theorem C13_initialize_runs_action_exactly_once_witness :
    mainIds ≠ [] ∧ run (init mainIds) demoSchedule = some demoFinal
    ∧ finished demoFinal = true
    ∧ (∃ k ∈ mainIds, demoFinal.printed = [k] ∧ demoFinal.value = Sprintf k)
    ∧ demoFinal.value = "initialized by 3" :=
  ⟨by decide, by decide, by decide,
   (C13_initialize_runs_action_exactly_once mainIds (by decide) demoSchedule demoFinal
      (by decide)).2.1 (by decide), rfl⟩

end OnceInit

/-! ## Cancellation tokens -/

namespace Context

theorem ctx_Err_append (w : World) (c : Ctx) (e : Error) (l : List (Nat × Error))
    (h : Err w c = some e) : Err { w with log := w.log ++ l } c = some e := by
  unfold Err at h ⊢
  simp only [Option.map_eq_some'] at h ⊢
  obtain ⟨ev, hev, he⟩ := h
  exact ⟨ev, by simp [List.find?_append, hev], he⟩

theorem ctx_cancelWith_log (c : Ctx) (e : Error) (w : World) :
    ∃ l, cancelWith c e w = { w with log := w.log ++ l } := by
  cases c with
  | Background => exact ⟨[], by simp [cancelWith]⟩
  | valueCtx p k v => exact ⟨[], by simp [cancelWith]⟩
  | cancelCtx p id =>
    simp only [cancelWith]
    split
    · exact ⟨[], by simp⟩
    · exact ⟨[(id, e)], rfl⟩
  | timerCtx p id =>
    simp only [cancelWith]
    split
    · exact ⟨[], by simp⟩
    · exact ⟨[(id, e)], rfl⟩

theorem ctx_Err_cancelWith (c c' : Ctx) (e e' : Error) (w : World) (h : Err w c = some e) :
    Err (cancelWith c' e' w) c = some e := by
  obtain ⟨l, hl⟩ := ctx_cancelWith_log c' e' w
  rw [hl]
  exact ctx_Err_append w c e l h

/-- A terminal token keeps its outcome through every operation. -/
theorem ctx_Err_apply (c : Ctx) (e : Error) (w : World) (op : Op) (h : Err w c = some e) :
    Err (op.apply w) c = some e := by
  cases op with
  | cancel c' => exact ctx_Err_cancelWith c c' e _ w h
  | expire c' =>
    cases c' with
    | timerCtx p id => exact ctx_Err_cancelWith c _ e _ w h
    | Background => exact h
    | cancelCtx p id => exact h
    | valueCtx p k v => exact h
  | withCancel p => exact h
  | withTimeout p => exact h

theorem ctx_Err_applyAll (c : Ctx) (e : Error) :
    ∀ (ops : List Op) (w : World), Err w c = some e → Err (applyAll w ops) c = some e := by
  intro ops
  induction ops with
  | nil => intro w h; exact h
  | cons op ops ih =>
    intro w h
    exact ih (op.apply w) (ctx_Err_apply c e w op h)

/-- The first transition of an active token gives it the outcome asked for. -/
theorem ctx_Err_cancelWith_active (parent : Ctx) (id : Nat) (e : Error) (w : World)
    (h : Err w (.cancelCtx parent id) = none) :
    Err (cancelWith (.cancelCtx parent id) e w) (.cancelCtx parent id) = some e := by
  have hn : w.log.find? (fun ev => decide (ev.1 ∈ (Ctx.cancelCtx parent id).ids)) = none := by
    unfold Err at h
    simpa using h
  simp only [cancelWith, h, Option.isSome_none, Bool.false_eq_true, if_false]
  unfold Err
  simp only [List.find?_append, hn, Option.none_or]
  simp [Ctx.ids]

/-- A token that is terminal is left alone by its cancel function. -/
theorem ctx_cancel_terminal (c : Ctx) (e : Error) (w : World) (h : Err w c = some e) :
    cancel c w = w := by
  cases c with
  | Background => rfl
  | valueCtx p k v => rfl
  | cancelCtx p id => simp [cancel, cancelWith, h]
  | timerCtx p id => simp [cancel, cancelWith, h]

theorem ctx_cancel_idem (parent : Ctx) (id : Nat) (w : World) :
    cancel (.cancelCtx parent id) (cancel (.cancelCtx parent id) w)
      = cancel (.cancelCtx parent id) w := by
  cases h : Err w (.cancelCtx parent id) with
  | some e => rw [ctx_cancel_terminal _ e w h, ctx_cancel_terminal _ e w h]
  | none =>
    exact ctx_cancel_terminal _ .Canceled _
      (ctx_Err_cancelWith_active parent id .Canceled w h)

/-- C14. For a token made by `WithCancel`: the first call of its cancel function
on the active token makes it Cancelled (`Done` is closed, `Err()` is
`Canceled`); after the first call any number of further calls leaves the whole
state as it is; and a token that is terminal keeps the same outcome, with
`Done` closed, through every later cancellation, expiry or creation of tokens,
its own cancel function being a no-op there. -/
theorem C14_cancel_twice_is_no_op (w : World) (parent : Ctx) (id : Nat) :
    (Err w (.cancelCtx parent id) = none →
      Err (cancel (.cancelCtx parent id) w) (.cancelCtx parent id) = some .Canceled
      ∧ Done (cancel (.cancelCtx parent id) w) (.cancelCtx parent id) = true)
    ∧ (∀ n : Nat, Nat.iterate (cancel (.cancelCtx parent id)) n
          (cancel (.cancelCtx parent id) w) = cancel (.cancelCtx parent id) w)
    ∧ (∀ e, Err w (.cancelCtx parent id) = some e → ∀ ops : List Op,
        Err (applyAll w ops) (.cancelCtx parent id) = some e
        ∧ Done (applyAll w ops) (.cancelCtx parent id) = true
        ∧ cancel (.cancelCtx parent id) (applyAll w ops) = applyAll w ops) := by
  refine ⟨?_, ?_, ?_⟩
  · intro h
    have := ctx_Err_cancelWith_active parent id .Canceled w h
    exact ⟨this, by simp [Done, cancel, this]⟩
  · intro n
    induction n with
    | zero => rfl
    | succ n ih =>
      rw [Function.iterate_succ_apply, ctx_cancel_idem]
      exact ih
  · intro e h ops
    have := ctx_Err_applyAll _ e ops w h
    exact ⟨this, by simp [Done, this], ctx_cancel_terminal _ e _ this⟩

theorem C14_cancel_twice_is_no_op_witness :
    (WithCancel World.empty .Background).2 = .cancelCtx .Background 0
    ∧ Err (WithCancel World.empty .Background).1 (.cancelCtx .Background 0) = none
    ∧ mainCancelled.1 = cancel (.cancelCtx .Background 0) (WithCancel World.empty .Background).1
    ∧ Err mainCancelled.1 (.cancelCtx .Background 0) = some .Canceled
    ∧ applyAll mainCancelled.1 mainRest = mainBeforeDeferred
    ∧ (Err (applyAll mainCancelled.1 mainRest) (.cancelCtx .Background 0) = some .Canceled
        ∧ Done (applyAll mainCancelled.1 mainRest) (.cancelCtx .Background 0) = true
        ∧ cancel (.cancelCtx .Background 0) (applyAll mainCancelled.1 mainRest)
            = applyAll mainCancelled.1 mainRest) :=
  ⟨rfl, by decide, rfl, by decide, by decide,
   (C14_cancel_twice_is_no_op mainCancelled.1 .Background 0).2.2 .Canceled (by decide)
     mainRest⟩

end Context

namespace Context

/-- C15, on the code: `processRequest` looks the values up with constants of
its own type `key`, which is not the type `key` of `main`, so both lookups on
`ctx4` give `nil`; with the keys of `main` the same token answers 12345 and
"req-abc-123". -/
theorem C15_processRequest_lookups_give_nil :
    processRequest ctx4 = (none, none)
    ∧ ctx4.Value mainUserIDKey = some (.int 12345)
    ∧ ctx4.Value mainRequestIDKey = some (.string "req-abc-123") := by
  decide

end Context

/-! ## `fetchData` and `queryUsers` -/

namespace FetchData

theorem fetch_inv_step (s s' : State) (l : Label)
    (hI : s.errCh = [] ∧ (∀ r ∈ s.resultCh, r = "データ取得成功")
      ∧ (s.sent = false → s.resultCh = [])
      ∧ (s.ret = none → s.sent = true → s.resultCh ≠ [])
      ∧ (∀ r err, s.ret = some (r, err) → (r = "データ取得成功" ∧ err = none)
          ∨ (r = "" ∧ ∃ e, err = some (.context e) ∧ s.ctxErr = some e)))
    (h : step s l = some s') :
    s'.errCh = [] ∧ (∀ r ∈ s'.resultCh, r = "データ取得成功")
      ∧ (s'.sent = false → s'.resultCh = [])
      ∧ (s'.ret = none → s'.sent = true → s'.resultCh ≠ [])
      ∧ (∀ r err, s'.ret = some (r, err) → (r = "データ取得成功" ∧ err = none)
          ∨ (r = "" ∧ ∃ e, err = some (.context e) ∧ s'.ctxErr = some e)) := by
  obtain ⟨h1, h2, h3, h4, h5⟩ := hI
  cases l with
  | cancel =>
    simp only [step] at h
    split at h
    · rename_i hc
      simp only [Option.some.injEq] at h
      subst h
      refine ⟨h1, h2, h3, h4, ?_⟩
      intro r err hr
      rcases h5 r err hr with h6 | ⟨_, e, _, he⟩
      · exact Or.inl h6
      · rw [hc] at he
        simp at he
    · simp at h
  | expire =>
    simp only [step] at h
    split at h
    · rename_i hc
      simp only [Option.some.injEq] at h
      subst h
      refine ⟨h1, h2, h3, h4, ?_⟩
      intro r err hr
      rcases h5 r err hr with h6 | ⟨_, e, _, he⟩
      · exact Or.inl h6
      · rw [hc] at he
        simp at he
    · simp at h
  | worker =>
    simp only [step] at h
    split at h
    · rename_i hc
      simp only [Option.some.injEq] at h
      subst h
      have hnil := h3 hc.1
      refine ⟨h1, ?_, ?_, ?_, h5⟩
      · intro r hr
        simp only [hnil, List.nil_append, List.mem_singleton] at hr
        exact hr
      · intro hf
        simp at hf
      · intro _ _
        simp
    · simp at h
  | caseDone =>
    simp only [step] at h
    split at h
    · rename_i e hr he
      simp only [Option.some.injEq] at h
      subst h
      refine ⟨h1, h2, h3, ?_, ?_⟩
      · intro hn
        simp at hn
      · intro r err hret
        simp only [Option.some.injEq, Prod.mk.injEq] at hret
        obtain ⟨rfl, rfl⟩ := hret
        exact Or.inr ⟨rfl, e, rfl, he⟩
    · simp at h
  | caseResult =>
    simp only [step] at h
    split at h
    · rename_i result rest hr hc
      simp only [Option.some.injEq] at h
      subst h
      have hres : result = "データ取得成功" := h2 result (by simp [hc])
      refine ⟨h1, ?_, ?_, ?_, ?_⟩
      · intro r hr'
        exact h2 r (by simp [hc, hr'])
      · intro hf
        have := h3 hf
        rw [hc] at this
        simp at this
      · intro hn
        simp at hn
      · intro r err hret
        simp only [Option.some.injEq, Prod.mk.injEq] at hret
        obtain ⟨rfl, rfl⟩ := hret
        exact Or.inl ⟨hres, rfl⟩
    · simp at h
  | caseErr =>
    simp only [step] at h
    split at h
    · rename_i err rest hr hc
      rw [h1] at hc
      simp at hc
    · simp at h

theorem fetch_potential_step (s s' : State) (l : Label) (h : step s l = some s') :
    potential s' + 1 ≤ potential s := by
  unfold potential
  cases l <;> simp only [step] at h <;> split at h <;>
    first
      | (simp at h; done)
      | (simp only [Option.some.injEq] at h
         subst h
         simp_all <;> (repeat' split) <;> omega)

end FetchData

namespace QueryUsers

theorem query_inv_step (s s' : State) (l : Label)
    (hI : (∀ r ∈ s.resultCh, r = ["太郎", "花子", "次郎"])
      ∧ (s.sent = false → s.resultCh = [])
      ∧ (s.ret = none → s.sent = true → s.resultCh ≠ [])
      ∧ (∀ r err, s.ret = some (r, err) → (r = some ["太郎", "花子", "次郎"] ∧ err = none)
          ∨ (r = none ∧ ∃ e, err = some (.context e) ∧ s.ctxErr = some e)))
    (h : step s l = some s') :
    (∀ r ∈ s'.resultCh, r = ["太郎", "花子", "次郎"])
      ∧ (s'.sent = false → s'.resultCh = [])
      ∧ (s'.ret = none → s'.sent = true → s'.resultCh ≠ [])
      ∧ (∀ r err, s'.ret = some (r, err) → (r = some ["太郎", "花子", "次郎"] ∧ err = none)
          ∨ (r = none ∧ ∃ e, err = some (.context e) ∧ s'.ctxErr = some e)) := by
  obtain ⟨h2, h3, h4, h5⟩ := hI
  cases l with
  | cancel =>
    simp only [step] at h
    split at h
    · rename_i hc
      simp only [Option.some.injEq] at h
      subst h
      refine ⟨h2, h3, h4, ?_⟩
      intro r err hr
      rcases h5 r err hr with h6 | ⟨_, e, _, he⟩
      · exact Or.inl h6
      · rw [hc] at he
        simp at he
    · simp at h
  | expire =>
    simp only [step] at h
    split at h
    · rename_i hc
      simp only [Option.some.injEq] at h
      subst h
      refine ⟨h2, h3, h4, ?_⟩
      intro r err hr
      rcases h5 r err hr with h6 | ⟨_, e, _, he⟩
      · exact Or.inl h6
      · rw [hc] at he
        simp at he
    · simp at h
  | worker =>
    simp only [step] at h
    split at h
    · rename_i hc
      simp only [Option.some.injEq] at h
      subst h
      have hnil := h3 hc.1
      refine ⟨?_, ?_, ?_, h5⟩
      · intro r hr
        simp only [hnil, List.nil_append, List.mem_singleton] at hr
        exact hr
      · intro hf
        simp at hf
      · intro _ _
        simp
    · simp at h
  | caseDone =>
    simp only [step] at h
    split at h
    · rename_i e hr he
      simp only [Option.some.injEq] at h
      subst h
      refine ⟨h2, h3, ?_, ?_⟩
      · intro hn
        simp at hn
      · intro r err hret
        simp only [Option.some.injEq, Prod.mk.injEq] at hret
        obtain ⟨rfl, rfl⟩ := hret
        exact Or.inr ⟨rfl, e, rfl, he⟩
    · simp at h
  | caseResult =>
    simp only [step] at h
    split at h
    · rename_i users rest hr hc
      simp only [Option.some.injEq] at h
      subst h
      have hres : users = ["太郎", "花子", "次郎"] := h2 users (by simp [hc])
      refine ⟨?_, ?_, ?_, ?_⟩
      · intro r hr'
        exact h2 r (by simp [hc, hr'])
      · intro hf
        have := h3 hf
        rw [hc] at this
        simp at this
      · intro hn
        simp at hn
      · intro r err hret
        simp only [Option.some.injEq, Prod.mk.injEq] at hret
        obtain ⟨rfl, rfl⟩ := hret
        exact Or.inl ⟨by rw [hres], rfl⟩
    · simp at h

theorem query_potential_step (s s' : State) (l : Label) (h : step s l = some s') :
    potential s' + 1 ≤ potential s := by
  unfold potential
  cases l <;> simp only [step] at h <;> split at h <;>
    first
      | (simp at h; done)
      | (simp only [Option.some.injEq] at h
         subst h
         simp_all <;> (repeat' split) <;> omega)

end QueryUsers

/-- C16. In every interleaving `fetchData(ctx, url)` returns, within three
steps, either the non-empty result with a `nil` error, or "" with `ctx.Err()`
of a context that is terminal (`Canceled` or `DeadlineExceeded`), and nothing
else; likewise `queryUsers(ctx)` returns either the three users with a `nil`
error or a `nil` slice with `ctx.Err()` of a terminal context. -/
theorem C16_fetchData_queryUsers_result_shapes (e0 : Option Context.Error) (url : String) :
    (∀ (sched : List FetchData.Label) (s : FetchData.State),
      FetchData.run (FetchData.init e0 url) sched = some s →
        (∀ r err, s.ret = some (r, err) →
          (r = "データ取得成功" ∧ r ≠ "" ∧ err = none)
          ∨ (r = "" ∧ ∃ e, err = some (.context e) ∧ s.ctxErr = some e))
        ∧ (s.ret = none → ∃ l s', FetchData.step s l = some s')
        ∧ sched.length ≤ 3)
    ∧ (∀ (sched : List QueryUsers.Label) (s : QueryUsers.State),
      QueryUsers.run (QueryUsers.init e0) sched = some s →
        (∀ us err, s.ret = some (us, err) →
          (us = some ["太郎", "花子", "次郎"] ∧ err = none)
          ∨ (us = none ∧ ∃ e, err = some (.context e) ∧ s.ctxErr = some e))
        ∧ (s.ret = none → ∃ l s', QueryUsers.step s l = some s')
        ∧ sched.length ≤ 3) := by
  constructor
  · intro sched s hrun
    have hI := runFrom_invariant FetchData.step _
      (fun s l s' hI hs => FetchData.fetch_inv_step s s' l hI hs) sched
      (FetchData.init e0 url) s
      ⟨rfl, by simp [FetchData.init], fun _ => rfl,
        fun _ h => by simp [FetchData.init] at h,
        fun r err h => by simp [FetchData.init] at h⟩ hrun
    obtain ⟨h1, h2, h3, h4, h5⟩ := hI
    refine ⟨?_, ?_, ?_⟩
    · intro r err hr
      rcases h5 r err hr with ⟨ha, hb⟩ | hc
      · exact Or.inl ⟨ha, by rw [ha]; decide, hb⟩
      · exact Or.inr hc
    · intro hn
      cases hs : s.sent with
      | false =>
        exact ⟨.worker, _, by simp [FetchData.step, hs, h3 hs]; rfl⟩
      | true =>
        have hne := h4 hn hs
        cases hc : s.resultCh with
        | nil => exact absurd hc hne
        | cons x xs => exact ⟨.caseResult, _, by simp [FetchData.step, hn, hc]; rfl⟩
    · have := runFrom_potential FetchData.step FetchData.potential
        (fun s l s' h => FetchData.fetch_potential_step s s' l h) sched _ s hrun
      have h0 : FetchData.potential (FetchData.init e0 url) ≤ 3 := by
        unfold FetchData.potential FetchData.init
        simp only
        split <;> simp
      omega
  · intro sched s hrun
    have hI := runFrom_invariant QueryUsers.step _
      (fun s l s' hI hs => QueryUsers.query_inv_step s s' l hI hs) sched
      (QueryUsers.init e0) s
      ⟨by simp [QueryUsers.init], fun _ => rfl,
        fun _ h => by simp [QueryUsers.init] at h,
        fun r err h => by simp [QueryUsers.init] at h⟩ hrun
    obtain ⟨h2, h3, h4, h5⟩ := hI
    refine ⟨h5, ?_, ?_⟩
    · intro hn
      cases hs : s.sent with
      | false =>
        exact ⟨.worker, _, by simp [QueryUsers.step, hs, h3 hs]; rfl⟩
      | true =>
        have hne := h4 hn hs
        cases hc : s.resultCh with
        | nil => exact absurd hc hne
        | cons x xs => exact ⟨.caseResult, _, by simp [QueryUsers.step, hn, hc]; rfl⟩
    · have := runFrom_potential QueryUsers.step QueryUsers.potential
        (fun s l s' h => QueryUsers.query_potential_step s s' l h) sched _ s hrun
      have h0 : QueryUsers.potential (QueryUsers.init e0) ≤ 3 := by
        unfold QueryUsers.potential QueryUsers.init
        simp only
        split <;> simp
      omega

theorem C16_fetchData_queryUsers_result_shapes_witness :
    FetchData.run (FetchData.init none FetchData.demoUrl) [.worker, .caseResult]
      = some FetchData.demoReturned
    ∧ FetchData.run (FetchData.init none FetchData.demoUrl) [.expire, .caseDone]
      = some FetchData.demoTimedOut
    ∧ ((("" : String) = "データ取得成功" ∧ ("" : String) ≠ ""
          ∧ some (FetchData.GoError.context .DeadlineExceeded) = none)
        ∨ (("" : String) = "" ∧ ∃ e, some (FetchData.GoError.context .DeadlineExceeded)
              = some (.context e) ∧ FetchData.demoTimedOut.ctxErr = some e)) :=
  ⟨by decide, by decide,
   ((C16_fetchData_queryUsers_result_shapes none FetchData.demoUrl).1
      [.expire, .caseDone] FetchData.demoTimedOut (by decide)).1 _ _ rfl⟩

/-! ## The REST API -/

namespace RestAPI

theorem api_set_length_pos (errors : Errors) (k v : String) : 0 < (errors.set k v).length := by
  simp [Errors.set]

theorem api_set_lookup (errors : Errors) (k v : String) :
    (errors.set k v).lookup k = some v := by
  unfold Errors.set
  induction errors with
  | nil => simp [List.lookup]
  | cons x xs ih =>
    obtain ⟨a, b⟩ := x
    by_cases hk : a = k
    · have h1 : (a != k) = false := by simp [hk]
      simp only [List.filter_cons, h1]
      exact ih
    · have h1 : (a != k) = true := by simp [hk]
      have h2 : (k == a) = false := by
        simp only [beq_eq_false_iff_ne, ne_eq]
        exact fun h => hk h.symm
      simp only [List.filter_cons, h1, if_true, List.cons_append, List.lookup_cons, h2]
      exact ih

/-- A user without a password never passes `validateUser`. -/
theorem api_validateUser_no_password (user : User) (h : user.Password = "") :
    ∃ err, validateUser user = some err ∧ err.lookup "password" = some "Password is required" := by
  simp only [validateUser, h, if_true]
  rw [if_pos (by simpa using api_set_length_pos _ _ _)]
  exact ⟨_, rfl, api_set_lookup _ _ _⟩

/-- C17, on the code: the register request with user name, fresh email and a
password of nine characters is answered 400 "Validation failed" with the detail
"Password is required" and `users` and `nextUserID` stay as they were; in fact
no request at all is answered 201 or changes the store, because the decoder
never fills `Password`. -/
theorem C17_register_never_creates_user (now t : Time) :
    registerHandler (initialStore now) t ⟨"POST", "", "", some registerBody⟩
      = (initialStore now,
         respondError "Validation failed" 400 (some [("password", "Password is required")]))
    ∧ ∀ (st : Store) (r : Request),
        (registerHandler st t r).1 = st ∧ (registerHandler st t r).2.status ≠ 201 := by
  refine ⟨by simp [registerHandler, decodeUser, registerBody, validateUser, Errors.set], ?_⟩
  intro st r
  unfold registerHandler
  split
  · exact ⟨rfl, by simp [respondError]⟩
  · split
    · exact ⟨rfl, by simp [respondError]⟩
    · rename_i b _
      obtain ⟨err, herr, _⟩ := api_validateUser_no_password (decodeUser b) rfl
      dsimp only
      rw [herr]
      exact ⟨rfl, by simp [respondError]⟩

/-- C18 fails as stated: the empty password has fewer than 6 characters and is
rejected under the key "password" with "Password is required", not with
"Password must be at least 6 characters". -/
theorem C18_empty_password_message_counterexample :
    ("" : String).length < 6
    ∧ validateUser ⟨0, "jiro", "jiro@example.com", "", 0⟩
        = some [("password", "Password is required")]
    ∧ ((validateUser ⟨0, "jiro", "jiro@example.com", "", 0⟩).bind
          (fun err => err.lookup "password"))
        ≠ some "Password must be at least 6 characters" := by
  decide

end RestAPI

namespace RestAPI

/-- C18 (amended). For a password whose characters take one byte each:
`validateUser` returns nil if and only if the user name is non-empty, the email
is non-empty and the password has at least 6 characters; the empty password is
rejected with "Password is required" and every non-empty password of fewer than
6 characters with "Password must be at least 6 characters", both under the key
"password". -/
theorem C18_validateUser_nil_iff_fields_valid (user : User)
    (hbytes : user.Password.utf8ByteSize = user.Password.length) :
    (validateUser user = none ↔
      user.Username ≠ "" ∧ user.Email ≠ "" ∧ 6 ≤ user.Password.length)
    ∧ (user.Password = "" → ∃ err, validateUser user = some err
        ∧ err.lookup "password" = some "Password is required")
    ∧ (user.Password ≠ "" → user.Password.length < 6 → ∃ err, validateUser user = some err
        ∧ err.lookup "password" = some "Password must be at least 6 characters") := by
  have hlen : len user.Password < 6 ↔ user.Password.length < 6 := by
    unfold len
    rw [hbytes]
    exact Int.ofNat_lt
  refine ⟨?_, api_validateUser_no_password user, ?_⟩
  · by_cases hp : user.Password = ""
    · obtain ⟨err, herr, _⟩ := api_validateUser_no_password user hp
      rw [herr, hp]
      simp
    · by_cases hl : len user.Password < 6
      · have hl' := hlen.mp hl
        have : validateUser user ≠ none := by
          simp only [validateUser, hp, if_false, hl, if_true]
          rw [if_pos (by simpa using api_set_length_pos _ _ _)]
          simp
        constructor
        · intro h
          exact absurd h this
        · intro h
          omega
      · have hl' : 6 ≤ user.Password.length := by
          have := mt hlen.mpr hl
          omega
        by_cases hu : user.Username = "" <;> by_cases he : user.Email = "" <;>
          simp [validateUser, Errors.set, hu, he, hp, hl, hl']
  · intro hp hlt
    have hl := hlen.mpr hlt
    simp only [validateUser, hp, if_false, hl, if_true]
    rw [if_pos (by simpa using api_set_length_pos _ _ _)]
    exact ⟨_, rfl, api_set_lookup _ _ _⟩

theorem C18_validateUser_nil_iff_fields_valid_witness :
    ("abc" : String).utf8ByteSize = ("abc" : String).length
    ∧ ("secret123" : String).utf8ByteSize = ("secret123" : String).length
    ∧ validateUser ⟨0, "jiro", "jiro@example.com", "secret123", 0⟩ = none
    ∧ ∃ err, validateUser ⟨0, "jiro", "jiro@example.com", "abc", 0⟩ = some err
        ∧ err.lookup "password" = some "Password must be at least 6 characters" :=
  ⟨by decide, by decide,
   (C18_validateUser_nil_iff_fields_valid ⟨0, "jiro", "jiro@example.com", "secret123", 0⟩
      (by decide)).1.mpr (by decide),
   (C18_validateUser_nil_iff_fields_valid ⟨0, "jiro", "jiro@example.com", "abc", 0⟩
      (by decide)).2.2 (by decide) (by decide)⟩

set_option maxRecDepth 100000 in
/-- C19, on the code: a title of exactly 200 one-byte characters with a
non-empty content passes `validateCreatePost`, which returns nil, although the
title does not have less than 200 characters; one more character and it is
rejected with "Title must be less than 200 characters". -/
theorem C19_title_of_200_characters_passes :
    title200.length = 200
    ∧ validateCreatePost ⟨title200, "content", false⟩ = none
    ∧ validateCreatePost ⟨title200 ++ "a", "content", false⟩
        = some [("title", "Title must be less than 200 characters")] := by
  decide

set_option maxRecDepth 100000 in
/-- C20, on the code: with the two initial users, `page=4611686018427387905`
and `per_page=4` make `(page - 1) * perPage` wrap around to 0, so a page far
beyond `TotalPages = 1` is answered with both users instead of an empty list;
with `per_page=2` the product wraps to a negative `start` and the slice
expression panics. -/
theorem C20_huge_page_wraps_to_first_page :
    usersHandler (initialUsers 0) ⟨"GET", "4611686018427387905", "4", none⟩
      = some { status := 200,
               payload := .page { Data := initialUsers 0, Page := 4611686018427387905,
                                  PerPage := 4, Total := 2, TotalPages := 1 } }
    ∧ usersHandler (initialUsers 0) ⟨"GET", "4611686018427387905", "2", none⟩ = none
    ∧ usersHandler (initialUsers 0) ⟨"GET", "2", "4", none⟩
      = some { status := 200,
               payload := .page { Data := [], Page := 2,
                                  PerPage := 4, Total := 2, TotalPages := 1 } } := by
  decide

end RestAPI

/-! ## `BankAccount` -/

namespace Bank

/-- C26. `Withdraw(amount)` returns an error if and only if `amount > balance`,
and then leaves the account as it is; otherwise it returns nil and the balance
becomes `balance - amount` (in Go `int` arithmetic, which is the exact
difference whenever that fits in an `int`, in particular for every amount from
0 to the balance).  The account of `main`, opened with 1000, has balance 1200
after `Deposit(500)` and `Withdraw(300)`, and `Withdraw(2000)` then fails with
the balance still 1200. -/
theorem C26_withdraw_fails_iff_amount_exceeds_balance (ba : BankAccount) (amount : Int) :
    ((ba.Withdraw amount).2.isSome = true ↔ amount > ba.balance)
    ∧ (amount > ba.balance → (ba.Withdraw amount).1 = ba)
    ∧ (amount ≤ ba.balance →
        (ba.Withdraw amount).2 = none
        ∧ (ba.Withdraw amount).1.Balance = subInt ba.balance amount
        ∧ (ba.Withdraw amount).1.owner = ba.owner)
    ∧ (amount ≤ ba.balance → -(2 ^ 63) ≤ ba.balance - amount → ba.balance - amount < 2 ^ 63 →
        (ba.Withdraw amount).1.Balance = ba.balance - amount)
    ∧ (0 ≤ amount → amount ≤ ba.balance → 0 ≤ ba.balance → ba.balance < 2 ^ 63 →
        (ba.Withdraw amount).1.Balance = ba.balance - amount)
    ∧ ((NewBankAccount "太郎" 1000).Balance = 1000
        ∧ ((NewBankAccount "太郎" 1000).Deposit 500).Balance = 1500
        ∧ (((NewBankAccount "太郎" 1000).Deposit 500).Withdraw 300).2 = none
        ∧ demoAccount.Balance = 1200
        ∧ (demoAccount.Withdraw 2000).2.isSome = true
        ∧ (demoAccount.Withdraw 2000).1.Balance = 1200) := by
  refine ⟨?_, ?_, ?_, ?_, ?_, ?_⟩
  · unfold BankAccount.Withdraw
    split
    · rename_i h
      simp [h]
    · rename_i h
      simp [h]
  · intro h
    simp [BankAccount.Withdraw, h]
  · intro h
    have h' : ¬ amount > ba.balance := by omega
    simp [BankAccount.Withdraw, h', BankAccount.Balance]
  · intro h h1 h2
    have h' : ¬ amount > ba.balance := by omega
    simp only [BankAccount.Withdraw, h', if_false, BankAccount.Balance, subInt]
    exact wrap64_of_range _ h1 h2
  · intro h0 h h1 h2
    have h' : ¬ amount > ba.balance := by omega
    simp only [BankAccount.Withdraw, h', if_false, BankAccount.Balance, subInt]
    exact wrap64_of_range _ (by omega) (by omega)
  · decide

theorem C26_withdraw_fails_iff_amount_exceeds_balance_witness :
    (2000 : Int) > demoAccount.balance
    ∧ (demoAccount.Withdraw 2000).1 = demoAccount
    ∧ (300 : Int) ≤ ((NewBankAccount "太郎" 1000).Deposit 500).balance
    ∧ (((NewBankAccount "太郎" 1000).Deposit 500).Withdraw 300).1.Balance
        = ((NewBankAccount "太郎" 1000).Deposit 500).balance - 300 :=
  ⟨by decide,
   (C26_withdraw_fails_iff_amount_exceeds_balance demoAccount 2000).2.1 (by decide),
   by decide,
   (C26_withdraw_fails_iff_amount_exceeds_balance
      ((NewBankAccount "太郎" 1000).Deposit 500) 300).2.2.2.2.1
      (by decide) (by decide) (by decide) (by decide)⟩

end Bank

/-! ## `UserStore` -/

namespace RestCRUD

theorem crud_get_set (m : UserMap) (id id' : Int) (v : User) :
    (m.set id v).get id' = if id = id' then some v else m.get id' := by
  induction m with
  | nil =>
    simp only [UserMap.set, UserMap.get]
  | cons p rest ih =>
    obtain ⟨k, u⟩ := p
    simp only [UserMap.set]
    by_cases hk : k = id
    · subst hk
      simp only [if_true, UserMap.get]
      split <;> rfl
    · simp only [hk, if_false, UserMap.get, ih]
      by_cases hk' : k = id'
      · have : ¬ id = id' := fun h => hk (hk'.trans h.symm)
        simp [hk', this]
      · simp [hk']

theorem crud_get_delete (m : UserMap) (id id' : Int) :
    (m.delete id).get id' = if id = id' then none else m.get id' := by
  induction m with
  | nil => simp [UserMap.delete, UserMap.get]
  | cons p rest ih =>
    obtain ⟨k, u⟩ := p
    simp only [UserMap.delete]
    by_cases hk : k = id
    · subst hk
      simp only [if_true, ih, UserMap.get]
      split <;> rfl
    · simp only [hk, if_false, UserMap.get, ih]
      by_cases hk' : k = id'
      · have : ¬ id = id' := fun h => hk (hk'.trans h.symm)
        simp [hk', this]
      · simp [hk']

theorem crud_set_length (m : UserMap) (id : Int) (u v : User) (h : m.get id = some u) :
    (m.set id v).length = m.length := by
  induction m with
  | nil => simp [UserMap.get] at h
  | cons p rest ih =>
    obtain ⟨k, w⟩ := p
    simp only [UserMap.get] at h
    simp only [UserMap.set]
    split
    · rfl
    · rename_i hk
      simp only [hk, if_false] at h
      simp [ih h]

theorem crud_mem_of_get (m : UserMap) (id : Int) (u : User) (h : m.get id = some u) :
    (id, u) ∈ m := by
  induction m with
  | nil => simp [UserMap.get] at h
  | cons p rest ih =>
    obtain ⟨k, w⟩ := p
    simp only [UserMap.get] at h
    split at h
    · rename_i hk
      simp only [Option.some.injEq] at h
      simp [hk, h]
    · simp [ih h]

theorem crud_mem_set (m : UserMap) (id : Int) (v : User) (p : Int × User)
    (h : p ∈ m.set id v) : p ∈ m ∨ p = (id, v) := by
  induction m with
  | nil =>
    simp only [UserMap.set, List.mem_singleton] at h
    exact Or.inr h
  | cons q rest ih =>
    obtain ⟨k, w⟩ := q
    simp only [UserMap.set] at h
    split at h
    · rename_i hk
      simp only [List.mem_cons] at h
      rcases h with h | h
      · exact Or.inr (by rw [h, hk])
      · exact Or.inl (by simp [h])
    · simp only [List.mem_cons] at h
      rcases h with h | h
      · exact Or.inl (by simp [h])
      · rcases ih h with h' | h'
        · exact Or.inl (by simp [h'])
        · exact Or.inr h'

theorem crud_delete_eq_filter (m : UserMap) (id : Int) :
    m.delete id = m.filter (fun p => decide (p.1 ≠ id)) := by
  induction m with
  | nil => rfl
  | cons q rest ih =>
    obtain ⟨k, w⟩ := q
    simp only [UserMap.delete, List.filter_cons]
    by_cases hk : k = id
    · simp [hk, ih]
    · simp [hk, ih]

/-- In every store made by calls of the methods, a user is stored under its
own `ID`. -/
theorem crud_exec_id (ops : List Op) : ∀ p ∈ (exec ops).users, p.2.ID = p.1 := by
  unfold exec
  have key : ∀ (ops : List Op) (s : UserStore), (∀ p ∈ s.users, p.2.ID = p.1) →
      ∀ p ∈ (ops.foldl Op.apply s).users, p.2.ID = p.1 := by
    intro ops
    induction ops with
    | nil => intro s h; exact h
    | cons op ops ih =>
      intro s h
      apply ih
      cases op with
      | create name email t1 t2 =>
        intro p hp
        simp only [Op.apply, UserStore.Create] at hp
        rcases crud_mem_set _ _ _ _ hp with hp | hp
        · exact h p hp
        · rw [hp]
      | update id name email now =>
        intro p hp
        simp only [Op.apply, UserStore.Update] at hp
        split at hp
        · exact h p hp
        · rename_i user hu
          have hid := h _ (crud_mem_of_get _ _ _ hu)
          rcases crud_mem_set _ _ _ _ hp with hp | hp
          · exact h p hp
          · rw [hp]
            simp only at hid ⊢
            split <;> split <;> exact hid
      | delete id =>
        intro p hp
        simp only [Op.apply, UserStore.Delete] at hp
        split at hp
        · exact h p hp
        · rw [crud_delete_eq_filter] at hp
          exact h p (List.mem_of_mem_filter hp)
  exact key ops NewUserStore (by simp [NewUserStore])

end RestCRUD

namespace RestCRUD

/-- C24. `Update(id, name, email)` on a stored id writes back the same user
with `Name` replaced only when `name` is non-empty, `Email` replaced only when
`email` is non-empty and `UpdatedAt` set; `ID` and `CreatedAt` are kept, that
user is what `GetByID(id)` returns afterwards, every other id gives what it
gave before, and `nextID` and the number of users are unchanged.  On an unknown
id it returns the not-found error and the store is unchanged.  On the store of
`main`, `Update(1, "太郎2", "")` renames user 1 and keeps its email. -/
theorem C24_update_changes_only_given_fields (s : UserStore) (id : Int)
    (name email : String) (now : Time) :
    (∀ user, s.GetByID id = (some user, none) →
      (s.Update id name email now).2
        = (some { ID := user.ID, Name := if name = "" then user.Name else name,
                  Email := if email = "" then user.Email else email,
                  CreatedAt := user.CreatedAt, UpdatedAt := now }, none)
      ∧ (s.Update id name email now).1.GetByID id = (s.Update id name email now).2
      ∧ (∀ id', id' ≠ id → (s.Update id name email now).1.GetByID id' = s.GetByID id')
      ∧ (s.Update id name email now).1.nextID = s.nextID
      ∧ Multiset.card (s.Update id name email now).1.GetAll = Multiset.card s.GetAll)
    ∧ (s.GetByID id = (none, some notFound) →
        s.Update id name email now = (s, (none, some notFound)))
    ∧ (∀ t, ((exec (mainOps t)).Update 1 "太郎2" "" now).2
        = (some { ID := 1, Name := "太郎2", Email := "taro@example.com", CreatedAt := t,
                  UpdatedAt := now }, none)) := by
  refine ⟨?_, ?_, ?_⟩
  · intro user h
    have hg : s.users.get id = some user := by
      unfold UserStore.GetByID at h
      split at h
      · simp at h
      · rename_i u hu
        simp only [Prod.mk.injEq, Option.some.injEq, and_true] at h
        rw [hu, h]
    obtain ⟨u', hu'⟩ : ∃ u' : User,
        u' = { ID := user.ID, Name := if name = "" then user.Name else name,
               Email := if email = "" then user.Email else email,
               CreatedAt := user.CreatedAt, UpdatedAt := now } := ⟨_, rfl⟩
    rw [← hu']
    have hupd : s.Update id name email now
        = ({ s with users := s.users.set id u' }, (some u', none)) := by
      subst hu'
      simp only [UserStore.Update, hg]
      by_cases hn : name = "" <;> by_cases he : email = "" <;> simp [hn, he]
    rw [hupd]
    refine ⟨rfl, ?_, ?_, rfl, ?_⟩
    · simp [UserStore.GetByID, crud_get_set]
    · intro id' hne
      have : ¬ id = id' := fun h => hne h.symm
      simp [UserStore.GetByID, crud_get_set, this]
    · simp [UserStore.GetAll, crud_set_length _ _ _ _ hg]
  · intro h
    have hg : s.users.get id = none := by
      unfold UserStore.GetByID at h
      split at h
      · assumption
      · simp at h
    simp [UserStore.Update, hg]
  · intro t
    rfl

theorem C24_update_changes_only_given_fields_witness :
    (exec (mainOps 5)).GetByID 1
      = (some { ID := 1, Name := "太郎", Email := "taro@example.com", CreatedAt := 5,
                UpdatedAt := 5 }, none)
    ∧ ((exec (mainOps 5)).Update 1 "太郎2" "" 9).2
      = (some { ID := 1, Name := "太郎2", Email := "taro@example.com", CreatedAt := 5,
                UpdatedAt := 9 }, none)
    ∧ (exec (mainOps 5)).GetByID 7 = (none, some notFound)
    ∧ (exec (mainOps 5)).Update 7 "x" "y" 9 = (exec (mainOps 5), (none, some notFound)) :=
  ⟨by decide,
   ((C24_update_changes_only_given_fields (exec (mainOps 5)) 1 "太郎2" "" 9).1
      { ID := 1, Name := "太郎", Email := "taro@example.com", CreatedAt := 5, UpdatedAt := 5 }
      (by decide)).1,
   by decide,
   (C24_update_changes_only_given_fields (exec (mainOps 5)) 7 "x" "y" 9).2.1 (by decide)⟩

/-- C25. On a store made by calls of the methods, `Delete(id)` returns an error
if and only if no user is stored under `id`, and then the store is unchanged;
after a successful `Delete(id)`, `GetByID(id)` returns the not-found error,
what `GetAll` returns is, up to the order of the slice, what it returned before
without the users of that `ID` (so the deleted user is not in it, and every
slice it can return is a permutation of any former one with those users
removed), and every other id gives with `GetByID` what it gave before. -/
theorem C25_delete_removes_exactly_that_user (ops : List Op) (id : Int) :
    (((exec ops).Delete id).2.isSome = true ↔ ((exec ops).GetByID id).1 = none)
    ∧ (((exec ops).GetByID id).1 = none →
        (exec ops).Delete id = (exec ops, some notFound))
    ∧ (((exec ops).Delete id).2 = none →
        ((exec ops).Delete id).1.GetByID id = (none, some notFound)
        ∧ ((exec ops).Delete id).1.GetAll
            = (exec ops).GetAll.filter (fun u => u.ID ≠ id)
        ∧ (∀ before after : List User, Multiset.ofList before = (exec ops).GetAll →
            Multiset.ofList after = ((exec ops).Delete id).1.GetAll →
            after.Perm (before.filter (fun u => decide (u.ID ≠ id))))
        ∧ (∀ user, ((exec ops).GetByID id).1 = some user →
            user ∉ ((exec ops).Delete id).1.GetAll)
        ∧ (∀ u ∈ ((exec ops).Delete id).1.GetAll, u.ID ≠ id)
        ∧ (∀ id', id' ≠ id →
            ((exec ops).Delete id).1.GetByID id' = (exec ops).GetByID id')
        ∧ ((exec ops).Delete id).1.nextID = (exec ops).nextID) := by
  have hid := crud_exec_id ops
  generalize exec ops = s at hid ⊢
  cases hg : s.users.get id with
  | none =>
    refine ⟨by simp [UserStore.Delete, UserStore.GetByID, hg],
      fun _ => by simp [UserStore.Delete, hg], fun h => ?_⟩
    simp [UserStore.Delete, hg] at h
  | some user =>
    have hdel : s.Delete id = ({ s with users := s.users.delete id }, none) := by
      simp [UserStore.Delete, hg]
    have hlist : (s.users.delete id).map Prod.snd
        = (s.users.map Prod.snd).filter (fun u => decide (u.ID ≠ id)) := by
      rw [crud_delete_eq_filter, List.filter_map]
      congr 1
      apply List.filter_congr
      intro p hp
      simp [Function.comp, hid p hp]
    have hall : ({ s with users := s.users.delete id } : UserStore).GetAll
        = s.GetAll.filter (fun u => u.ID ≠ id) := by
      simp only [UserStore.GetAll, hlist]
      rfl
    refine ⟨by simp [hdel, UserStore.GetByID, hg],
      fun h => by simp [UserStore.GetByID, hg] at h, fun _ => ?_⟩
    rw [hdel]
    refine ⟨by simp [UserStore.GetByID, crud_get_delete], hall, ?_, ?_, ?_, ?_, rfl⟩
    · intro before after hb ha
      have h1 : Multiset.ofList after
          = Multiset.ofList (before.filter (fun u => decide (u.ID ≠ id))) := by
        rw [ha]
        show ({ s with users := s.users.delete id } : UserStore).GetAll = _
        rw [hall, ← hb]
        rfl
      exact Multiset.coe_eq_coe.mp h1
    · intro u hu hmem
      have hu' : u = user := by
        simp only [UserStore.GetByID, hg, Option.some.injEq] at hu
        exact hu.symm
      have huid : u.ID = id := by
        rw [hu']
        exact hid _ (crud_mem_of_get _ _ _ hg)
      have hmem' : u ∈ s.GetAll.filter (fun u => u.ID ≠ id) := by
        rw [← hall]
        exact hmem
      exact (Multiset.mem_filter.mp hmem').2 huid
    · intro u hmem
      have hmem' : u ∈ s.GetAll.filter (fun u => u.ID ≠ id) := by
        rw [← hall]
        exact hmem
      exact (Multiset.mem_filter.mp hmem').2
    · intro id' hne
      have : ¬ id = id' := fun h => hne h.symm
      simp [UserStore.GetByID, crud_get_delete, this]

theorem C25_delete_removes_exactly_that_user_witness :
    ((exec (mainOps 5)).Delete 2).2 = none
    ∧ ((exec (mainOps 5)).Delete 2).1.GetByID 2 = (none, some notFound)
    ∧ ((exec (mainOps 5)).Delete 2).1.GetAll
        = Multiset.ofList
          [{ ID := 3, Name := "次郎", Email := "jiro@example.com", CreatedAt := 5,
             UpdatedAt := 5 },
           { ID := 1, Name := "太郎", Email := "taro@example.com", CreatedAt := 5,
             UpdatedAt := 5 }]
    ∧ ((exec (mainOps 5)).GetByID 7).1 = none
    ∧ (exec (mainOps 5)).Delete 7 = (exec (mainOps 5), some notFound) :=
  ⟨by decide,
   ((C25_delete_removes_exactly_that_user (mainOps 5) 2).2.2 (by decide)).1,
   Multiset.coe_eq_coe.mpr (by decide), by decide,
   (C25_delete_removes_exactly_that_user (mainOps 5) 7).2.1 (by decide)⟩

end RestCRUD

/-! ## Middleware -/

namespace WebMiddleware

theorem web_chainLoop_eq (middlewares : List Middleware) :
    ∀ (n : Nat) (final : Handler), n ≤ middlewares.length →
      chainLoop middlewares n final
        = (middlewares.take n).foldr (fun m h => m h) final := by
  intro n
  induction n with
  | zero => intro final _; rfl
  | succ n ih =>
    intro final hn
    have hlt : n < middlewares.length := by omega
    simp only [chainLoop, List.getElem?_eq_getElem hlt]
    rw [ih _ (by omega), List.take_succ, List.getElem?_eq_getElem hlt, List.foldr_append]
    rfl

theorem web_chain_eq_foldr (middlewares : List Middleware) (final : Handler) :
    chain middlewares final = middlewares.foldr (fun m h => m h) final := by
  unfold chain
  rw [web_chainLoop_eq middlewares _ final (le_refl _), List.take_length]

/-- C21. `chain(m1, ..., mn)(h) = m1(m2(...(mn(h))...))`: the first middleware
listed is the outermost one; `chain()` returns `h`, and
`chain(ms1 ++ ms2)(h) = chain(ms1)(chain(ms2)(h))`.  For `/api/data` of `main`
the handler is `loggingMiddleware(corsMiddleware(authMiddleware(dataHandler)))`,
and on a request the line of `loggingMiddleware` is the first one logged. -/
theorem C21_chain_first_listed_is_outermost (middlewares : List Middleware)
    (final : Handler) :
    chain middlewares final = middlewares.foldr (fun m h => m h) final
    ∧ chain [] final = final
    ∧ (∀ (m : Middleware) (rest : List Middleware),
        chain (m :: rest) final = m (chain rest final))
    ∧ (∀ ms1 ms2 : List Middleware, chain (ms1 ++ ms2) final = chain ms1 (chain ms2 final))
    ∧ chain [loggingMiddleware, corsMiddleware, authMiddleware] dataHandler
        = loggingMiddleware (corsMiddleware (authMiddleware dataHandler))
    ∧ (chain [loggingMiddleware, corsMiddleware, authMiddleware] dataHandler demoRequest
          World.init).log
        = [.request "GET" "/api/data" "127.0.0.1:50000", .authOK, .elapsed] := by
  refine ⟨web_chain_eq_foldr _ _, rfl, ?_, ?_, rfl, by decide⟩
  · intro m rest
    rw [web_chain_eq_foldr, web_chain_eq_foldr]
    rfl
  · intro ms1 ms2
    rw [web_chain_eq_foldr, web_chain_eq_foldr, web_chain_eq_foldr, List.foldr_append]

/-- C22. `authMiddleware(next)` hands the request to `next` exactly when the
`Authorization` header is "Bearer secret-token"; for every other value, the
missing and the empty header included, the result does not depend on `next`:
nothing is logged, the status sent is 401 and the body is the error line only.
With a `next` that leaves a line in the log, that line appears if and only if
the token is the right one. -/
theorem C22_auth_passes_only_the_token (next : Handler) (r : Request) (world : World) :
    (r.Header.Get "Authorization" = "Bearer secret-token" →
      authMiddleware next r world = next r { world with log := world.log ++ [.authOK] })
    ∧ (r.Header.Get "Authorization" ≠ "Bearer secret-token" →
      (∀ next' : Handler, authMiddleware next r world = authMiddleware next' r world)
      ∧ (authMiddleware next r world).log = world.log
      ∧ (authMiddleware next r world).requestCount = world.requestCount
      ∧ (world.w.status = none → (authMiddleware next r world).w.status = some 401)
      ∧ (authMiddleware next r world).w.body
          = world.w.body ++ (if r.Header.Get "Authorization" = "" then "認証が必要です\n"
                             else "無効なトークンです\n"))
    ∧ (LogEntry.line "next" ∉ world.log →
        (LogEntry.line "next" ∈ (authMiddleware probe r world).log
          ↔ r.Header.Get "Authorization" = "Bearer secret-token")) := by
  refine ⟨?_, ?_, ?_⟩
  · intro h
    simp [authMiddleware, h]
  · intro h
    by_cases he : r.Header.Get "Authorization" = ""
    · refine ⟨fun _ => by simp [authMiddleware, he], by simp [authMiddleware, he],
        by simp [authMiddleware, he], ?_, ?_⟩
      · intro hs
        simp [authMiddleware, he, Error, ResponseWriter.WriteHeader, ResponseWriter.Write, hs]
      · simp only [authMiddleware, he, if_true, Error, ResponseWriter.WriteHeader,
          ResponseWriter.Write]
        split <;> simp
    · refine ⟨fun _ => by simp [authMiddleware, he, h], by simp [authMiddleware, he, h],
        by simp [authMiddleware, he, h], ?_, ?_⟩
      · intro hs
        simp [authMiddleware, he, h, Error, ResponseWriter.WriteHeader,
          ResponseWriter.Write, hs]
      · simp only [authMiddleware, he, if_false, h, ne_eq, not_false_eq_true, if_true, Error,
          ResponseWriter.WriteHeader, ResponseWriter.Write]
        split <;> simp
  · intro hn
    by_cases h : r.Header.Get "Authorization" = "Bearer secret-token"
    · simp [authMiddleware, h, probe]
    · by_cases he : r.Header.Get "Authorization" = ""
      · simp [authMiddleware, he, h, hn]
      · simp [authMiddleware, he, h, hn]

theorem C22_auth_passes_only_the_token_witness :
    demoRequest.Header.Get "Authorization" = "Bearer secret-token"
    ∧ authMiddleware protectedHandler demoRequest World.init
      = protectedHandler demoRequest { World.init with log := World.init.log ++ [.authOK] }
    ∧ anonymousRequest.Header.Get "Authorization" ≠ "Bearer secret-token"
    ∧ (authMiddleware protectedHandler anonymousRequest World.init).w.status = some 401
    ∧ (authMiddleware protectedHandler anonymousRequest World.init).w.body = "認証が必要です\n" :=
  ⟨by decide,
   (C22_auth_passes_only_the_token protectedHandler demoRequest World.init).1 (by decide),
   by decide,
   ((C22_auth_passes_only_the_token protectedHandler anonymousRequest World.init).2.1
      (by decide)).2.2.2.1 (by decide),
   by decide⟩

end WebMiddleware

namespace WebMiddleware

theorem web_counts_get_set (m : Counts) (ip ip' : String) (n : Int) :
    (m.set ip n).get ip' = if ip = ip' then n else m.get ip' := by
  unfold Counts.set Counts.get
  induction m with
  | nil =>
    by_cases h : ip = ip'
    · simp [List.lookup, h]
    · have h' : (ip' == ip) = false := by
        simp only [beq_eq_false_iff_ne, ne_eq]
        exact fun e => h e.symm
      simp [List.lookup, h, h']
  | cons p rest ih =>
    obtain ⟨a, b⟩ := p
    by_cases ha : a = ip
    · have h1 : (a != ip) = false := by simp [ha]
      simp only [List.filter_cons, h1, Bool.false_eq_true, if_false]
      rw [ih]
      by_cases h : ip = ip'
      · simp [h]
      · have h' : (ip' == a) = false := by
          simp only [beq_eq_false_iff_ne, ne_eq]
          exact fun e => h (ha ▸ e.symm)
        simp [h, List.lookup_cons, h']
    · have h1 : (a != ip) = true := by simp [ha]
      simp only [List.filter_cons, h1, if_true, List.cons_append, List.lookup_cons]
      by_cases h2 : ip' = a
      · have hne : ¬ ip = a := fun e => ha e.symm
        simp [h2, hne]
      · have h' : (ip' == a) = false := by simpa using h2
        simp only [h']
        exact ih

theorem web_wrap64_idem (x : Int) : wrap64 (wrap64 x) = wrap64 x := by
  have := wrap64_add_wrap64 x 0
  simpa using this

theorem web_rate_limit_count (next : Handler)
    (hnext : ∀ r world, (next r world).requestCount = world.requestCount)
    (r : Request) (world : World) :
    (rateLimitMiddleware next r world).requestCount
      = world.requestCount.set r.RemoteAddr
          (addInt (world.requestCount.get r.RemoteAddr) 1) := by
  simp only [rateLimitMiddleware]
  split
  · rfl
  · rw [hnext]

theorem web_serve_count (next : Handler)
    (hnext : ∀ r world, (next r world).requestCount = world.requestCount) (addr : String) :
    ∀ (reqs : List Request) (world : World),
      wrap64 (world.requestCount.get addr) = world.requestCount.get addr →
      (serve (rateLimitMiddleware next) reqs world).requestCount.get addr
        = wrap64 (world.requestCount.get addr + seen reqs addr) := by
  intro reqs
  induction reqs with
  | nil =>
    intro world h
    simp [serve, seen, h]
  | cons r rest ih =>
    intro world h
    have hstep : (rateLimitMiddleware next r { world with w := ResponseWriter.new }).requestCount
        = world.requestCount.set r.RemoteAddr
            (addInt (world.requestCount.get r.RemoteAddr) 1) :=
      web_rate_limit_count next hnext r _
    have hserve : serve (rateLimitMiddleware next) (r :: rest) world
        = serve (rateLimitMiddleware next) rest
            (rateLimitMiddleware next r { world with w := ResponseWriter.new }) := rfl
    rw [hserve]
    by_cases ha : r.RemoteAddr = addr
    · have hget : (rateLimitMiddleware next r
          { world with w := ResponseWriter.new }).requestCount.get addr
          = wrap64 (world.requestCount.get addr + 1) := by
        rw [hstep, web_counts_get_set, if_pos ha, ha]
        rfl
      rw [ih _ (by rw [hget, web_wrap64_idem]), hget, wrap64_add_wrap64]
      have : seen (r :: rest) addr = seen rest addr + 1 := by
        simp [seen, List.filter_cons, ha]
      rw [this]
      push_cast
      ring_nf
    · have hget : (rateLimitMiddleware next r
          { world with w := ResponseWriter.new }).requestCount.get addr
          = world.requestCount.get addr := by
        rw [hstep, web_counts_get_set, if_neg ha]
      rw [ih _ (by rw [hget, h]), hget]
      have : seen (r :: rest) addr = seen rest addr := by
        simp [seen, List.filter_cons, ha]
      rw [this]

/-- After any requests served one at a time, the count of an address is the
number of requests that came from it (as a Go `int`). -/
theorem web_limited_count (next : Handler)
    (hnext : ∀ r world, (next r world).requestCount = world.requestCount)
    (reqs : List Request) (addr : String) :
    (limited next reqs).requestCount.get addr = wrap64 (seen reqs addr) := by
  have := web_serve_count next hnext addr reqs World.init (by simp [World.init, Counts.get, wrap64])
  simpa [limited, World.init, Counts.get] using this

/-- What `rateLimitMiddleware` does with the next request, by the count as a
Go `int`. -/
theorem web_rate_limit_decision (next : Handler)
    (hnext : ∀ r world, (next r world).requestCount = world.requestCount)
    (reqs : List Request) (r : Request) :
    rateLimitMiddleware next r { limited next reqs with w := ResponseWriter.new }
      = if wrap64 ((seen reqs r.RemoteAddr : Int) + 1) ≤ 10 then
          next r (counted (limited next reqs) r (wrap64 ((seen reqs r.RemoteAddr : Int) + 1)))
        else
          { counted (limited next reqs) r (wrap64 ((seen reqs r.RemoteAddr : Int) + 1)) with
            w := Error ResponseWriter.new "レート制限を超えました" 429 } := by
  have hc := web_limited_count next hnext reqs r.RemoteAddr
  have hadd : addInt ((limited next reqs).requestCount.get r.RemoteAddr) 1
      = wrap64 ((seen reqs r.RemoteAddr : Int) + 1) := by
    rw [hc]
    exact wrap64_add_wrap64 _ _
  simp only [rateLimitMiddleware, hadd, web_counts_get_set, if_true, counted]
  by_cases h10 : wrap64 ((seen reqs r.RemoteAddr : Int) + 1) ≤ 10
  · have : ¬ (wrap64 ((seen reqs r.RemoteAddr : Int) + 1) > 10) := by omega
    simp [h10, this]
  · have : wrap64 ((seen reqs r.RemoteAddr : Int) + 1) > 10 := by omega
    simp [h10, this]

theorem web_count_in_range (reqs : List Request) (addr : String)
    (hk : (seen reqs addr : Int) + 1 < 2 ^ 63) :
    wrap64 ((seen reqs addr : Int) + 1) = (seen reqs addr : Int) + 1 := by
  have hk0 : (0 : Int) ≤ seen reqs addr := Int.natCast_nonneg _
  exact wrap64_of_range _ (by omega) (by omega)

end WebMiddleware

namespace WebMiddleware

/-- C23. Serving requests one at a time through `rateLimitMiddleware(next)`,
with a `next` that leaves `requestCount` alone: the count of every address is
the number of requests that came from it (as a Go `int`), whatever came from
other addresses, and the request is handed to `next` exactly when its count is
at most 10.  So the `k`-th request of an address is handed to `next` when
`k ≤ 10`, and for `k > 10` (`k` being the count while it is below `2^63`) it is
answered 429 by the middleware alone, `next` not being called.  With a `next`
that leaves a line in the log, the line is added if and only if `k ≤ 10`. -/
theorem C23_rate_limit_passes_first_ten_per_address (next : Handler)
    (hnext : ∀ r world, (next r world).requestCount = world.requestCount)
    (reqs : List Request) (r : Request) :
    (∀ addr, (limited next reqs).requestCount.get addr = wrap64 (seen reqs addr))
    ∧ rateLimitMiddleware next r { limited next reqs with w := ResponseWriter.new }
      = (if wrap64 ((seen reqs r.RemoteAddr : Int) + 1) ≤ 10 then
          next r (counted (limited next reqs) r (wrap64 ((seen reqs r.RemoteAddr : Int) + 1)))
        else
          { counted (limited next reqs) r (wrap64 ((seen reqs r.RemoteAddr : Int) + 1)) with
            w := Error ResponseWriter.new "レート制限を超えました" 429 })
    ∧ ((seen reqs r.RemoteAddr : Int) + 1 ≤ 10 →
        rateLimitMiddleware next r { limited next reqs with w := ResponseWriter.new }
          = next r (counted (limited next reqs) r (seen reqs r.RemoteAddr + 1)))
    ∧ (10 < (seen reqs r.RemoteAddr : Int) + 1 → (seen reqs r.RemoteAddr : Int) + 1 < 2 ^ 63 →
        rateLimitMiddleware next r { limited next reqs with w := ResponseWriter.new }
          = { counted (limited next reqs) r (seen reqs r.RemoteAddr + 1) with
              w := Error ResponseWriter.new "レート制限を超えました" 429 }
        ∧ (rateLimitMiddleware next r
            { limited next reqs with w := ResponseWriter.new }).w.status = some 429
        ∧ (rateLimitMiddleware next r
            { limited next reqs with w := ResponseWriter.new }).log = (limited next reqs).log)
    ∧ ((seen reqs r.RemoteAddr : Int) + 1 < 2 ^ 63 →
        ((rateLimitMiddleware probe r
            { limited probe reqs with w := ResponseWriter.new }).log
            = (limited probe reqs).log ++ [.line "next"]
          ↔ (seen reqs r.RemoteAddr : Int) + 1 ≤ 10)) := by
  refine ⟨web_limited_count next hnext reqs, web_rate_limit_decision next hnext reqs r,
    ?_, ?_, ?_⟩
  · intro h
    rw [web_rate_limit_decision next hnext reqs r,
      web_count_in_range reqs _ (by omega), if_pos h]
  · intro h hk
    have h' : ¬ ((seen reqs r.RemoteAddr : Int) + 1 ≤ 10) := by omega
    rw [web_rate_limit_decision next hnext reqs r, web_count_in_range reqs _ hk, if_neg h']
    exact ⟨rfl, rfl, rfl⟩
  · intro hk
    rw [web_rate_limit_decision probe (fun _ _ => rfl) reqs r, web_count_in_range reqs _ hk]
    by_cases h : (seen reqs r.RemoteAddr : Int) + 1 ≤ 10
    · simp [h, probe, counted]
    · simp [h, counted]

theorem C23_rate_limit_passes_first_ten_per_address_witness :
    (10 : Int) < (seen demoTraffic demoRequest.RemoteAddr : Int) + 1
    ∧ (rateLimitMiddleware probe demoRequest
        { limited probe demoTraffic with w := ResponseWriter.new }).w.status = some 429
    ∧ (seen demoTraffic anonymousRequest.RemoteAddr : Int) + 1 ≤ 10
    ∧ rateLimitMiddleware probe anonymousRequest
        { limited probe demoTraffic with w := ResponseWriter.new }
      = probe anonymousRequest (counted (limited probe demoTraffic) anonymousRequest
          (seen demoTraffic anonymousRequest.RemoteAddr + 1)) :=
  ⟨by decide,
   ((C23_rate_limit_passes_first_ten_per_address probe (fun _ _ => rfl) demoTraffic
      demoRequest).2.2.2.1 (by decide) (by decide)).2.1,
   by decide,
   (C23_rate_limit_passes_first_ten_per_address probe (fun _ _ => rfl) demoTraffic
      anonymousRequest).2.2.1 (by decide)⟩

end WebMiddleware

end GoLearn
